import Mathlib

/-!
Shallow embedding of the bitboard chess move generator from `src/lib.rs`
(IndaPlus23/linug-chess).  Machine `u64` values are embedded as `Nat` with an
explicit `% 2 ^ 64` wherever the Rust code wraps (left shifts, wrapping
multiplication, wrapping subtraction).  Square indexing follows the source:
bit 0 = h1, bit 7 = a1, bit 56 = h8, bit 63 = a8.
-/

set_option maxRecDepth 20000

namespace Chess

/-- The modulus of 64-bit machine words. -/
def U : Nat := 2 ^ 64

/-- Bitwise complement at 64-bit width (Rust `!x` on `u64`). -/
def not64 (x : Nat) : Nat := (U - 1) ^^^ x

/-- Wrapping 64-bit left shift (Rust `<<` on `u64` discards shifted-out bits). -/
def shl (a k : Nat) : Nat := (a <<< k) % U

/-- Wrapping 64-bit subtraction (Rust `wrapping_sub`). -/
def wsub (a b : Nat) : Nat := (a % U + (U - b % U)) % U

/-- Wrapping 64-bit multiplication (Rust `wrapping_mul`). -/
def wmul (a b : Nat) : Nat := (a * b) % U

/-- Piece kinds; `Void` is the sentinel used for "no piece" / "no promotion"
(source `enum Piece`). -/
inductive Piece where
  | King | Queen | Bishop | Knight | Rook | Pawn | Void
deriving DecidableEq, Repr

/-- Game outcome (source `enum GameResult`). -/
inductive GameResult where
  | WhiteWin | BlackWin | Draw
deriving DecidableEq, Repr

/-- Source constant `PIECES`, the iteration order of real pieces. -/
def PIECES : List Piece := [.Pawn, .Knight, .Bishop, .Rook, .Queen, .King]

/-- Source constant `PROMOTIONS`. -/
def PROMOTIONS : List Piece := [.Queen, .Rook, .Knight, .Bishop]

/-- A move record (source `struct Move`); `from_sq` is the source field `from`
(`from` is reserved in Lean).  Both squares are single-bit bitboards. -/
structure Move where
  from_sq : Nat
  destination : Nat
  piece : Piece
  promotion : Piece
deriving DecidableEq, Repr

/-- A position (source `struct Position`).  The six per-piece boards of each
side are a function from `Piece` (the source indexes a 6-array by the enum
discriminant; the `Void` slot is unused by the source and never read here). -/
structure Position where
  w_board : Piece → Nat
  b_board : Piece → Nat
  w_all : Nat
  b_all : Nat
  w_turn : Bool
  en_passent_target_square : Nat
  legal_moves : List Move

/-- Write one slot of a piece-board array. -/
def updBoard (f : Piece → Nat) (k : Piece) (v : Nat) : Piece → Nat :=
  fun q => if q = k then v else f q

/-- `board[piece] &= mask` for every piece in `PIECES` (the capture-clearing
loops of the source); the unused `Void` slot is left untouched. -/
def clearPieces (f : Piece → Nat) (mask : Nat) : Piece → Nat :=
  fun q => if q = .Void then f q else f q &&& mask

/-- Source constant `NOT_ON_H_FILE`. -/
def NOT_ON_H_FILE : Nat :=
  0b1111111011111110111111101111111011111110111111101111111011111110

/-- Source constant `NOT_ON_A_FILE`. -/
def NOT_ON_A_FILE : Nat :=
  0b0111111101111111011111110111111101111111011111110111111101111111

/-- Source constant `NOT_ON_GH_FILE`. -/
def NOT_ON_GH_FILE : Nat :=
  0b1111110011111100111111001111110011111100111111001111110011111100

/-- Source constant `NOT_ON_AB_FILE`. -/
def NOT_ON_AB_FILE : Nat :=
  0b0011111100111111001111110011111100111111001111110011111100111111

/-- Source array `FILE`: `FILE 0` is the a-file (bits 7, 15, …, 63) and each
successive entry is the previous one shifted right by one, exactly the listed
constants of the source. -/
def FILE (i : Nat) : Nat :=
  0b1000000010000000100000001000000010000000100000001000000010000000 >>> i

/-- Source array `RANK`: `RANK i = 0b11111111 << (8*i)`. -/
def RANK (i : Nat) : Nat := 0b11111111 <<< (8 * i)

/-- The single-bit bitboard of square `sq` (`0b1u64 << square`). -/
def sqbb (sq : Nat) : Nat := shl 1 sq

/-- Source `w_pawn_forward_mask`. -/
def w_pawn_forward_mask (b : Nat) : Nat := shl b 8

/-- Source `w_pawn_doubleforward_mask`. -/
def w_pawn_doubleforward_mask (b : Nat) : Nat := shl (b &&& RANK 1) 16

/-- Source `w_pawn_capture_mask`. -/
def w_pawn_capture_mask (b : Nat) : Nat :=
  shl (b &&& NOT_ON_H_FILE) 7 ||| shl (b &&& NOT_ON_A_FILE) 9

/-- Source `b_pawn_forward_mask`. -/
def b_pawn_forward_mask (b : Nat) : Nat := b >>> 8

/-- Source `b_pawn_doubleforward_mask`. -/
def b_pawn_doubleforward_mask (b : Nat) : Nat := (b &&& RANK 6) >>> 16

/-- Source `b_pawn_capture_mask`. -/
def b_pawn_capture_mask (b : Nat) : Nat :=
  (b &&& NOT_ON_H_FILE) >>> 9 ||| (b &&& NOT_ON_A_FILE) >>> 7

/-- Source `king_mask`. -/
def king_mask (b : Nat) : Nat :=
  shl (b &&& NOT_ON_H_FILE) 7 ||| (b &&& NOT_ON_H_FILE) >>> 1 |||
  (b &&& NOT_ON_H_FILE) >>> 9 ||| shl b 8 ||| b >>> 8 |||
  shl (b &&& NOT_ON_A_FILE) 9 ||| shl (b &&& NOT_ON_A_FILE) 1 |||
  (b &&& NOT_ON_A_FILE) >>> 7

/-- Source `knight_mask`. -/
def knight_mask (b : Nat) : Nat :=
  shl (b &&& NOT_ON_A_FILE) 17 ||| (b &&& NOT_ON_A_FILE) >>> 15 |||
  shl (b &&& NOT_ON_H_FILE) 15 ||| (b &&& NOT_ON_H_FILE) >>> 17 |||
  shl (b &&& NOT_ON_AB_FILE) 10 ||| (b &&& NOT_ON_AB_FILE) >>> 6 |||
  shl (b &&& NOT_ON_GH_FILE) 6 ||| (b &&& NOT_ON_GH_FILE) >>> 10

/-- Source lazy-static `W_PAWN_FORWARD_MASK` as a function of the square. -/
def W_PAWN_FORWARD_MASK (sq : Nat) : Nat := w_pawn_forward_mask (sqbb sq)

/-- Source lazy-static `W_PAWN_DOUBLEFORWARD_MASK`. -/
def W_PAWN_DOUBLEFORWARD_MASK (sq : Nat) : Nat := w_pawn_doubleforward_mask (sqbb sq)

/-- Source lazy-static `W_PAWN_CAPTURE_MASK`. -/
def W_PAWN_CAPTURE_MASK (sq : Nat) : Nat := w_pawn_capture_mask (sqbb sq)

/-- Source lazy-static `B_PAWN_FORWARD_MASK`. -/
def B_PAWN_FORWARD_MASK (sq : Nat) : Nat := b_pawn_forward_mask (sqbb sq)

/-- Source lazy-static `B_PAWN_DOUBLEFORWARD_MASK`. -/
def B_PAWN_DOUBLEFORWARD_MASK (sq : Nat) : Nat := b_pawn_doubleforward_mask (sqbb sq)

/-- Source lazy-static `B_PAWN_CAPTURE_MASK`. -/
def B_PAWN_CAPTURE_MASK (sq : Nat) : Nat := b_pawn_capture_mask (sqbb sq)

/-- Source lazy-static `KING_MASK`. -/
def KING_MASK (sq : Nat) : Nat := king_mask (sqbb sq)

/-- Source lazy-static `KNIGHT_MASK`. -/
def KNIGHT_MASK (sq : Nat) : Nat := knight_mask (sqbb sq)

/-- One ray of the slider walks of the source (`rook_mask` / `bishop_mask`
while-loops): step from `ptr` while it is off the `edge` mask, accumulating the
stepped-to squares, stopping inclusively at the first blocker.  The board is
8 wide, so 8 fuel always suffices for the source loops (started from a
single-bit `ptr`), which run at most 7 iterations before reaching the edge. -/
def rayWalk (step : Nat → Nat) (edge blocker : Nat) : Nat → Nat → Nat → Nat
  | 0, _, acc => acc
  | fuel + 1, ptr, acc =>
    if ptr &&& edge = 0 then
      let ptr2 := step ptr
      let acc2 := acc ||| ptr2
      if ptr2 &&& blocker = 0 then rayWalk step edge blocker fuel ptr2 acc2 else acc2
    else acc

/-- Source `rook_mask`: ray-traced rook attacks from `bsq` with blocker set
`blocker` (directions up, down, left, right as in the source). -/
def rook_mask (bsq blocker : Nat) : Nat :=
  let m1 := rayWalk (fun p => shl p 8) (RANK 7) blocker 8 bsq 0
  let m2 := rayWalk (fun p => p >>> 8) (RANK 0) blocker 8 bsq m1
  let m3 := rayWalk (fun p => shl p 1) (FILE 0) blocker 8 bsq m2
  rayWalk (fun p => p >>> 1) (FILE 7) blocker 8 bsq m3

/-- Source `bishop_mask`: ray-traced bishop attacks (up-right, down-right,
up-left, down-left as in the source). -/
def bishop_mask (bsq blocker : Nat) : Nat :=
  let m1 := rayWalk (fun p => shl p 7) (RANK 7 ||| FILE 7) blocker 8 bsq 0
  let m2 := rayWalk (fun p => p >>> 9) (RANK 0 ||| FILE 7) blocker 8 bsq m1
  let m3 := rayWalk (fun p => shl p 9) (RANK 7 ||| FILE 0) blocker 8 bsq m2
  rayWalk (fun p => p >>> 7) (RANK 0 ||| FILE 0) blocker 8 bsq m3

/-- Source `rook_all_blockers_mask`: the relevant-blocker mask of a rook. -/
def rook_all_blockers_mask (sq : Nat) : Nat :=
  let file := 7 - sq % 8
  let rank := sq / 8
  let not_on_ah := not64 (FILE 0 ||| FILE 7)
  let not_on_18 := not64 (RANK 0 ||| RANK 7)
  ((FILE file &&& not_on_18) ^^^ (RANK rank &&& not_on_ah)) &&& not64 (sqbb sq)

/-- Source `bishop_all_blockers_mask`. -/
def bishop_all_blockers_mask (sq : Nat) : Nat :=
  bishop_mask (sqbb sq) 0 &&& not64 (FILE 0 ||| FILE 7 ||| RANK 0 ||| RANK 7)

/-- Source lazy-static `ROOK_BLOCKER_MASK`. -/
def ROOK_BLOCKER_MASK (sq : Nat) : Nat := rook_all_blockers_mask sq

/-- Source lazy-static `BISHOP_BLOCKER_MASK`. -/
def BISHOP_BLOCKER_MASK (sq : Nat) : Nat := bishop_all_blockers_mask sq

/-- Source constant `ROOK_MAGIC_SHIFT`. -/
def ROOK_MAGIC_SHIFT (sq : Nat) : Nat :=
  [52, 53, 53, 53, 53, 53, 53, 52,
   53, 54, 54, 54, 54, 54, 54, 53,
   53, 54, 54, 54, 54, 54, 54, 53,
   53, 54, 54, 54, 54, 54, 54, 53,
   53, 54, 54, 54, 54, 54, 54, 53,
   53, 54, 54, 54, 54, 54, 54, 53,
   53, 54, 54, 54, 54, 54, 54, 53,
   52, 53, 53, 53, 53, 53, 53, 52].getD sq 0

/-- Source constant `BISHOP_MAGIC_SHIFT`. -/
def BISHOP_MAGIC_SHIFT (sq : Nat) : Nat :=
  [58, 59, 59, 59, 59, 59, 59, 58,
   59, 59, 59, 59, 59, 59, 59, 59,
   59, 59, 57, 57, 57, 57, 59, 59,
   59, 59, 57, 55, 55, 57, 59, 59,
   59, 59, 57, 55, 55, 57, 59, 59,
   59, 59, 57, 57, 57, 57, 59, 59,
   59, 59, 59, 59, 59, 59, 59, 59,
   58, 59, 59, 59, 59, 59, 59, 58].getD sq 0

/-- The runtime rook attack lookup of the source
(`ROOK_MAGIC_MASK[square].1[(blockers * magic) >> shift]`).  The tables are
discovered at startup by randomized search; any accepted `(magic, lookup)`
pair stores exactly the ray-traced mask `rook_mask (sqbb sq) B` at the index
of every relevant-blocker subset `B` (this is the magic property settled by
the `check_if_magic` soundness theorem below), so the lookup is modelled by
the ray trace applied to `blocker &&& ROOK_BLOCKER_MASK sq`. -/
def rookAttack (blocker sq : Nat) : Nat :=
  rook_mask (sqbb sq) (blocker &&& ROOK_BLOCKER_MASK sq)

/-- The runtime bishop attack lookup of the source (`BISHOP_MAGIC_MASK`),
modelled like `rookAttack`. -/
def bishopAttack (blocker sq : Nat) : Nat :=
  bishop_mask (sqbb sq) (blocker &&& BISHOP_BLOCKER_MASK sq)

/-- `u64::trailing_zeros` (64 on zero input). -/
def trailing_zeros (n : Nat) : Nat :=
  ((List.range 64).find? (fun i => n.testBit i)).getD 64

/-- Source `get_w_piece`: the first piece kind in `PIECES` whose white board
contains the single-bit square `bsq`. -/
def get_w_piece (p : Position) (bsq : Nat) : Piece :=
  (PIECES.find? (fun k => p.w_board k &&& bsq == bsq)).getD .Void

/-- Source `get_b_piece`. -/
def get_b_piece (p : Position) (bsq : Nat) : Piece :=
  (PIECES.find? (fun k => p.b_board k &&& bsq == bsq)).getD .Void

/-- Source `add_moves`, which pops the least significant bit of the target
bitboard until it is empty.  Fuel-based so that it reduces in the kernel; it
is always called with `fuel = bitboard`, which suffices because the bitboard
strictly decreases every iteration (see `add_moves_fuel`). -/
def add_moves_aux (from_sq : Nat) (piece : Piece) : Nat → Nat → List Move
  | 0, _ => []
  | fuel + 1, bitboard =>
    if bitboard = 0 then []
    else
      let last_bit := bitboard &&& not64 (bitboard - 1)
      let rest := bitboard &&& (bitboard - 1)
      (if piece = .Pawn ∧ last_bit &&& (RANK 0 ||| RANK 7) ≠ 0 then
        PROMOTIONS.map (fun pr =>
          { from_sq := from_sq, destination := last_bit, piece := piece, promotion := pr })
      else
        [{ from_sq := from_sq, destination := last_bit, piece := piece, promotion := .Void }])
      ++ add_moves_aux from_sq piece fuel rest

/-- Source `add_moves` (entry point). -/
def add_moves (bitboard from_sq : Nat) (piece : Piece) : List Move :=
  add_moves_aux from_sq piece bitboard bitboard

/-- The pawn target bitboard of `add_w_pawn_moves`. -/
def w_pawn_targets (p : Position) (blocker sq : Nat) : Nat :=
  W_PAWN_FORWARD_MASK sq &&& not64 blocker |||
  W_PAWN_DOUBLEFORWARD_MASK sq &&& not64 (blocker ||| shl blocker 8) |||
  (W_PAWN_CAPTURE_MASK sq &&& (p.b_all ||| p.en_passent_target_square))

/-- The pawn target bitboard of `add_b_pawn_moves`. -/
def b_pawn_targets (p : Position) (blocker sq : Nat) : Nat :=
  B_PAWN_FORWARD_MASK sq &&& not64 blocker |||
  B_PAWN_DOUBLEFORWARD_MASK sq &&& not64 (blocker ||| blocker >>> 8) |||
  (B_PAWN_CAPTURE_MASK sq &&& (p.w_all ||| p.en_passent_target_square))

/-- The target bitboard of each white `add_w_*_moves` branch, by piece kind
(used to state structure lemmas uniformly; `Void` yields the empty board). -/
def w_targets (p : Position) (blocker sq : Nat) : Piece → Nat
  | .Queen => rookAttack blocker sq &&& not64 p.w_all |||
      bishopAttack blocker sq &&& not64 p.w_all
  | .Rook => rookAttack blocker sq &&& not64 p.w_all
  | .Bishop => bishopAttack blocker sq &&& not64 p.w_all
  | .Knight => KNIGHT_MASK sq &&& not64 p.w_all
  | .Pawn => w_pawn_targets p blocker sq
  | .King => KING_MASK sq &&& not64 p.w_all
  | .Void => 0

/-- The target bitboard of each black `add_b_*_moves` branch. -/
def b_targets (p : Position) (blocker sq : Nat) : Piece → Nat
  | .Queen => rookAttack blocker sq &&& not64 p.b_all |||
      bishopAttack blocker sq &&& not64 p.b_all
  | .Rook => rookAttack blocker sq &&& not64 p.b_all
  | .Bishop => bishopAttack blocker sq &&& not64 p.b_all
  | .Knight => KNIGHT_MASK sq &&& not64 p.b_all
  | .Pawn => b_pawn_targets p blocker sq
  | .King => KING_MASK sq &&& not64 p.b_all
  | .Void => 0

/-- The moves pushed for one square of the white half of
`calculate_legal_moves` (dispatch on `get_w_piece`, then the corresponding
`add_w_*_moves`). -/
def w_moves_for_square (p : Position) (blocker sq : Nat) : List Move :=
  let bsq := sqbb sq
  match get_w_piece p bsq with
  | .Queen =>
      add_moves (rookAttack blocker sq &&& not64 p.w_all |||
        bishopAttack blocker sq &&& not64 p.w_all) bsq .Queen
  | .Rook => add_moves (rookAttack blocker sq &&& not64 p.w_all) bsq .Rook
  | .Bishop => add_moves (bishopAttack blocker sq &&& not64 p.w_all) bsq .Bishop
  | .Knight => add_moves (KNIGHT_MASK sq &&& not64 p.w_all) bsq .Knight
  | .Pawn => add_moves (w_pawn_targets p blocker sq) bsq .Pawn
  | .King => add_moves (KING_MASK sq &&& not64 p.w_all) bsq .King
  | .Void => []

/-- The black half of the per-square dispatch. -/
def b_moves_for_square (p : Position) (blocker sq : Nat) : List Move :=
  let bsq := sqbb sq
  match get_b_piece p bsq with
  | .Queen =>
      add_moves (rookAttack blocker sq &&& not64 p.b_all |||
        bishopAttack blocker sq &&& not64 p.b_all) bsq .Queen
  | .Rook => add_moves (rookAttack blocker sq &&& not64 p.b_all) bsq .Rook
  | .Bishop => add_moves (bishopAttack blocker sq &&& not64 p.b_all) bsq .Bishop
  | .Knight => add_moves (KNIGHT_MASK sq &&& not64 p.b_all) bsq .Knight
  | .Pawn => add_moves (b_pawn_targets p blocker sq) bsq .Pawn
  | .King => add_moves (KING_MASK sq &&& not64 p.b_all) bsq .King
  | .Void => []

/-- The `king_pos` variable of `calculate_legal_moves`: the loop over squares
0..63 records the (last) square whose piece is the own king, starting from 0. -/
def w_king_scan (p : Position) : Nat :=
  (List.range 64).foldl
    (fun acc sq => if get_w_piece p (sqbb sq) = .King then sq else acc) 0

/-- Black counterpart of `w_king_scan`. -/
def b_king_scan (p : Position) : Nat :=
  (List.range 64).foldl
    (fun acc sq => if get_b_piece p (sqbb sq) = .King then sq else acc) 0

/-- Source `square_attacked_by_black`. -/
def square_attacked_by_black (p : Position) (blocker sq : Nat) : Bool :=
  (W_PAWN_CAPTURE_MASK sq &&& p.b_board .Pawn != 0) ||
  (KING_MASK sq &&& p.b_board .King != 0) ||
  (KNIGHT_MASK sq &&& p.b_board .Knight != 0) ||
  (bishopAttack blocker sq &&& (p.b_board .Bishop ||| p.b_board .Queen) != 0) ||
  (rookAttack blocker sq &&& (p.b_board .Rook ||| p.b_board .Queen) != 0)

/-- Source `square_attacked_by_white`. -/
def square_attacked_by_white (p : Position) (blocker sq : Nat) : Bool :=
  (B_PAWN_CAPTURE_MASK sq &&& p.w_board .Pawn != 0) ||
  (KING_MASK sq &&& p.w_board .King != 0) ||
  (KNIGHT_MASK sq &&& p.w_board .Knight != 0) ||
  (bishopAttack blocker sq &&& (p.w_board .Bishop ||| p.w_board .Queen) != 0) ||
  (rookAttack blocker sq &&& (p.w_board .Rook ||| p.w_board .Queen) != 0)

/-- The tentative application of a move inside `w_king_capture_filter`
(`pos_clone` after moving the piece, clearing an ordinary capture and
removing an en-passant-captured pawn). -/
def w_tentative (p : Position) (m : Move) : Position :=
  let fd := m.from_sq ||| m.destination
  let p1 := { p with
    w_board := updBoard p.w_board m.piece (p.w_board m.piece ^^^ fd),
    w_all := p.w_all ^^^ fd }
  let p2 :=
    if p1.b_all &&& m.destination ≠ 0 then
      { p1 with b_all := p1.b_all &&& not64 m.destination,
                b_board := clearPieces p1.b_board (not64 m.destination) }
    else p1
  if m.piece = .Pawn ∧ m.destination = p2.en_passent_target_square then
    { p2 with b_all := p2.b_all &&& not64 (m.destination >>> 8),
              b_board := updBoard p2.b_board .Pawn
                (p2.b_board .Pawn &&& not64 (m.destination >>> 8)) }
  else p2

/-- The tentative application inside `b_king_capture_filter`. -/
def b_tentative (p : Position) (m : Move) : Position :=
  let fd := m.from_sq ||| m.destination
  let p1 := { p with
    b_board := updBoard p.b_board m.piece (p.b_board m.piece ^^^ fd),
    b_all := p.b_all ^^^ fd }
  let p2 :=
    if p1.w_all &&& m.destination ≠ 0 then
      { p1 with w_all := p1.w_all &&& not64 m.destination,
                w_board := clearPieces p1.w_board (not64 m.destination) }
    else p1
  if m.piece = .Pawn ∧ m.destination = p2.en_passent_target_square then
    { p2 with w_all := p2.w_all &&& not64 (shl m.destination 8),
              w_board := updBoard p2.w_board .Pawn
                (p2.w_board .Pawn &&& not64 (shl m.destination 8)) }
  else p2

/-- Source `w_king_capture_filter`: a pseudo-legal white move is retained iff
after the tentative application the white king square (the destination when
the king itself moved) is not attacked by black. -/
def w_king_capture_filter (p : Position) (m : Move) (king_pos : Nat) : Bool :=
  let pc := w_tentative p m
  let king_pos_copy := if m.piece = .King then trailing_zeros m.destination else king_pos
  let blocker := pc.w_all ||| pc.b_all
  !(square_attacked_by_black pc blocker king_pos_copy)

/-- Source `b_king_capture_filter`. -/
def b_king_capture_filter (p : Position) (m : Move) (king_pos : Nat) : Bool :=
  let pc := b_tentative p m
  let king_pos_copy := if m.piece = .King then trailing_zeros m.destination else king_pos
  let blocker := pc.w_all ||| pc.b_all
  !(square_attacked_by_white pc blocker king_pos_copy)

/-- The pseudo-legal move list accumulated by the square loop of
`calculate_legal_moves` for white to move. -/
def w_pseudo_moves (p : Position) (blocker : Nat) : List Move :=
  (List.range 64).flatMap (fun sq => w_moves_for_square p blocker sq)

/-- The pseudo-legal move list for black to move. -/
def b_pseudo_moves (p : Position) (blocker : Nat) : List Move :=
  (List.range 64).flatMap (fun sq => b_moves_for_square p blocker sq)

/-- Source `calculate_legal_moves` as a pure function of the board state
(the source writes the result into `self.legal_moves`; the `retain` filter
does not read the pseudo-move list it filters). -/
def calculate_legal_moves (p : Position) : List Move :=
  let blocker := p.w_all ||| p.b_all
  if p.w_turn then
    (w_pseudo_moves p blocker).filter fun m => w_king_capture_filter p m (w_king_scan p)
  else
    (b_pseudo_moves p blocker).filter fun m => b_king_capture_filter p m (b_king_scan p)

/-- Source `make_w_move`. -/
def make_w_move (p : Position) (m : Move) : Position :=
  let fd := m.from_sq ||| m.destination
  let p1 := { p with
    w_board := updBoard p.w_board m.piece (p.w_board m.piece ^^^ fd),
    w_all := p.w_all ^^^ fd }
  let p2 :=
    if p1.b_all &&& m.destination ≠ 0 then
      { p1 with b_all := p1.b_all &&& not64 m.destination,
                b_board := clearPieces p1.b_board (not64 m.destination) }
    else p1
  let p3 :=
    if m.promotion ≠ .Void then
      let wb1 := updBoard p2.w_board m.piece (p2.w_board m.piece &&& not64 m.destination)
      { p2 with w_board := updBoard wb1 m.promotion (wb1 m.promotion ||| m.destination) }
    else if m.piece = .King ∧ m.from_sq >>> 2 = m.destination then
      { p2 with
        w_board := updBoard p2.w_board .Rook
          (p2.w_board .Rook ^^^ (m.destination >>> 1 ||| shl m.destination 1)),
        w_all := p2.w_all ^^^ (m.destination >>> 1 ||| shl m.destination 1) }
    else if m.piece = .King ∧ shl m.from_sq 2 = m.destination then
      { p2 with
        w_board := updBoard p2.w_board .Rook
          (p2.w_board .Rook ^^^ (m.destination >>> 1 ||| shl m.destination 2)),
        w_all := p2.w_all ^^^ (m.destination >>> 1 ||| shl m.destination 2) }
    else if m.piece = .Pawn ∧ m.destination = p2.en_passent_target_square then
      { p2 with b_all := p2.b_all &&& not64 (m.destination >>> 8),
                b_board := updBoard p2.b_board .Pawn
                  (p2.b_board .Pawn &&& not64 (m.destination >>> 8)) }
    else p2
  let p4 := { p3 with
    en_passent_target_square :=
      if m.piece = Piece.Pawn ∧ shl m.from_sq 16 = m.destination then shl m.from_sq 8 else 0,
    w_turn := false }
  { p4 with legal_moves := calculate_legal_moves p4 }

/-- Source `make_b_move`.  NOTE: the two castling branches update the WHITE
rook board and white aggregate, exactly as the source does (`self.w_board`,
`self.w_all` inside `make_b_move`): the embedding keeps the source's
copy-paste slip. -/
def make_b_move (p : Position) (m : Move) : Position :=
  let fd := m.from_sq ||| m.destination
  let p1 := { p with
    b_board := updBoard p.b_board m.piece (p.b_board m.piece ^^^ fd),
    b_all := p.b_all ^^^ fd }
  let p2 :=
    if p1.w_all &&& m.destination ≠ 0 then
      { p1 with w_all := p1.w_all &&& not64 m.destination,
                w_board := clearPieces p1.w_board (not64 m.destination) }
    else p1
  let p3 :=
    if m.promotion ≠ .Void then
      let bb1 := updBoard p2.b_board m.piece (p2.b_board m.piece &&& not64 m.destination)
      { p2 with b_board := updBoard bb1 m.promotion (bb1 m.promotion ||| m.destination) }
    else if m.piece = .King ∧ m.from_sq >>> 2 = m.destination then
      { p2 with
        w_board := updBoard p2.w_board .Rook
          (p2.w_board .Rook ^^^ (m.destination >>> 1 ||| shl m.destination 1)),
        w_all := p2.w_all ^^^ (m.destination >>> 1 ||| shl m.destination 1) }
    else if m.piece = .King ∧ shl m.from_sq 2 = m.destination then
      { p2 with
        w_board := updBoard p2.w_board .Rook
          (p2.w_board .Rook ^^^ (m.destination >>> 1 ||| shl m.destination 2)),
        w_all := p2.w_all ^^^ (m.destination >>> 1 ||| shl m.destination 2) }
    else if m.piece = .Pawn ∧ m.destination = p2.en_passent_target_square then
      { p2 with w_all := p2.w_all &&& not64 (shl m.destination 8),
                w_board := updBoard p2.w_board .Pawn
                  (p2.w_board .Pawn &&& not64 (shl m.destination 8)) }
    else p2
  let p4 := { p3 with
    en_passent_target_square :=
      if m.piece = Piece.Pawn ∧ m.from_sq >>> 16 = m.destination then m.from_sq >>> 8 else 0,
    w_turn := true }
  { p4 with legal_moves := calculate_legal_moves p4 }

/-- Source `Position::empty`. -/
def empty_position : Position :=
  { w_board := fun _ => 0, b_board := fun _ => 0, w_all := 0, b_all := 0,
    w_turn := true, en_passent_target_square := 0, legal_moves := [] }

/-- The per-byte placement `match` of `from_fen`: a piece letter ORs the
square pointer into the matching board, any other byte changes nothing. -/
def fen_board_char (c : Char) (ptr : Nat) (pos : Position) : Position :=
  if c = 'r' then { pos with b_board := updBoard pos.b_board .Rook (pos.b_board .Rook ||| ptr) }
  else if c = 'b' then { pos with b_board := updBoard pos.b_board .Bishop (pos.b_board .Bishop ||| ptr) }
  else if c = 'n' then { pos with b_board := updBoard pos.b_board .Knight (pos.b_board .Knight ||| ptr) }
  else if c = 'q' then { pos with b_board := updBoard pos.b_board .Queen (pos.b_board .Queen ||| ptr) }
  else if c = 'k' then { pos with b_board := updBoard pos.b_board .King (pos.b_board .King ||| ptr) }
  else if c = 'p' then { pos with b_board := updBoard pos.b_board .Pawn (pos.b_board .Pawn ||| ptr) }
  else if c = 'R' then { pos with w_board := updBoard pos.w_board .Rook (pos.w_board .Rook ||| ptr) }
  else if c = 'B' then { pos with w_board := updBoard pos.w_board .Bishop (pos.w_board .Bishop ||| ptr) }
  else if c = 'N' then { pos with w_board := updBoard pos.w_board .Knight (pos.w_board .Knight ||| ptr) }
  else if c = 'Q' then { pos with w_board := updBoard pos.w_board .Queen (pos.w_board .Queen ||| ptr) }
  else if c = 'K' then { pos with w_board := updBoard pos.w_board .King (pos.w_board .King ||| ptr) }
  else if c = 'P' then { pos with w_board := updBoard pos.w_board .Pawn (pos.w_board .Pawn ||| ptr) }
  else pos

/-- The board-placement loop of `from_fen`: a digit 1..9 shifts the square
pointer right by its value; a piece letter ORs the pointer into the matching
board; every non-`/` byte then shifts the pointer right by one. -/
def parse_board : List Char → Nat → Position → Position
  | [], _, pos => pos
  | c :: rest, ptr, pos =>
    if '1' ≤ c ∧ c ≤ '9' then
      parse_board rest (ptr >>> (c.toNat - '0'.toNat)) pos
    else
      parse_board rest (if c ≠ '/' then ptr >>> 1 else ptr) (fen_board_char c ptr pos)

/-- The flags loop of `from_fen`: EVERY byte from the first space onward is
scanned, `w` sets white to move, `b` sets black to move. -/
def parse_flags : List Char → Bool → Bool
  | [], t => t
  | c :: rest, t =>
    parse_flags rest (if c = 'w' then true else if c = 'b' then false else t)

/-- Source `from_fen`.  The source unwraps the position of the first space
(panicking when absent), modelled by `Option`; the board part is everything
before the space, the flags part everything from the space on. -/
def from_fen (s : List Char) : Option Position :=
  match s.findIdx? (fun c => c == ' ') with
  | none => none
  | some sep =>
    let fen_board := s.take sep
    let flags := s.drop sep
    let pos0 := parse_board fen_board (shl 1 63) empty_position
    let pos1 := { pos0 with w_turn := parse_flags flags pos0.w_turn }
    let pos2 := { pos1 with
      w_all := PIECES.foldl (fun acc k => acc ||| pos1.w_board k) pos1.w_all,
      b_all := PIECES.foldl (fun acc k => acc ||| pos1.b_board k) pos1.b_all }
    some { pos2 with legal_moves := calculate_legal_moves pos2 }

/-- The `magic_index` computation of `check_if_magic` (and of the runtime
lookups): `(blocker_subset * magic) >> shift`, with wrapping multiplication. -/
def magic_index (piece : Piece) (sq blocker_subset magic : Nat) : Nat :=
  if piece = .Rook then wmul blocker_subset magic >>> ROOK_MAGIC_SHIFT sq
  else wmul blocker_subset magic >>> BISHOP_MAGIC_SHIFT sq

/-- The Carry-Rippler subset loop of `check_if_magic`: ray-trace the attack
mask of the current blocker subset, hash it into the table, reject the
candidate on a destructive collision, and step
`sub = (sub - mask) & mask` until the subset returns to 0.  Fueled so that it
reduces in the kernel; the caller passes `2 ^ 64` fuel, which always suffices
because the loop visits each subset of `mask` exactly once (the Carry-Rippler
enumeration theorems below). -/
def check_loop (piece : Piece) (sq magic mask : Nat) :
    Nat → List Nat → Nat → Option (List Nat)
  | 0, _, _ => none
  | fuel + 1, lookup, blocker_subset =>
    let move_mask :=
      if piece = .Rook then rook_mask (sqbb sq) blocker_subset
      else bishop_mask (sqbb sq) blocker_subset
    let idx := magic_index piece sq blocker_subset magic
    let cur := lookup.getD idx 0
    let cont := fun (lk : List Nat) =>
      let sub2 := wsub blocker_subset mask &&& mask
      if sub2 = 0 then some lk else check_loop piece sq magic mask fuel lk sub2
    if cur = 0 then cont (lookup.set idx move_mask)
    else if cur = move_mask then cont lookup
    else none

/-- Source `check_if_magic`: `some lookup` iff the candidate hashes every
blocker subset without a destructive collision. -/
def check_if_magic (piece : Piece) (sq magic_candidate : Nat) : Option (List Nat) :=
  let size :=
    if piece = .Rook then 2 ^ (64 - ROOK_MAGIC_SHIFT sq)
    else 2 ^ (64 - BISHOP_MAGIC_SHIFT sq)
  let mask :=
    if piece = .Rook then rook_all_blockers_mask sq
    else bishop_all_blockers_mask sq
  check_loop piece sq magic_candidate mask U (List.replicate size 0) 0

/-- Source `find_magic` draws random candidates and returns the first
`(magic, lookup)` pair accepted by `check_if_magic`; the randomness is not
modelled, so a returned pair is characterised exactly by this predicate. -/
def find_magic_accepts (piece : Piece) (sq magic : Nat) (lookup : List Nat) : Prop :=
  check_if_magic piece sq magic = some lookup

/-- Source `startpos`. -/
def startpos_fen : List Char :=
  "rnbqkbnr/pppppppp/8/8/8/8/PPPPPPPP/RNBQKBNR w KQkq - 0 1".toList

/-- Source `game_in_progress`. -/
def game_in_progress (p : Position) : Bool := p.legal_moves.length != 0

/-- Source `get_result`. -/
def get_result (p : Position) : GameResult :=
  let blocker_board := p.w_all ||| p.b_all
  if p.w_turn then
    if square_attacked_by_black p blocker_board (trailing_zeros (p.w_board .King)) then
      .BlackWin
    else .Draw
  else
    if square_attacked_by_white p blocker_board (trailing_zeros (p.b_board .King)) then
      .WhiteWin
    else .Draw

/-- The parsed start position. -/
def startpos_position : Position := (from_fen startpos_fen).getD empty_position

/-- Bitwise OR of white's six piece bitboards. -/
def wOr (p : Position) : Nat :=
  p.w_board .Pawn ||| p.w_board .Knight ||| p.w_board .Bishop |||
  p.w_board .Rook ||| p.w_board .Queen ||| p.w_board .King

/-- Bitwise OR of black's six piece bitboards. -/
def bOr (p : Position) : Nat :=
  p.b_board .Pawn ||| p.b_board .Knight ||| p.b_board .Bishop |||
  p.b_board .Rook ||| p.b_board .Queen ||| p.b_board .King

/-- Bitwise OR of the six slots of a board family (the shape shared by
`wOr` and `bOr`). -/
def boardOr (f : Piece → Nat) : Nat :=
  f .Pawn ||| f .Knight ||| f .Bishop ||| f .Rook ||| f .Queen ||| f .King

/-- Pairwise disjointness of one board family. -/
def PairDisj (f : Piece → Nat) : Prop :=
  ∀ i ∈ PIECES, ∀ j ∈ PIECES, i ≠ j → f i &&& f j = 0

/-- Disjointness across the two board families. -/
def CrossDisj (f g : Piece → Nat) : Prop :=
  ∀ i ∈ PIECES, ∀ j ∈ PIECES, f i &&& g j = 0

/-- The twelve per-piece bitboards are pairwise disjoint. -/
def BoardsDisjoint (p : Position) : Prop :=
  (∀ i ∈ PIECES, ∀ j ∈ PIECES, i ≠ j → p.w_board i &&& p.w_board j = 0) ∧
  (∀ i ∈ PIECES, ∀ j ∈ PIECES, i ≠ j → p.b_board i &&& p.b_board j = 0) ∧
  (∀ i ∈ PIECES, ∀ j ∈ PIECES, p.w_board i &&& p.b_board j = 0)

/-- The board part of the claimed invariant: pairwise disjointness and each
side's aggregate equal to the OR of its six piece bitboards. -/
def BoardsInv (p : Position) : Prop :=
  BoardsDisjoint p ∧ p.w_all = wOr p ∧ p.b_all = bOr p

/-- All board-like fields fit in 64 bits. -/
def BoundsInv (p : Position) : Prop :=
  (∀ i ∈ PIECES, p.w_board i < U) ∧ (∀ i ∈ PIECES, p.b_board i < U) ∧
  p.en_passent_target_square < U

/-- The auxiliary en-passant conditions carried through the induction: the
target square is unoccupied, and the square holding the capturable pawn is
occupied by no piece other than a pawn of the side that just pushed. -/
def EpInv (p : Position) : Prop :=
  p.en_passent_target_square &&& (p.w_all ||| p.b_all) = 0 ∧
  (p.w_turn = true → ∀ i ∈ PIECES, i ≠ .Pawn →
    p.b_board i &&& (p.en_passent_target_square >>> 8) = 0) ∧
  (p.w_turn = false → ∀ i ∈ PIECES, i ≠ .Pawn →
    p.w_board i &&& shl p.en_passent_target_square 8 = 0)

/-- The full inductive invariant: boards, bounds, en-passant side conditions
and a legal-move cache equal to the recomputation from the board state. -/
def FullInv (p : Position) : Prop :=
  BoardsInv p ∧ BoundsInv p ∧ EpInv p ∧
  p.legal_moves = calculate_legal_moves p

/-- Two positions agreeing on every field except possibly the cached move
list. -/
def CoreEq (q1 q2 : Position) : Prop :=
  q1.w_board = q2.w_board ∧ q1.b_board = q2.b_board ∧
  q1.w_all = q2.w_all ∧ q1.b_all = q2.b_all ∧
  q1.w_turn = q2.w_turn ∧
  q1.en_passent_target_square = q2.en_passent_target_square

/-- Loop invariant of the `from_fen` placement loop: boards pairwise disjoint
and bounded, every placed bit strictly above the current pointer bit, and the
pointer a single bit or zero. -/
def ParseInv (pos : Position) (ptr : Nat) : Prop :=
  BoardsDisjoint pos ∧
  (∀ i ∈ PIECES, pos.w_board i < U) ∧ (∀ i ∈ PIECES, pos.b_board i < U) ∧
  (∀ i ∈ PIECES, pos.w_board i &&& (2 * ptr - 1) = 0) ∧
  (∀ i ∈ PIECES, pos.b_board i &&& (2 * ptr - 1) = 0) ∧
  (ptr = 0 ∨ ∃ k, k < 64 ∧ ptr = 2 ^ k)

/-- Positions reachable through the public interface: parsed by `from_fen`,
then mutated by applying moves taken from the current legal-move cache
through the side-appropriate applicator. -/
inductive Reachable : Position → Prop where
  | fen (s : List Char) (p : Position) : from_fen s = some p → Reachable p
  | stepW (p : Position) (m : Move) : Reachable p → p.w_turn = true →
      m ∈ p.legal_moves → Reachable (make_w_move p m)
  | stepB (p : Position) (m : Move) : Reachable p → p.w_turn = false →
      m ∈ p.legal_moves → Reachable (make_b_move p m)

/-- A checkmate position: white king h1, black queen h2, black king h3,
white to move; white has no legal move and the white king is attacked. -/
def mate_position : Position :=
  (from_fen "8/8/8/8/8/7k/7q/7K w - - 0 1".toList).getD empty_position

/-- Position used to exhibit the black-castling slip: black king e8, black
rook h8, white king e1, black to move. -/
def c1_position : Position :=
  (from_fen "4k2r/8/8/8/8/8/8/4K3 b k - 0 1".toList).getD empty_position

/-- The black kingside castle e8g8 (from = bit 59, destination = bit 57). -/
def c1_castle_move : Move :=
  { from_sq := sqbb 59, destination := sqbb 57, piece := .King, promotion := .Void }

/-- Position string whose en-passant field is `b6` while field 2 is `w`. -/
def c4_position : Position :=
  (from_fen "k7/8/8/8/8/8/8/K7 w - b6 0 1".toList).getD empty_position

/-- The double pawn push e2e4 (from = bit 11, destination = bit 27). -/
def c9_move : Move :=
  { from_sq := sqbb 11, destination := sqbb 27, piece := .Pawn, promotion := .Void }

/-- A position with a white pawn on a7 about to promote (black king h7,
white king h1). -/
def promo_position : Position :=
  (from_fen "8/P6k/8/8/8/8/8/7K w - - 0 1".toList).getD empty_position

/- ------------------------------------------------------------------ -/
/- Basic evaluation lemmas used by several claims.                     -/
/- ------------------------------------------------------------------ -/

/-- A concrete magic candidate for the bishop on square 0 (h1), used to
witness the magic property; `check_if_magic` accepts it. -/
def bmagic0 : Nat := 2 ^ 49 + 2 ^ 41 + 2 ^ 33 + 2 ^ 25 + 2 ^ 17 + 2 ^ 9

/-- The lookup table `check_if_magic` builds for `bmagic0`. -/
def bishop0_table : List Nat := (check_if_magic .Bishop 0 bmagic0).getD []

theorem sqbb_eq_two_pow {k : Nat} (h : k < 64) : sqbb k = 2 ^ k := by
  have hlt : 2 ^ k < U := by
    have h2 : (2:Nat) ^ k < 2 ^ 64 := Nat.pow_lt_pow_right (by norm_num) h
    exact h2
  rw [sqbb, shl, Nat.shiftLeft_eq, one_mul]
  exact Nat.mod_eq_of_lt hlt

theorem trailing_zeros_two_pow : ∀ k, k < 64 → trailing_zeros (2 ^ k) = k := by decide

/- ------------------------------------------------------------------ -/
/- C1                                                                  -/
/- ------------------------------------------------------------------ -/

/-- C1: the claim states that black castling applied through `make_b_move`
displaces the BLACK rook (own rook bitboard and own aggregate).  The code
violates this: applying the black kingside castle e8g8 toggles the WHITE rook
board and the WHITE aggregate (injecting phantom white rooks on h8 and f8)
and leaves the black rook board and black aggregate with the rook still on
h8.  This theorem evaluates the code at that failing input. -/
theorem c1_black_castle_displaces_white_rook :
    (make_b_move c1_position c1_castle_move).w_board .Rook = sqbb 56 ||| sqbb 58 ∧
    (make_b_move c1_position c1_castle_move).b_board .Rook = sqbb 56 ∧
    (make_b_move c1_position c1_castle_move).w_all = sqbb 3 ||| sqbb 56 ||| sqbb 58 ∧
    (make_b_move c1_position c1_castle_move).b_all = sqbb 56 ||| sqbb 57 ∧
    c1_position.w_board .Rook = 0 ∧
    c1_position.b_board .Rook = sqbb 56 := by decide

/- ------------------------------------------------------------------ -/
/- C3                                                                  -/
/- ------------------------------------------------------------------ -/

/-- C3: for a position whose cached legal-move list is empty and which has
exactly one king per side, `get_result` returns the win of the side opposite
the side to move exactly when the side-to-move king square is attacked by the
opposite side, and Draw (stalemate) when it is not. -/
theorem c3_get_result_on_empty_cache (p : Position) (kw kb : Nat)
    (hcache : p.legal_moves = [])
    (hkw : p.w_board .King = sqbb kw) (hkw64 : kw < 64)
    (hkb : p.b_board .King = sqbb kb) (hkb64 : kb < 64) :
    get_result p =
      if p.w_turn then
        (if square_attacked_by_black p (p.w_all ||| p.b_all) kw then .BlackWin else .Draw)
      else
        (if square_attacked_by_white p (p.w_all ||| p.b_all) kb then .WhiteWin else .Draw) := by
  have hw : trailing_zeros (p.w_board .King) = kw := by
    rw [hkw, sqbb_eq_two_pow hkw64]; exact trailing_zeros_two_pow kw hkw64
  have hb : trailing_zeros (p.b_board .King) = kb := by
    rw [hkb, sqbb_eq_two_pow hkb64]; exact trailing_zeros_two_pow kb hkb64
  simp only [get_result, hw, hb]

/-- Witness for C3 at the concrete checkmate position `mate_position`
(white to move, empty legal-move cache, white king attacked): the result is
the win of the opposite side, BlackWin. -/
theorem c3_witness :
    mate_position.legal_moves = [] ∧ get_result mate_position = .BlackWin := by
  refine ⟨by decide, ?_⟩
  rw [c3_get_result_on_empty_cache mate_position 0 16 (by decide) (by decide)
    (by decide) (by decide) (by decide)]
  decide

/- ------------------------------------------------------------------ -/
/- C10                                                                 -/
/- ------------------------------------------------------------------ -/

/-- C10: `get_result` is total and ignores the legal-move cache: for any
position with exactly one king per side it returns BlackWin iff white is to
move and the white king square is attacked by black, WhiteWin iff black is to
move and the black king square is attacked by white, and Draw in all other
cases; replacing the cached move list changes nothing. -/
theorem c10_get_result_total (p : Position) (kw kb : Nat)
    (hkw : p.w_board .King = sqbb kw) (hkw64 : kw < 64)
    (hkb : p.b_board .King = sqbb kb) (hkb64 : kb < 64) :
    ((get_result p = .BlackWin) ↔
      (p.w_turn = true ∧ square_attacked_by_black p (p.w_all ||| p.b_all) kw = true)) ∧
    ((get_result p = .WhiteWin) ↔
      (p.w_turn = false ∧ square_attacked_by_white p (p.w_all ||| p.b_all) kb = true)) ∧
    ((get_result p = .Draw) ↔
      ((p.w_turn = true ∧ square_attacked_by_black p (p.w_all ||| p.b_all) kw = false) ∨
       (p.w_turn = false ∧ square_attacked_by_white p (p.w_all ||| p.b_all) kb = false))) ∧
    (∀ l, get_result { p with legal_moves := l } = get_result p) := by
  have hw : trailing_zeros (p.w_board .King) = kw := by
    rw [hkw, sqbb_eq_two_pow hkw64]; exact trailing_zeros_two_pow kw hkw64
  have hb : trailing_zeros (p.b_board .King) = kb := by
    rw [hkb, sqbb_eq_two_pow hkb64]; exact trailing_zeros_two_pow kb hkb64
  refine ⟨?_, ?_, ?_, fun l => rfl⟩ <;>
    simp only [get_result, hw, hb] <;>
    cases hwt : p.w_turn <;>
    cases hatt : square_attacked_by_black p (p.w_all ||| p.b_all) kw <;>
    cases hatt2 : square_attacked_by_white p (p.w_all ||| p.b_all) kb <;>
    simp

/-- Witness for C10 at the parsed start position, where legal moves remain:
`get_result` still evaluates, to Draw. -/
theorem c10_witness :
    get_result startpos_position = .Draw ∧ startpos_position.legal_moves ≠ [] := by
  have h := c10_get_result_total startpos_position 3 59 (by decide) (by decide)
    (by decide) (by decide)
  exact ⟨h.2.2.1.mpr (Or.inl ⟨by decide, by decide⟩), by decide⟩

/- ------------------------------------------------------------------ -/
/- C4                                                                  -/
/- ------------------------------------------------------------------ -/

/-- C4 counterexample: the well-formed six-field position string
`k7/8/8/8/8/8/8/K7 w - b6 0 1` has field 2 = `w`, yet `from_fen` leaves black
to move, because the flags scan also reads the `b` of the en-passant field
`b6`.  This refutes the claim that fields 3 to 6 cannot influence the
side-to-move flag. -/
theorem c4_counterexample :
    (from_fen "k7/8/8/8/8/8/8/K7 w - b6 0 1".toList).isSome = true ∧
    c4_position.w_turn = false := by decide

theorem parse_flags_no_wb (rest : List Char) (t : Bool)
    (hr : ∀ x ∈ rest, x ≠ 'w' ∧ x ≠ 'b') : parse_flags rest t = t := by
  induction rest generalizing t with
  | nil => rfl
  | cons a l ih =>
    have ha := hr a (by simp)
    simp only [parse_flags, if_neg ha.1, if_neg ha.2]
    exact ih _ fun x hx => hr x (by simp [hx])

theorem findIdx_append_space_aux (tail : List Char) (board : List Char)
    (hb : ' ' ∉ board) :
    ∀ i, (board ++ ' ' :: tail).findIdx? (fun c => c == ' ') i =
      some (board.length + i) := by
  induction board with
  | nil => intro i; simp [List.findIdx?]
  | cons a l ih =>
    intro i
    have ha : (a == ' ') = false := by
      simp only [beq_eq_false_iff_ne, ne_eq]
      exact fun h => hb (h ▸ List.mem_cons_self a l)
    simp only [List.cons_append, List.findIdx?, ha, Bool.false_eq_true, if_false,
      List.append_eq]
    rw [ih (fun h => hb (List.mem_cons_of_mem a h)) (i + 1)]
    congr 1
    simp [List.length_cons]
    omega

theorem findIdx_append_space (board : List Char) (tail : List Char)
    (hb : ' ' ∉ board) :
    (board ++ ' ' :: tail).findIdx? (fun c => c == ' ') = some board.length := by
  have h := findIdx_append_space_aux tail board hb 0
  simpa using h

/-- C4 amended: the side-to-move flag is set by the LAST `w` or `b` byte at or
after the first space; in particular, when fields 3 to 6 contain no `w` and no
`b` character, field 2 alone decides it (white to move iff field 2 is `w`). -/
theorem c4_amended_side_to_move (board rest : List Char) (c : Char)
    (hb : ' ' ∉ board)
    (hc : c = 'w' ∨ c = 'b')
    (hr : ∀ x ∈ rest, x ≠ 'w' ∧ x ≠ 'b') :
    ∃ p, from_fen (board ++ ' ' :: c :: rest) = some p ∧ p.w_turn = (c == 'w') := by
  have hidx := findIdx_append_space board (c :: rest) hb
  have htake : (board ++ ' ' :: c :: rest).take board.length = board :=
    List.take_left board (' ' :: c :: rest)
  have hdrop : (board ++ ' ' :: c :: rest).drop board.length = ' ' :: c :: rest :=
    List.drop_left board (' ' :: c :: rest)
  have hflag : ∀ t : Bool, parse_flags (' ' :: c :: rest) t = (c == 'w') := by
    intro t
    have hsp1 : (' ' = 'w') = False := by simp
    have hsp2 : (' ' = 'b') = False := by simp
    simp only [parse_flags, hsp1, hsp2, if_false]
    rcases hc with h | h <;> subst h
    · simp [parse_flags_no_wb _ _ hr]
    · simp [parse_flags_no_wb _ _ hr]
  simp only [from_fen, hidx, htake, hdrop]
  exact ⟨_, rfl, hflag _⟩

/-- Witness for C4 amended at the standard start string: no `w`/`b` occurs
after field 2, and white is to move. -/
theorem c4_amended_witness :
    ∃ p,
      from_fen ("rnbqkbnr/pppppppp/8/8/8/8/PPPPPPPP/RNBQKBNR".toList ++
        ' ' :: 'w' :: " KQkq - 0 1".toList) = some p ∧
      p.w_turn = ('w' == 'w') :=
  c4_amended_side_to_move "rnbqkbnr/pppppppp/8/8/8/8/PPPPPPPP/RNBQKBNR".toList
    " KQkq - 0 1".toList 'w' (by decide) (Or.inl rfl) (by decide)

/- ------------------------------------------------------------------ -/
/- Bit toolkit.                                                        -/
/- ------------------------------------------------------------------ -/

theorem U_pos : 0 < U := by norm_num [U]

theorem testBit_U_of_ge {x i : Nat} (hx : x < U) (hi : 64 ≤ i) : x.testBit i = false :=
  Nat.testBit_eq_false_of_lt (lt_of_lt_of_le hx (Nat.pow_le_pow_right (by norm_num) hi))

theorem testBit_not64 {x : Nat} (hx : x < U) (i : Nat) :
    (not64 x).testBit i = (decide (i < 64) && !x.testBit i) := by
  rw [not64, Nat.testBit_xor, U, Nat.testBit_two_pow_sub_one]
  by_cases hi : i < 64
  · simp [hi]
  · have h64 : 64 ≤ i := by omega
    simp [hi, testBit_U_of_ge hx h64]

theorem land_eq_zero_iff {x y : Nat} :
    x &&& y = 0 ↔ ∀ i, x.testBit i = true → y.testBit i = false := by
  constructor
  · intro h i hx
    have h2 := congrArg (fun z => Nat.testBit z i) h
    simp only [Nat.testBit_land, Nat.zero_testBit, hx, Bool.true_and] at h2
    exact h2
  · intro h
    apply Nat.eq_of_testBit_eq
    intro i
    simp only [Nat.testBit_land, Nat.zero_testBit]
    rcases hx : x.testBit i
    · simp
    · simp [h i hx]

theorem lor_lt_U {x y : Nat} (hx : x < U) (hy : y < U) : x ||| y < U :=
  Nat.bitwise_lt hx hy

theorem xor_lt_U {x y : Nat} (hx : x < U) (hy : y < U) : x ^^^ y < U :=
  Nat.bitwise_lt hx hy

theorem land_lt_U_left {x y : Nat} (hx : x < U) : x &&& y < U :=
  lt_of_le_of_lt Nat.and_le_left hx

theorem shl_lt_U (a k : Nat) : shl a k < U := Nat.mod_lt _ U_pos

theorem shr_le (x k : Nat) : x >>> k ≤ x := by
  rw [Nat.shiftRight_eq_div_pow]
  exact Nat.div_le_self x (2 ^ k)

theorem shr_lt_U {x : Nat} (hx : x < U) (k : Nat) : x >>> k < U :=
  lt_of_le_of_lt (shr_le x k) hx

theorem testBit_shl (a k i : Nat) :
    (shl a k).testBit i = (decide (i < 64) && (decide (k ≤ i) && a.testBit (i - k))) := by
  rw [shl, U, Nat.testBit_mod_two_pow, Nat.testBit_shiftLeft]

theorem testBit_shr (a k i : Nat) : (a >>> k).testBit i = a.testBit (k + i) :=
  Nat.testBit_shiftRight ..

/-- The two-power decomposition at the lowest set bit. -/
theorem exists_lowbit_decomp {b : Nat} (hb : b ≠ 0) :
    ∃ t r, b = 2 ^ (t + 1) * r + 2 ^ t := by
  induction b using Nat.strong_induction_on with
  | _ b ih =>
    rcases Nat.even_or_odd b with he | ho
    · obtain ⟨b', hb'⟩ := he
      have hbne : b' ≠ 0 := by omega
      obtain ⟨t, r, h⟩ := ih b' (by omega) hbne
      refine ⟨t + 1, r, ?_⟩
      rw [hb', h]; ring
    · obtain ⟨b', hb'⟩ := ho
      exact ⟨0, b', by omega⟩

/-- Bits of `b`, of `b - 1` and of the low-bit extraction, all at once:
for nonzero `b < 2^64` there is a lowest set bit `t` with
`b &&& !(b-1) = 2^t` and `b &&& (b-1)` = `b` with bit `t` cleared. -/
theorem exists_lowbit {b : Nat} (hb : b ≠ 0) (hbU : b < U) :
    ∃ t, t < 64 ∧ b.testBit t = true ∧
      b &&& not64 (b - 1) = 2 ^ t ∧
      (∀ i, (b &&& (b - 1)).testBit i = (b.testBit i && !(decide (i = t)))) := by
  obtain ⟨t, r, hdec⟩ := exists_lowbit_decomp hb
  have hpow : (2:Nat) ^ t < 2 ^ (t + 1) := Nat.pow_lt_pow_right (by norm_num) (by omega)
  have hb_bits : ∀ j, b.testBit j =
      (if j < t + 1 then (2 ^ t : Nat).testBit j else r.testBit (j - (t+1))) := by
    intro j
    rw [hdec]
    exact Nat.testBit_mul_pow_two_add r hpow j
  have hpred : b - 1 = 2 ^ (t + 1) * r + (2 ^ t - 1) := by
    have h1 : (1:Nat) ≤ 2 ^ t := Nat.one_le_two_pow
    omega
  have hb1_bits : ∀ j, (b - 1).testBit j =
      (if j < t + 1 then (2 ^ t - 1 : Nat).testBit j else r.testBit (j - (t+1))) := by
    intro j
    rw [hpred]
    exact Nat.testBit_mul_pow_two_add r (by omega) j
  have hbt : b.testBit t = true := by
    rw [hb_bits t, if_pos (by omega), Nat.testBit_two_pow]
    simp
  have ht64 : t < 64 := by
    by_contra hge
    have := testBit_U_of_ge hbU (i := t) (by omega)
    rw [this] at hbt
    exact Bool.false_ne_true hbt
  have hb_lo : ∀ i, i < t → b.testBit i = false := by
    intro i hi
    rw [hb_bits i, if_pos (by omega), Nat.testBit_two_pow]
    simp [Nat.ne_of_gt hi]
  have hb1_t : (b - 1).testBit t = false := by
    rw [hb1_bits t, if_pos (by omega), Nat.testBit_two_pow_sub_one]
    simp
  have hb1_gt : ∀ i, t < i → (b - 1).testBit i = b.testBit i := by
    intro i hi
    rw [hb_bits i, hb1_bits i, if_neg (by omega), if_neg (by omega)]
  refine ⟨t, ht64, hbt, ?_, ?_⟩
  · apply Nat.eq_of_testBit_eq
    intro i
    have hbU1 : b - 1 < U := by omega
    rw [Nat.testBit_land, testBit_not64 hbU1, Nat.testBit_two_pow]
    by_cases h1 : i < t
    · have hne : t ≠ i := by omega
      simp [hb_lo i h1, hne]
    · by_cases h2 : i = t
      · subst h2
        simp [hbt, hb1_t, ht64]
      · have h3 : t < i := by omega
        by_cases h4 : i < 64
        · simp [hb1_gt i h3, Ne.symm h2, h4, Bool.and_not_self]
        · simp [testBit_U_of_ge hbU (show 64 ≤ i by omega), Ne.symm h2, h4]
  · intro i
    rw [Nat.testBit_land]
    by_cases h1 : i < t
    · simp [hb_lo i h1]
    · by_cases h2 : i = t
      · subst h2
        simp [hb1_t]
      · have h3 : t < i := by omega
        simp [hb1_gt i h3, h2]

/- ------------------------------------------------------------------ -/
/- Structure of the generated move lists.                              -/
/- ------------------------------------------------------------------ -/

/-- Every move pushed by `add_moves_aux`: its origin and piece are the given
ones, its destination is a set bit of the target bitboard, and its promotion
field is a promotion kind exactly when the mover is a pawn landing on rank 1
or rank 8 (else the `Void` sentinel). -/
theorem mem_add_moves_aux {f : Nat} {pc : Piece} :
    ∀ fuel b, b ≤ fuel → b < U → ∀ m ∈ add_moves_aux f pc fuel b,
      m.from_sq = f ∧ m.piece = pc ∧
      (∃ t, t < 64 ∧ m.destination = 2 ^ t ∧ b.testBit t = true) ∧
      ((m.promotion ≠ .Void) ↔ (pc = .Pawn ∧ m.destination &&& (RANK 0 ||| RANK 7) ≠ 0)) ∧
      (m.promotion = .Void ∨ m.promotion ∈ PROMOTIONS) := by
  intro fuel
  induction fuel with
  | zero =>
    intro b hb hbU m hm
    simp [add_moves_aux] at hm
  | succ fuel ih =>
    intro b hb hbU m hm
    by_cases hb0 : b = 0
    · subst hb0; simp [add_moves_aux] at hm
    · obtain ⟨t, ht64, htb, hlast, hrest⟩ := exists_lowbit hb0 hbU
      rw [add_moves_aux, if_neg hb0] at hm
      rw [hlast] at hm
      rcases List.mem_append.1 hm with hm1 | hm2
      · by_cases hp : pc = Piece.Pawn ∧ (2 ^ t) &&& (RANK 0 ||| RANK 7) ≠ 0
        · rw [if_pos hp] at hm1
          obtain ⟨pr, hpr, rfl⟩ := List.mem_map.1 hm1
          refine ⟨rfl, rfl, ⟨t, ht64, rfl, htb⟩, ?_, Or.inr hpr⟩
          have hprv : pr ≠ Piece.Void := by
            simp only [PROMOTIONS, List.mem_cons, List.not_mem_nil, or_false] at hpr
            rcases hpr with rfl | rfl | rfl | rfl <;> decide
          simpa [hprv] using hp
        · rw [if_neg hp] at hm1
          rcases List.mem_singleton.1 hm1 with rfl
          refine ⟨rfl, rfl, ⟨t, ht64, rfl, htb⟩, ?_, Or.inl rfl⟩
          simpa using hp
      · have h1 : b &&& (b - 1) ≤ fuel :=
          le_trans Nat.and_le_right (by omega)
        have h2 : b &&& (b - 1) < U := lt_of_le_of_lt Nat.and_le_left hbU
        obtain ⟨hf2, hpc2, ⟨t2, ht2, hd2, hbit2⟩, hpr2⟩ := ih _ h1 h2 m hm2
        refine ⟨hf2, hpc2, ⟨t2, ht2, hd2, ?_⟩, hpr2⟩
        have h3 : (b.testBit t2 && !(decide (t2 = t))) = true := (hrest t2).symm.trans hbit2
        simp only [Bool.and_eq_true] at h3
        exact h3.1

/-- Structure of `add_moves` members. -/
theorem mem_add_moves {b f : Nat} {pc : Piece} (hbU : b < U) {m : Move}
    (hm : m ∈ add_moves b f pc) :
    m.from_sq = f ∧ m.piece = pc ∧
    (∃ t, t < 64 ∧ m.destination = 2 ^ t ∧ b.testBit t = true) ∧
    ((m.promotion ≠ .Void) ↔ (pc = .Pawn ∧ m.destination &&& (RANK 0 ||| RANK 7) ≠ 0)) ∧
    (m.promotion = .Void ∨ m.promotion ∈ PROMOTIONS) :=
  mem_add_moves_aux b b le_rfl hbU m hm

/-- `w_moves_for_square` is `add_moves` of the branch target bitboard. -/
theorem w_moves_for_square_eq (p : Position) (blocker sq : Nat) :
    w_moves_for_square p blocker sq =
      add_moves (w_targets p blocker sq (get_w_piece p (sqbb sq))) (sqbb sq)
        (get_w_piece p (sqbb sq)) := by
  cases hg : get_w_piece p (sqbb sq) <;>
    simp [w_moves_for_square, hg, w_targets, add_moves, add_moves_aux]

/-- `b_moves_for_square` is `add_moves` of the branch target bitboard. -/
theorem b_moves_for_square_eq (p : Position) (blocker sq : Nat) :
    b_moves_for_square p blocker sq =
      add_moves (b_targets p blocker sq (get_b_piece p (sqbb sq))) (sqbb sq)
        (get_b_piece p (sqbb sq)) := by
  cases hg : get_b_piece p (sqbb sq) <;>
    simp [b_moves_for_square, hg, b_targets, add_moves, add_moves_aux]

theorem testBit_not64_lt (x : Nat) {i : Nat} (hi : i < 64) :
    (not64 x).testBit i = !x.testBit i := by
  rw [not64, Nat.testBit_xor, U, Nat.testBit_two_pow_sub_one]
  simp [hi]

theorem rayWalk_lt_U {step : Nat → Nat} {edge blocker : Nat}
    (hstep : ∀ x, x < U → step x < U) :
    ∀ fuel ptr acc, ptr < U → acc < U →
      rayWalk step edge blocker fuel ptr acc < U := by
  intro fuel
  induction fuel with
  | zero => intro ptr acc _ hacc; simpa [rayWalk] using hacc
  | succ fuel ih =>
    intro ptr acc hptr hacc
    rw [rayWalk]
    by_cases h1 : ptr &&& edge = 0
    · simp only [if_pos h1]
      by_cases h2 : step ptr &&& blocker = 0
      · simp only [if_pos h2]
        exact ih _ _ (hstep _ hptr) (lor_lt_U hacc (hstep _ hptr))
      · simp only [if_neg h2]
        exact lor_lt_U hacc (hstep _ hptr)
    · simpa [h1] using hacc

theorem rook_mask_lt_U {bsq : Nat} (h : bsq < U) (blocker : Nat) :
    rook_mask bsq blocker < U := by
  unfold rook_mask
  apply rayWalk_lt_U (fun x hx => shr_lt_U hx 1) _ _ _ h
  apply rayWalk_lt_U (fun x _ => shl_lt_U x 1) _ _ _ h
  apply rayWalk_lt_U (fun x hx => shr_lt_U hx 8) _ _ _ h
  exact rayWalk_lt_U (fun x _ => shl_lt_U x 8) _ _ _ h (by norm_num [U])

theorem bishop_mask_lt_U {bsq : Nat} (h : bsq < U) (blocker : Nat) :
    bishop_mask bsq blocker < U := by
  unfold bishop_mask
  apply rayWalk_lt_U (fun x hx => shr_lt_U hx 7) _ _ _ h
  apply rayWalk_lt_U (fun x _ => shl_lt_U x 9) _ _ _ h
  apply rayWalk_lt_U (fun x hx => shr_lt_U hx 9) _ _ _ h
  exact rayWalk_lt_U (fun x _ => shl_lt_U x 7) _ _ _ h (by norm_num [U])

theorem sqbb_lt_U (sq : Nat) : sqbb sq < U := shl_lt_U 1 sq

theorem knight_mask_lt_U (sq : Nat) : KNIGHT_MASK sq < U := by
  have h := sqbb_lt_U sq
  unfold KNIGHT_MASK knight_mask
  refine lor_lt_U (lor_lt_U (lor_lt_U (lor_lt_U (lor_lt_U (lor_lt_U (lor_lt_U
    (shl_lt_U _ _) ?_) ?_) ?_) ?_) ?_) ?_) ?_ <;>
    first
      | exact shl_lt_U _ _
      | exact shr_lt_U (land_lt_U_left h) _

theorem king_mask_lt_U (sq : Nat) : KING_MASK sq < U := by
  have h := sqbb_lt_U sq
  unfold KING_MASK king_mask
  refine lor_lt_U (lor_lt_U (lor_lt_U (lor_lt_U (lor_lt_U (lor_lt_U (lor_lt_U
    (shl_lt_U _ _) ?_) ?_) ?_) ?_) ?_) ?_) ?_ <;>
    first
      | exact shl_lt_U _ _
      | exact shr_lt_U (land_lt_U_left h) _
      | exact shr_lt_U h _

theorem w_pawn_targets_lt_U (p : Position) (blocker sq : Nat) :
    w_pawn_targets p blocker sq < U := by
  unfold w_pawn_targets W_PAWN_FORWARD_MASK W_PAWN_DOUBLEFORWARD_MASK
    W_PAWN_CAPTURE_MASK w_pawn_forward_mask w_pawn_doubleforward_mask
    w_pawn_capture_mask
  exact lor_lt_U (lor_lt_U (land_lt_U_left (shl_lt_U _ _))
    (land_lt_U_left (shl_lt_U _ _)))
    (land_lt_U_left (lor_lt_U (shl_lt_U _ _) (shl_lt_U _ _)))

theorem b_pawn_targets_lt_U (p : Position) (blocker sq : Nat) :
    b_pawn_targets p blocker sq < U := by
  have h := sqbb_lt_U sq
  unfold b_pawn_targets B_PAWN_FORWARD_MASK B_PAWN_DOUBLEFORWARD_MASK
    B_PAWN_CAPTURE_MASK b_pawn_forward_mask b_pawn_doubleforward_mask
    b_pawn_capture_mask
  exact lor_lt_U (lor_lt_U (land_lt_U_left (shr_lt_U h _))
    (land_lt_U_left (shr_lt_U (land_lt_U_left h) _)))
    (land_lt_U_left (lor_lt_U (shr_lt_U (land_lt_U_left h) _)
      (shr_lt_U (land_lt_U_left h) _)))

theorem w_targets_lt_U (p : Position) (blocker sq : Nat) (pc : Piece) :
    w_targets p blocker sq pc < U := by
  have hr : rookAttack blocker sq < U := rook_mask_lt_U (sqbb_lt_U sq) _
  have hb : bishopAttack blocker sq < U := bishop_mask_lt_U (sqbb_lt_U sq) _
  cases pc <;> simp only [w_targets]
  case Queen => exact lor_lt_U (land_lt_U_left hr) (land_lt_U_left hb)
  case Rook => exact land_lt_U_left hr
  case Bishop => exact land_lt_U_left hb
  case Knight => exact land_lt_U_left (knight_mask_lt_U sq)
  case Pawn => exact w_pawn_targets_lt_U p blocker sq
  case King => exact land_lt_U_left (king_mask_lt_U sq)
  case Void => exact U_pos

theorem b_targets_lt_U (p : Position) (blocker sq : Nat) (pc : Piece) :
    b_targets p blocker sq pc < U := by
  have hr : rookAttack blocker sq < U := rook_mask_lt_U (sqbb_lt_U sq) _
  have hb : bishopAttack blocker sq < U := bishop_mask_lt_U (sqbb_lt_U sq) _
  cases pc <;> simp only [b_targets]
  case Queen => exact lor_lt_U (land_lt_U_left hr) (land_lt_U_left hb)
  case Rook => exact land_lt_U_left hr
  case Bishop => exact land_lt_U_left hb
  case Knight => exact land_lt_U_left (knight_mask_lt_U sq)
  case Pawn => exact b_pawn_targets_lt_U p blocker sq
  case King => exact land_lt_U_left (king_mask_lt_U sq)
  case Void => exact U_pos

/-- Every pseudo-legal white move: its origin square is the single bit of the
square the loop is visiting, its piece tag is the piece found there, its
destination is a set bit of that piece's target bitboard, and its promotion
field obeys the pawn-backrank rule. -/
theorem mem_w_pseudo_moves {p : Position} {blocker : Nat} {m : Move}
    (hm : m ∈ w_pseudo_moves p blocker) :
    ∃ sq, sq < 64 ∧ m.from_sq = sqbb sq ∧ m.piece = get_w_piece p (sqbb sq) ∧
      (∃ t, t < 64 ∧ m.destination = 2 ^ t ∧
        (w_targets p blocker sq (get_w_piece p (sqbb sq))).testBit t = true) ∧
      ((m.promotion ≠ .Void) ↔
        (m.piece = .Pawn ∧ m.destination &&& (RANK 0 ||| RANK 7) ≠ 0)) ∧
      (m.promotion = .Void ∨ m.promotion ∈ PROMOTIONS) := by
  obtain ⟨sq, hsq, hmem⟩ := List.mem_flatMap.1 hm
  rw [w_moves_for_square_eq] at hmem
  obtain ⟨hf, hpc, hdest, hiff, hpr⟩ := mem_add_moves (w_targets_lt_U p blocker sq _) hmem
  exact ⟨sq, List.mem_range.1 hsq, hf, hpc, hdest, by rw [hpc]; exact hiff, hpr⟩

/-- Black counterpart of `mem_w_pseudo_moves`. -/
theorem mem_b_pseudo_moves {p : Position} {blocker : Nat} {m : Move}
    (hm : m ∈ b_pseudo_moves p blocker) :
    ∃ sq, sq < 64 ∧ m.from_sq = sqbb sq ∧ m.piece = get_b_piece p (sqbb sq) ∧
      (∃ t, t < 64 ∧ m.destination = 2 ^ t ∧
        (b_targets p blocker sq (get_b_piece p (sqbb sq))).testBit t = true) ∧
      ((m.promotion ≠ .Void) ↔
        (m.piece = .Pawn ∧ m.destination &&& (RANK 0 ||| RANK 7) ≠ 0)) ∧
      (m.promotion = .Void ∨ m.promotion ∈ PROMOTIONS) := by
  obtain ⟨sq, hsq, hmem⟩ := List.mem_flatMap.1 hm
  rw [b_moves_for_square_eq] at hmem
  obtain ⟨hf, hpc, hdest, hiff, hpr⟩ := mem_add_moves (b_targets_lt_U p blocker sq _) hmem
  exact ⟨sq, List.mem_range.1 hsq, hf, hpc, hdest, by rw [hpc]; exact hiff, hpr⟩

/- Per-square bit characterisations of the pawn masks, checked over the
finite board. -/

theorem w_double_mask_bits :
    ∀ sq, sq < 64 → ∀ t, t < 64 → (W_PAWN_DOUBLEFORWARD_MASK sq).testBit t = true →
      8 ≤ sq ∧ sq ≤ 15 ∧ t = sq + 16 := by decide

theorem w_forward_capture_no_double_bit :
    ∀ sq, sq < 64 → sq + 16 < 64 →
      (W_PAWN_FORWARD_MASK sq).testBit (sq + 16) = false ∧
      (W_PAWN_CAPTURE_MASK sq).testBit (sq + 16) = false := by decide

theorem b_double_mask_bits :
    ∀ sq, sq < 64 → ∀ t, t < 64 → (B_PAWN_DOUBLEFORWARD_MASK sq).testBit t = true →
      48 ≤ sq ∧ sq ≤ 55 ∧ t + 16 = sq := by decide

theorem b_forward_capture_no_double_bit :
    ∀ sq, sq < 64 → 16 ≤ sq →
      (B_PAWN_FORWARD_MASK sq).testBit (sq - 16) = false ∧
      (B_PAWN_CAPTURE_MASK sq).testBit (sq - 16) = false := by decide

theorem shl_two_pow_lt {s k : Nat} (h : s + k < 64) : shl (2 ^ s) k = 2 ^ (s + k) := by
  rw [shl, Nat.shiftLeft_eq, ← pow_add, U]
  exact Nat.mod_eq_of_lt (Nat.pow_lt_pow_right (by norm_num) h)

theorem shl_two_pow_ge {s k : Nat} (h : 64 ≤ s + k) : shl (2 ^ s) k = 0 := by
  rw [shl, Nat.shiftLeft_eq, ← pow_add, U]
  exact Nat.mod_eq_zero_of_dvd (pow_dvd_pow 2 h)

theorem shr_two_pow_le {s k : Nat} (h : k ≤ s) : (2 ^ s : Nat) >>> k = 2 ^ (s - k) := by
  rw [Nat.shiftRight_eq_div_pow]
  exact Nat.pow_div h (by norm_num)

theorem shr_two_pow_gt {s k : Nat} (h : s < k) : (2 ^ s : Nat) >>> k = 0 := by
  rw [Nat.shiftRight_eq_div_pow]
  exact Nat.div_eq_of_lt (Nat.pow_lt_pow_right (by norm_num) h)

theorem two_pow_inj {a b : Nat} (h : (2:Nat) ^ a = 2 ^ b) : a = b :=
  Nat.pow_right_injective (by norm_num) h

/-- A pseudo-legal white pawn move whose destination is the origin shifted two
ranks forward can only come from the double-push mask: the pawn stands on the
second rank and neither the crossed square nor the destination is occupied. -/
theorem w_pawn_double_structure {p : Position} {blocker : Nat} {m : Move}
    (hm : m ∈ w_pseudo_moves p blocker)
    (hpc : m.piece = .Pawn) (hdd : m.destination = shl m.from_sq 16) :
    ∃ sq, 8 ≤ sq ∧ sq ≤ 15 ∧ m.from_sq = 2 ^ sq ∧ m.destination = 2 ^ (sq + 16) ∧
      blocker.testBit (sq + 8) = false ∧ blocker.testBit (sq + 16) = false := by
  obtain ⟨sq, hsq64, hf, hg, ⟨t, ht64, hdt, hbit⟩, _, _⟩ := mem_w_pseudo_moves hm
  rw [← hg, hpc] at hbit
  have hfs : m.from_sq = 2 ^ sq := by rw [hf, sqbb_eq_two_pow hsq64]
  have hsq16 : sq + 16 < 64 := by
    by_contra hge
    rw [hfs, shl_two_pow_ge (by omega)] at hdd
    have h0 : (2:Nat) ^ t = 0 := hdt.symm.trans hdd
    exact absurd h0 (Nat.two_pow_pos t).ne'
  have hdest : m.destination = 2 ^ (sq + 16) := by
    rw [hfs, shl_two_pow_lt hsq16] at hdd; exact hdd
  have ht : t = sq + 16 := two_pow_inj (hdt.symm.trans hdest)
  subst ht
  simp only [w_targets, w_pawn_targets, Nat.testBit_lor, Nat.testBit_land,
    Bool.or_eq_true, Bool.and_eq_true] at hbit
  have hfc := w_forward_capture_no_double_bit sq hsq64 hsq16
  rcases hbit with (h1 | h2) | h3
  · rw [hfc.1] at h1; exact absurd h1.1 (by simp)
  · have hdbl := w_double_mask_bits sq hsq64 (sq + 16) hsq16 h2.1
    have hnot := h2.2
    rw [testBit_not64_lt _ hsq16] at hnot
    have hor : (blocker ||| shl blocker 8).testBit (sq + 16) = false := by
      rcases hb : (blocker ||| shl blocker 8).testBit (sq + 16)
      · rfl
      · rw [hb] at hnot; exact absurd hnot (by simp)
    rw [Nat.testBit_lor, Bool.or_eq_false_iff] at hor
    have hsh : (shl blocker 8).testBit (sq + 16) = blocker.testBit (sq + 8) := by
      rw [testBit_shl]
      simp [hsq16, show (8:Nat) ≤ sq + 16 by omega, show sq + 16 - 8 = sq + 8 by omega]
    exact ⟨sq, hdbl.1, hdbl.2.1, hfs, hdest, by rw [← hsh]; exact hor.2, hor.1⟩
  · rw [hfc.2] at h3; exact absurd h3.1 (by simp)

/-- Black counterpart of `w_pawn_double_structure`. -/
theorem b_pawn_double_structure {p : Position} {blocker : Nat} {m : Move}
    (hm : m ∈ b_pseudo_moves p blocker)
    (hpc : m.piece = .Pawn) (hdd : m.destination = m.from_sq >>> 16) :
    ∃ sq, 48 ≤ sq ∧ sq ≤ 55 ∧ m.from_sq = 2 ^ sq ∧ m.destination = 2 ^ (sq - 16) ∧
      blocker.testBit (sq - 8) = false ∧ blocker.testBit (sq - 16) = false := by
  obtain ⟨sq, hsq64, hf, hg, ⟨t, ht64, hdt, hbit⟩, _, _⟩ := mem_b_pseudo_moves hm
  rw [← hg, hpc] at hbit
  have hfs : m.from_sq = 2 ^ sq := by rw [hf, sqbb_eq_two_pow hsq64]
  have hsq16 : 16 ≤ sq := by
    by_contra hlt
    rw [hfs, shr_two_pow_gt (by omega)] at hdd
    have h0 : (2:Nat) ^ t = 0 := hdt.symm.trans hdd
    exact absurd h0 (Nat.two_pow_pos t).ne'
  have hdest : m.destination = 2 ^ (sq - 16) := by
    rw [hfs, shr_two_pow_le hsq16] at hdd; exact hdd
  have ht : t = sq - 16 := two_pow_inj (hdt.symm.trans hdest)
  subst ht
  simp only [b_targets, b_pawn_targets, Nat.testBit_lor, Nat.testBit_land,
    Bool.or_eq_true, Bool.and_eq_true] at hbit
  have hfc := b_forward_capture_no_double_bit sq hsq64 hsq16
  rcases hbit with (h1 | h2) | h3
  · rw [hfc.1] at h1; exact absurd h1.1 (by simp)
  · have hdbl := b_double_mask_bits sq hsq64 (sq - 16) (by omega) h2.1
    have hnot := h2.2
    rw [testBit_not64_lt _ (by omega)] at hnot
    have hor : (blocker ||| blocker >>> 8).testBit (sq - 16) = false := by
      rcases hb : (blocker ||| blocker >>> 8).testBit (sq - 16)
      · rfl
      · rw [hb] at hnot; exact absurd hnot (by simp)
    rw [Nat.testBit_lor, Bool.or_eq_false_iff] at hor
    have hsh : (blocker >>> 8).testBit (sq - 16) = blocker.testBit (sq - 8) := by
      rw [testBit_shr]
      congr 1
      omega
    exact ⟨sq, hdbl.1, hdbl.2.1, hfs, hdest, by rw [← hsh]; exact hor.2, hor.1⟩
  · rw [hfc.2] at h3
    exact absurd h3.1 (by simp)

/- ------------------------------------------------------------------ -/
/- C9                                                                  -/
/- ------------------------------------------------------------------ -/

/-- C9: a double-push is generated only when both the square one rank ahead
and the destination two ranks ahead are unoccupied (so a blocker one square
ahead suppresses the double push); moreover the pawn stands on its color's
starting rank. -/
theorem c9_double_push_requires_empty_path (p : Position) (m : Move) :
    (p.w_turn = true → m ∈ w_pseudo_moves p (p.w_all ||| p.b_all) →
      m.piece = .Pawn → m.destination = shl m.from_sq 16 →
      m.from_sq &&& RANK 1 = m.from_sq ∧
      (p.w_all ||| p.b_all) &&& shl m.from_sq 8 = 0 ∧
      (p.w_all ||| p.b_all) &&& m.destination = 0) ∧
    (p.w_turn = false → m ∈ b_pseudo_moves p (p.w_all ||| p.b_all) →
      m.piece = .Pawn → m.destination = m.from_sq >>> 16 →
      m.from_sq &&& RANK 6 = m.from_sq ∧
      (p.w_all ||| p.b_all) &&& (m.from_sq >>> 8) = 0 ∧
      (p.w_all ||| p.b_all) &&& m.destination = 0) := by
  constructor
  · intro _ hm hpc hdd
    obtain ⟨sq, h8, h15, hfs, hdest, hcr, hde⟩ := w_pawn_double_structure hm hpc hdd
    have hr1 : (RANK 1).testBit sq = true := by
      have : ∀ s, 8 ≤ s → s ≤ 15 → (RANK 1).testBit s = true := by decide
      exact this sq h8 h15
    refine ⟨?_, ?_, ?_⟩
    · rw [hfs, Nat.two_pow_and, hr1]; simp
    · rw [hfs, shl_two_pow_lt (by omega), Nat.and_two_pow, hcr]; simp
    · rw [hdest, Nat.and_two_pow, hde]; simp
  · intro _ hm hpc hdd
    obtain ⟨sq, h48, h55, hfs, hdest, hcr, hde⟩ := b_pawn_double_structure hm hpc hdd
    have hr6 : (RANK 6).testBit sq = true := by
      have : ∀ s, 48 ≤ s → s ≤ 55 → (RANK 6).testBit s = true := by decide
      exact this sq h48 h55
    refine ⟨?_, ?_, ?_⟩
    · rw [hfs, Nat.two_pow_and, hr6]; simp
    · rw [hfs, shr_two_pow_le (by omega), Nat.and_two_pow, hcr]; simp
    · rw [hdest, Nat.and_two_pow, hde]; simp

/-- Witness for C9: the double push e2e4 in the start position. -/
theorem c9_witness :
    c9_move.from_sq &&& RANK 1 = c9_move.from_sq ∧
    (startpos_position.w_all ||| startpos_position.b_all) &&& shl c9_move.from_sq 8 = 0 ∧
    (startpos_position.w_all ||| startpos_position.b_all) &&& c9_move.destination = 0 :=
  (c9_double_push_requires_empty_path startpos_position c9_move).1
    (by decide) (by decide) (by decide) (by decide)

/- ------------------------------------------------------------------ -/
/- C5                                                                  -/
/- ------------------------------------------------------------------ -/

/-- C5: after applying a cached legal move, the en-passant target square is
the square the pawn crossed when the move was a two-square pawn push and 0
after any other move; whenever it is non-zero it is a single bit on rank 3
with black to move (after a white move) or on rank 6 with white to move
(after a black move).  Rank 3 is bits 16..23, rank 6 is bits 40..47. -/
theorem c5_en_passant_invariant (p : Position) (m : Move) :
    (p.w_turn = true → m ∈ calculate_legal_moves p →
      ((make_w_move p m).en_passent_target_square =
        (if m.piece = Piece.Pawn ∧ shl m.from_sq 16 = m.destination
         then shl m.from_sq 8 else 0)) ∧
      ((make_w_move p m).en_passent_target_square ≠ 0 →
        (make_w_move p m).w_turn = false ∧
        ∃ e, 16 ≤ e ∧ e ≤ 23 ∧
          (make_w_move p m).en_passent_target_square = 2 ^ e)) ∧
    (p.w_turn = false → m ∈ calculate_legal_moves p →
      ((make_b_move p m).en_passent_target_square =
        (if m.piece = Piece.Pawn ∧ m.from_sq >>> 16 = m.destination
         then m.from_sq >>> 8 else 0)) ∧
      ((make_b_move p m).en_passent_target_square ≠ 0 →
        (make_b_move p m).w_turn = true ∧
        ∃ e, 40 ≤ e ∧ e ≤ 47 ∧
          (make_b_move p m).en_passent_target_square = 2 ^ e)) := by
  constructor
  · intro hw hm
    refine ⟨rfl, ?_⟩
    intro hne
    refine ⟨rfl, ?_⟩
    have hcond : m.piece = Piece.Pawn ∧ shl m.from_sq 16 = m.destination := by
      by_contra hc
      exact hne (by
        show (if m.piece = Piece.Pawn ∧ shl m.from_sq 16 = m.destination
          then shl m.from_sq 8 else 0) = 0
        rw [if_neg hc])
    have hpseudo : m ∈ w_pseudo_moves p (p.w_all ||| p.b_all) := by
      rw [calculate_legal_moves, if_pos hw] at hm
      exact (List.mem_filter.1 hm).1
    obtain ⟨sq, h8, h15, hfs, _, _, _⟩ :=
      w_pawn_double_structure hpseudo hcond.1 hcond.2.symm
    refine ⟨sq + 8, by omega, by omega, ?_⟩
    show (if m.piece = Piece.Pawn ∧ shl m.from_sq 16 = m.destination
      then shl m.from_sq 8 else 0) = 2 ^ (sq + 8)
    rw [if_pos hcond, hfs, shl_two_pow_lt (by omega)]
  · intro hw hm
    refine ⟨rfl, ?_⟩
    intro hne
    refine ⟨rfl, ?_⟩
    have hcond : m.piece = Piece.Pawn ∧ m.from_sq >>> 16 = m.destination := by
      by_contra hc
      exact hne (by
        show (if m.piece = Piece.Pawn ∧ m.from_sq >>> 16 = m.destination
          then m.from_sq >>> 8 else 0) = 0
        rw [if_neg hc])
    have hpseudo : m ∈ b_pseudo_moves p (p.w_all ||| p.b_all) := by
      rw [calculate_legal_moves, if_neg (by rw [hw]; exact Bool.false_ne_true)] at hm
      exact (List.mem_filter.1 hm).1
    obtain ⟨sq, h48, h55, hfs, _, _, _⟩ :=
      b_pawn_double_structure hpseudo hcond.1 hcond.2.symm
    refine ⟨sq - 8, by omega, by omega, ?_⟩
    show (if m.piece = Piece.Pawn ∧ m.from_sq >>> 16 = m.destination
      then m.from_sq >>> 8 else 0) = 2 ^ (sq - 8)
    rw [if_pos hcond, hfs, shr_two_pow_le (by omega)]

/-- Witness for C5: applying e2e4 to the start position sets the en-passant
target to the crossed square e3 = bit 19, a single bit on rank 3. -/
theorem c5_witness :
    (make_w_move startpos_position c9_move).en_passent_target_square =
      shl c9_move.from_sq 8 ∧
    ∃ e, 16 ≤ e ∧ e ≤ 23 ∧
      (make_w_move startpos_position c9_move).en_passent_target_square = 2 ^ e := by
  have h := (c5_en_passant_invariant startpos_position c9_move).1 (by decide) (by decide)
  refine ⟨?_, (h.2 (by decide)).2⟩
  rw [h.1]
  decide

/- ------------------------------------------------------------------ -/
/- C6                                                                  -/
/- ------------------------------------------------------------------ -/

theorem get_w_piece_king_of {p : Position} {bsq : Nat}
    (h : get_w_piece p bsq = .King) : p.w_board .King &&& bsq = bsq := by
  unfold get_w_piece at h
  cases hf : PIECES.find? (fun k => p.w_board k &&& bsq == bsq) with
  | none => rw [hf] at h; exact absurd h (by decide)
  | some k =>
    rw [hf] at h
    simp only [Option.getD_some] at h
    subst h
    have h2 := List.find?_some hf
    simpa using h2

theorem get_b_piece_king_of {p : Position} {bsq : Nat}
    (h : get_b_piece p bsq = .King) : p.b_board .King &&& bsq = bsq := by
  unfold get_b_piece at h
  cases hf : PIECES.find? (fun k => p.b_board k &&& bsq == bsq) with
  | none => rw [hf] at h; exact absurd h (by decide)
  | some k =>
    rw [hf] at h
    simp only [Option.getD_some] at h
    subst h
    have h2 := List.find?_some hf
    simpa using h2

theorem get_w_piece_at_king {p : Position} {kw : Nat}
    (hk : p.w_board .King = sqbb kw)
    (hne : sqbb kw ≠ 0)
    (hsole : ∀ q ∈ PIECES, q ≠ Piece.King → p.w_board q &&& sqbb kw = 0) :
    get_w_piece p (sqbb kw) = .King := by
  have hP := hsole .Pawn (by decide) (by decide)
  have hN := hsole .Knight (by decide) (by decide)
  have hB := hsole .Bishop (by decide) (by decide)
  have hR := hsole .Rook (by decide) (by decide)
  have hQ := hsole .Queen (by decide) (by decide)
  have h0 : (0 == sqbb kw) = false := beq_eq_false_iff_ne.mpr (Ne.symm hne)
  have hself : sqbb kw &&& sqbb kw = sqbb kw :=
    Nat.eq_of_testBit_eq (by intro i; simp [Nat.testBit_land])
  unfold get_w_piece PIECES
  simp only [List.find?, hP, hN, hB, hR, hQ, hk, hself, h0, beq_self_eq_true]
  rfl

theorem get_b_piece_at_king {p : Position} {kb : Nat}
    (hk : p.b_board .King = sqbb kb)
    (hne : sqbb kb ≠ 0)
    (hsole : ∀ q ∈ PIECES, q ≠ Piece.King → p.b_board q &&& sqbb kb = 0) :
    get_b_piece p (sqbb kb) = .King := by
  have hP := hsole .Pawn (by decide) (by decide)
  have hN := hsole .Knight (by decide) (by decide)
  have hB := hsole .Bishop (by decide) (by decide)
  have hR := hsole .Rook (by decide) (by decide)
  have hQ := hsole .Queen (by decide) (by decide)
  have h0 : (0 == sqbb kb) = false := beq_eq_false_iff_ne.mpr (Ne.symm hne)
  have hself : sqbb kb &&& sqbb kb = sqbb kb :=
    Nat.eq_of_testBit_eq (by intro i; simp [Nat.testBit_land])
  unfold get_b_piece PIECES
  simp only [List.find?, hP, hN, hB, hR, hQ, hk, hself, h0, beq_self_eq_true]
  rfl

theorem foldl_scan_spec {P : Nat → Prop} [DecidablePred P] {kw : Nat} :
    ∀ (l : List Nat), (∀ s ∈ l, P s ↔ s = kw) →
      ∀ acc, (kw ∈ l → l.foldl (fun a s => if P s then s else a) acc = kw) ∧
             (kw ∉ l → l.foldl (fun a s => if P s then s else a) acc = acc) := by
  intro l
  induction l with
  | nil =>
    intro _ acc
    exact ⟨fun h => absurd h (List.not_mem_nil kw), fun _ => rfl⟩
  | cons a l ih =>
    intro hP acc
    have hPl : ∀ s ∈ l, P s ↔ s = kw := fun s hs => hP s (List.mem_cons_of_mem a hs)
    constructor
    · intro hmem
      simp only [List.foldl_cons]
      by_cases ha : a = kw
      · subst ha
        rw [if_pos ((hP a (by simp)).mpr rfl)]
        by_cases hl : a ∈ l
        · exact (ih hPl _).1 hl
        · exact (ih hPl _).2 hl
      · rw [if_neg (fun hPa => ha ((hP a (by simp)).mp hPa))]
        have hkl : kw ∈ l := by
          rcases List.mem_cons.1 hmem with h | h
          · exact absurd h.symm ha
          · exact h
        exact (ih hPl _).1 hkl
    · intro hmem
      simp only [List.foldl_cons]
      have ha : a ≠ kw := fun h => hmem (h ▸ List.mem_cons_self a l)
      rw [if_neg (fun hPa => ha ((hP a (by simp)).mp hPa))]
      exact (ih hPl _).2 (fun h => hmem (List.mem_cons_of_mem a h))

theorem w_king_scan_eq {p : Position} {kw : Nat}
    (hk : p.w_board .King = sqbb kw) (hkw64 : kw < 64)
    (hsole : ∀ q ∈ PIECES, q ≠ Piece.King → p.w_board q &&& sqbb kw = 0) :
    w_king_scan p = kw := by
  have hne : sqbb kw ≠ 0 := by
    rw [sqbb_eq_two_pow hkw64]; exact (Nat.two_pow_pos kw).ne'
  have hiff : ∀ s ∈ List.range 64, (get_w_piece p (sqbb s) = Piece.King) ↔ s = kw := by
    intro s hs
    constructor
    · intro hg
      have h2 := get_w_piece_king_of hg
      rw [hk, sqbb_eq_two_pow hkw64, sqbb_eq_two_pow (List.mem_range.1 hs)] at h2
      by_contra hne2
      have hbit : ((2:Nat) ^ s).testBit kw = false := by
        rw [Nat.testBit_two_pow]
        simpa using hne2
      rw [Nat.two_pow_and, hbit] at h2
      have h3 : (0:Nat) = 2 ^ s := by simpa using h2
      exact absurd h3.symm (Nat.two_pow_pos s).ne'
    · intro h; subst h
      exact get_w_piece_at_king hk hne hsole
  exact (foldl_scan_spec (List.range 64) hiff 0).1 (List.mem_range.2 hkw64)

theorem b_king_scan_eq {p : Position} {kb : Nat}
    (hk : p.b_board .King = sqbb kb) (hkb64 : kb < 64)
    (hsole : ∀ q ∈ PIECES, q ≠ Piece.King → p.b_board q &&& sqbb kb = 0) :
    b_king_scan p = kb := by
  have hne : sqbb kb ≠ 0 := by
    rw [sqbb_eq_two_pow hkb64]; exact (Nat.two_pow_pos kb).ne'
  have hiff : ∀ s ∈ List.range 64, (get_b_piece p (sqbb s) = Piece.King) ↔ s = kb := by
    intro s hs
    constructor
    · intro hg
      have h2 := get_b_piece_king_of hg
      rw [hk, sqbb_eq_two_pow hkb64, sqbb_eq_two_pow (List.mem_range.1 hs)] at h2
      by_contra hne2
      have hbit : ((2:Nat) ^ s).testBit kb = false := by
        rw [Nat.testBit_two_pow]
        simpa using hne2
      rw [Nat.two_pow_and, hbit] at h2
      have h3 : (0:Nat) = 2 ^ s := by simpa using h2
      exact absurd h3.symm (Nat.two_pow_pos s).ne'
    · intro h; subst h
      exact get_b_piece_at_king hk hne hsole
  exact (foldl_scan_spec (List.range 64) hiff 0).1 (List.mem_range.2 hkb64)

/-- C6: a pseudo-legal move survives the legality filter (i.e. is in the
cached legal-move list) iff, after tentatively applying it (moving the piece,
clearing an ordinarily captured piece at the destination, and removing the
en-passant-captured pawn when a pawn lands on the en-passant target), the
moving side's king square, taken to be the destination when the king itself
moved, is not attacked by the opposing side (pawn, king, knight, bishop,
rook and queen tests of `square_attacked_by_*`). -/
theorem c6_legality_filter (p : Position) (m : Move) (kw kb : Nat)
    (hkw : p.w_board .King = sqbb kw) (hkw64 : kw < 64)
    (hwsole : ∀ q ∈ PIECES, q ≠ Piece.King → p.w_board q &&& sqbb kw = 0)
    (hkb : p.b_board .King = sqbb kb) (hkb64 : kb < 64)
    (hbsole : ∀ q ∈ PIECES, q ≠ Piece.King → p.b_board q &&& sqbb kb = 0) :
    (p.w_turn = true → m ∈ w_pseudo_moves p (p.w_all ||| p.b_all) →
      (m ∈ calculate_legal_moves p ↔
        square_attacked_by_black (w_tentative p m)
          ((w_tentative p m).w_all ||| (w_tentative p m).b_all)
          (if m.piece = .King then trailing_zeros m.destination else kw) = false)) ∧
    (p.w_turn = false → m ∈ b_pseudo_moves p (p.w_all ||| p.b_all) →
      (m ∈ calculate_legal_moves p ↔
        square_attacked_by_white (b_tentative p m)
          ((b_tentative p m).w_all ||| (b_tentative p m).b_all)
          (if m.piece = .King then trailing_zeros m.destination else kb) = false)) := by
  constructor
  · intro hw hm
    rw [calculate_legal_moves, if_pos hw, List.mem_filter,
      w_king_scan_eq hkw hkw64 hwsole]
    unfold w_king_capture_filter
    constructor
    · rintro ⟨_, hf⟩
      simpa using hf
    · intro hatt
      exact ⟨hm, by simpa using hatt⟩
  · intro hw hm
    rw [calculate_legal_moves, if_neg (by rw [hw]; exact Bool.false_ne_true),
      List.mem_filter, b_king_scan_eq hkb hkb64 hbsole]
    unfold b_king_capture_filter
    constructor
    · rintro ⟨_, hf⟩
      simpa using hf
    · intro hatt
      exact ⟨hm, by simpa using hatt⟩

/-- Witness for C6: e2e4 is pseudo-legal in the start position and the
tentative position leaves the white king unattacked, so it is in the cache. -/
theorem c6_witness : c9_move ∈ calculate_legal_moves startpos_position :=
  ((c6_legality_filter startpos_position c9_move 3 59 (by decide) (by decide)
    (by decide) (by decide) (by decide) (by decide)).1 (by decide) (by decide)).mpr
    (by decide)

/- ------------------------------------------------------------------ -/
/- C8                                                                  -/
/- ------------------------------------------------------------------ -/

/-- Neither the king-safety filter of the white side nor of the black side
reads the promotion field of the move it tests. -/
theorem king_filter_promo_indep (p : Position) (fr de : Nat) (pc x y : Piece) (k : Nat) :
    (w_king_capture_filter p
        { from_sq := fr, destination := de, piece := pc, promotion := x } k =
      w_king_capture_filter p
        { from_sq := fr, destination := de, piece := pc, promotion := y } k) ∧
    (b_king_capture_filter p
        { from_sq := fr, destination := de, piece := pc, promotion := x } k =
      b_king_capture_filter p
        { from_sq := fr, destination := de, piece := pc, promotion := y } k) :=
  ⟨rfl, rfl⟩

/-- Filtering the moves of one `add_moves` block for a fixed origin,
destination on the back ranks and pawn piece, combined with any
promotion-independent retain test, yields either the full four-promotion
expansion (in `PROMOTIONS` order) or nothing. -/
theorem add_moves_filter_promo {keep : Move → Bool}
    (hkeep : ∀ fr de pc x y,
      keep { from_sq := fr, destination := de, piece := pc, promotion := x } =
      keep { from_sq := fr, destination := de, piece := pc, promotion := y })
    (f d : Nat) (hd : d &&& (RANK 0 ||| RANK 7) ≠ 0) :
    ∀ fuel b, b ≤ fuel → b < U →
      (((add_moves_aux f Piece.Pawn fuel b).filter
        (fun m => (m.from_sq == f && m.destination == d && m.piece == Piece.Pawn) &&
          keep m)).map Move.promotion = PROMOTIONS ∨
      ((add_moves_aux f Piece.Pawn fuel b).filter
        (fun m => (m.from_sq == f && m.destination == d && m.piece == Piece.Pawn) &&
          keep m)).map Move.promotion = []) := by
  intro fuel
  induction fuel with
  | zero =>
    intro b hb hbU
    right; simp [add_moves_aux]
  | succ fuel ih =>
    intro b hb hbU
    by_cases hb0 : b = 0
    · subst hb0; right; simp [add_moves_aux]
    · obtain ⟨t, ht64, htb, hlast, hrest⟩ := exists_lowbit hb0 hbU
      have h1 : b &&& (b - 1) ≤ fuel := le_trans Nat.and_le_right (by omega)
      have h2 : b &&& (b - 1) < U := lt_of_le_of_lt Nat.and_le_left hbU
      rw [add_moves_aux, if_neg hb0, hlast, List.filter_append, List.map_append]
      by_cases hdt : d = 2 ^ t
      · subst hdt
        rw [if_pos ⟨rfl, hd⟩]
        have hrestnil : ((add_moves_aux f Piece.Pawn fuel (b &&& (b - 1))).filter
            (fun m => (m.from_sq == f && m.destination == (2 ^ t : Nat) &&
              m.piece == Piece.Pawn) && keep m)) = [] := by
          rw [List.filter_eq_nil_iff]
          intro m hm
          obtain ⟨-, -, ⟨t2, -, hd2, hb2⟩, -, -⟩ := mem_add_moves_aux fuel _ h1 h2 m hm
          have ht2 : t2 ≠ t := by
            intro h
            subst h
            have h3 := (hrest t2).symm.trans hb2
            simp at h3
          have hdne : (m.destination == (2 ^ t : Nat)) = false := by
            rw [beq_eq_false_iff_ne, hd2]
            exact fun h => ht2 (two_pow_inj h)
          simp [hdne]
        rw [hrestnil]
        simp only [List.map_nil, List.append_nil]
        have hke : ∀ pr,
            keep { from_sq := f, destination := 2 ^ t, piece := Piece.Pawn,
                   promotion := pr } =
            keep { from_sq := f, destination := 2 ^ t, piece := Piece.Pawn,
                   promotion := Piece.Queen } :=
          fun pr => hkeep f (2 ^ t) Piece.Pawn pr Piece.Queen
        cases hc : keep { from_sq := f, destination := 2 ^ t, piece := Piece.Pawn,
                          promotion := Piece.Queen }
        · right
          simp [PROMOTIONS, List.filter, hke Piece.Rook, hke Piece.Knight,
            hke Piece.Bishop, hc]
        · left
          simp [PROMOTIONS, List.filter, hke Piece.Rook, hke Piece.Knight,
            hke Piece.Bishop, hc]
      · have hheadnil : ∀ lh : List Move, (∀ m ∈ lh, m.destination = 2 ^ t) →
            lh.filter (fun m =>
              (m.from_sq == f && m.destination == d && m.piece == Piece.Pawn) &&
                keep m) = [] := by
          intro lh hlh
          rw [List.filter_eq_nil_iff]
          intro m hm
          have hdne : (m.destination == d) = false := by
            rw [beq_eq_false_iff_ne, hlh m hm]
            exact fun h => hdt h.symm
          simp [hdne]
        rw [hheadnil _ ?_, List.map_nil, List.nil_append]
        · exact ih _ h1 h2
        · intro m hm
          by_cases hcond : Piece.Pawn = Piece.Pawn ∧ (2:Nat) ^ t &&& (RANK 0 ||| RANK 7) ≠ 0
          · rw [if_pos hcond] at hm
            obtain ⟨pr, -, rfl⟩ := List.mem_map.1 hm
            rfl
          · rw [if_neg hcond] at hm
            rcases List.mem_singleton.1 hm with rfl
            rfl

theorem add_moves_block_filter_nonfrom {keep : Move → Bool} (f d : Nat)
    {targets bsq : Nat} (htU : targets < U) (pc : Piece) (hne : bsq ≠ f) :
    (add_moves targets bsq pc).filter
      (fun m => (m.from_sq == f && m.destination == d && m.piece == Piece.Pawn) &&
        keep m) = [] := by
  rw [List.filter_eq_nil_iff]
  intro m hm
  obtain ⟨hmf, -, -, -, -⟩ := mem_add_moves htU hm
  have : (m.from_sq == f) = false := by
    rw [beq_eq_false_iff_ne, hmf]
    exact hne
  simp [this]

/-- One generation block filtered for a fixed `(from, backrank destination,
pawn)` triple and the retain test: either the four-promotion expansion or
nothing; and nothing at all when the block's origin differs. -/
theorem add_moves_block_filter {keep : Move → Bool}
    (hkeep : ∀ fr de pc x y,
      keep { from_sq := fr, destination := de, piece := pc, promotion := x } =
      keep { from_sq := fr, destination := de, piece := pc, promotion := y })
    (f d : Nat) (hd : d &&& (RANK 0 ||| RANK 7) ≠ 0)
    {targets bsq : Nat} (htU : targets < U) (pc : Piece) :
    (((add_moves targets bsq pc).filter
      (fun m => (m.from_sq == f && m.destination == d && m.piece == Piece.Pawn) &&
        keep m)).map Move.promotion = PROMOTIONS ∨
    ((add_moves targets bsq pc).filter
      (fun m => (m.from_sq == f && m.destination == d && m.piece == Piece.Pawn) &&
        keep m)).map Move.promotion = []) := by
  by_cases hpc : pc = Piece.Pawn
  · subst hpc
    by_cases hbf : bsq = f
    · subst hbf
      exact add_moves_filter_promo hkeep bsq d hd targets targets le_rfl htU
    · right
      rw [add_moves_block_filter_nonfrom f d htU Piece.Pawn hbf, List.map_nil]
  · right
    have hnil : ((add_moves targets bsq pc).filter
        (fun m => (m.from_sq == f && m.destination == d && m.piece == Piece.Pawn) &&
          keep m)) = [] := by
      rw [List.filter_eq_nil_iff]
      intro m hm
      obtain ⟨-, hmp, -, -, -⟩ := mem_add_moves htU hm
      have : (m.piece == Piece.Pawn) = false := by
        rw [beq_eq_false_iff_ne, hmp]
        exact hpc
      simp [this]
    rw [hnil, List.map_nil]

theorem flatMap_filter_assemble (g : Nat → List Move) (r : Move → Bool) (f : Nat) :
    ∀ l : List Nat, l.Nodup →
      (∀ s1 ∈ l, ∀ s2 ∈ l, sqbb s1 = sqbb s2 → s1 = s2) →
      (∀ s ∈ l, sqbb s ≠ f → (g s).filter r = []) →
      (∀ s ∈ l, ((g s).filter r).map Move.promotion = PROMOTIONS ∨
        ((g s).filter r).map Move.promotion = []) →
      (((l.flatMap g).filter r).map Move.promotion = PROMOTIONS ∨
       ((l.flatMap g).filter r).map Move.promotion = []) := by
  intro l
  induction l with
  | nil =>
    intro _ _ _ _
    right; rfl
  | cons a l ih =>
    intro hnd hinj hnf hblocks
    rw [List.flatMap_cons, List.filter_append, List.map_append]
    by_cases ha : sqbb a = f
    · have htail : (l.flatMap g).filter r = [] := by
        rw [List.filter_eq_nil_iff]
        intro m hm
        obtain ⟨s, hs, hms⟩ := List.mem_flatMap.1 hm
        have hsa : s ≠ a := fun h => (List.nodup_cons.1 hnd).1 (h ▸ hs)
        have hsne : sqbb s ≠ f := fun h =>
          hsa (hinj s (List.mem_cons_of_mem a hs) a (List.mem_cons_self a l)
            (h.trans ha.symm))
        have h3 := hnf s (List.mem_cons_of_mem a hs) hsne
        rw [List.filter_eq_nil_iff] at h3
        exact h3 m hms
      rw [htail]
      simp only [List.map_nil, List.append_nil]
      exact hblocks a (List.mem_cons_self a l)
    · rw [hnf a (List.mem_cons_self a l) ha]
      simp only [List.map_nil, List.nil_append]
      exact ih (List.nodup_cons.1 hnd).2
        (fun s1 h1 s2 h2 => hinj s1 (List.mem_cons_of_mem a h1) s2 (List.mem_cons_of_mem a h2))
        (fun s hs => hnf s (List.mem_cons_of_mem a hs))
        (fun s hs => hblocks s (List.mem_cons_of_mem a hs))

theorem sqbb_inj_range : ∀ s1 ∈ List.range 64, ∀ s2 ∈ List.range 64,
    sqbb s1 = sqbb s2 → s1 = s2 := by
  intro s1 h1 s2 h2 h
  rw [sqbb_eq_two_pow (List.mem_range.1 h1), sqbb_eq_two_pow (List.mem_range.1 h2)] at h
  exact two_pow_inj h

/-- C8: in the cached legal-move list, a record carries a non-sentinel
promotion exactly when it is a pawn move to rank 1 or rank 8 (and then the
promotion is one of queen, rook, knight, bishop); and for every origin `f`
and back-rank destination `d`, the cached records with that origin,
destination and pawn piece are either exactly the four promotion expansions
in the order queen, rook, knight, bishop, or absent altogether. -/
theorem c8_promotion_expansion (p : Position) :
    (∀ m ∈ calculate_legal_moves p,
      ((m.promotion ≠ .Void) ↔
        (m.piece = .Pawn ∧ m.destination &&& (RANK 0 ||| RANK 7) ≠ 0)) ∧
      (m.promotion = .Void ∨ m.promotion ∈ PROMOTIONS)) ∧
    (∀ f d, d &&& (RANK 0 ||| RANK 7) ≠ 0 →
      (((calculate_legal_moves p).filter
          (fun m => m.from_sq == f && m.destination == d && m.piece == Piece.Pawn)).map
        Move.promotion = PROMOTIONS ∨
       ((calculate_legal_moves p).filter
          (fun m => m.from_sq == f && m.destination == d && m.piece == Piece.Pawn)).map
        Move.promotion = [])) := by
  constructor
  · intro m hm
    rcases hw : p.w_turn
    · rw [calculate_legal_moves, if_neg (by rw [hw]; exact Bool.false_ne_true)] at hm
      obtain ⟨-, -, -, -, -, hiff, hpr⟩ := mem_b_pseudo_moves (List.mem_filter.1 hm).1
      exact ⟨hiff, hpr⟩
    · rw [calculate_legal_moves, if_pos hw] at hm
      obtain ⟨-, -, -, -, -, hiff, hpr⟩ := mem_w_pseudo_moves (List.mem_filter.1 hm).1
      exact ⟨hiff, hpr⟩
  · intro f d hd
    rcases hw : p.w_turn
    · rw [calculate_legal_moves, if_neg (by rw [hw]; exact Bool.false_ne_true),
        List.filter_filter, b_pseudo_moves]
      apply flatMap_filter_assemble _ _ f _ (List.nodup_range 64) sqbb_inj_range
      · intro s hs hsne
        rw [b_moves_for_square_eq]
        exact add_moves_block_filter_nonfrom f d
          (b_targets_lt_U p (p.w_all ||| p.b_all) s _) _ hsne
      · intro s hs
        rw [b_moves_for_square_eq]
        exact add_moves_block_filter
          (fun fr de pc x y =>
            (king_filter_promo_indep p fr de pc x y (b_king_scan p)).2)
          f d hd (b_targets_lt_U p (p.w_all ||| p.b_all) s _) _
    · rw [calculate_legal_moves, if_pos hw,
        List.filter_filter, w_pseudo_moves]
      apply flatMap_filter_assemble _ _ f _ (List.nodup_range 64) sqbb_inj_range
      · intro s hs hsne
        rw [w_moves_for_square_eq]
        exact add_moves_block_filter_nonfrom f d
          (w_targets_lt_U p (p.w_all ||| p.b_all) s _) _ hsne
      · intro s hs
        rw [w_moves_for_square_eq]
        exact add_moves_block_filter
          (fun fr de pc x y =>
            (king_filter_promo_indep p fr de pc x y (w_king_scan p)).1)
          f d hd (w_targets_lt_U p (p.w_all ||| p.b_all) s _) _

/-- Witness for C8: the promotion a7a8 in `promo_position` is expanded into
exactly the four records queen, rook, knight, bishop. -/
theorem c8_witness :
    ((calculate_legal_moves promo_position).filter
      (fun m => m.from_sq == sqbb 55 && m.destination == sqbb 63 &&
        m.piece == Piece.Pawn)).map Move.promotion = PROMOTIONS :=
  ((c8_promotion_expansion promo_position).2 (sqbb 55) (sqbb 63)
    (by decide)).resolve_right (by decide)

/- ------------------------------------------------------------------ -/
/- C2: the parser establishes the invariant.                           -/
/- ------------------------------------------------------------------ -/

theorem land_zero_of_sub {x m y : Nat} (h : x &&& m = 0)
    (hsub : ∀ i, y.testBit i = true → m.testBit i = true) : x &&& y = 0 := by
  rw [land_eq_zero_iff] at h ⊢
  intro i hx
  rcases hy : y.testBit i
  · rfl
  · exact absurd (hsub i hy) (by rw [h i hx]; exact Bool.false_ne_true)

theorem lor_land_zero {a b c : Nat} (h1 : a &&& c = 0) (h2 : b &&& c = 0) :
    (a ||| b) &&& c = 0 := by
  rw [land_eq_zero_iff] at h1 h2 ⊢
  intro i hab
  rw [Nat.testBit_lor] at hab
  rcases ha : a.testBit i
  · rw [ha] at hab
    simp only [Bool.false_or] at hab
    exact h2 i hab
  · exact h1 i ha

theorem land_zero_comm {a b : Nat} (h : a &&& b = 0) : b &&& a = 0 := by
  rw [Nat.land_comm]
  exact h

theorem sub_mask_mono {x a b : Nat} (h : x &&& (2 ^ a - 1) = 0) (hba : b ≤ a) :
    x &&& (2 ^ b - 1) = 0 := by
  apply land_zero_of_sub h
  intro i hi
  rw [Nat.testBit_two_pow_sub_one] at hi ⊢
  simp only [decide_eq_true_eq] at hi ⊢
  omega

theorem land_pow_zero_of_mask {x k : Nat} (h : x &&& (2 ^ (k + 1) - 1) = 0) :
    x &&& 2 ^ k = 0 := by
  apply land_zero_of_sub h
  intro i hi
  rw [Nat.testBit_two_pow] at hi
  rw [Nat.testBit_two_pow_sub_one]
  simp only [decide_eq_true_eq] at hi ⊢
  omega

theorem parse_inv_shr {pos : Position} {ptr : Nat} (h : ParseInv pos ptr) (d : Nat) :
    ParseInv pos (ptr >>> d) := by
  obtain ⟨hd, hbw, hbb, hmw, hmb, hform⟩ := h
  rcases hform with rfl | ⟨k, hk64, rfl⟩
  · simp only [Nat.zero_shiftRight]
    exact ⟨hd, hbw, hbb, hmw, hmb, Or.inl rfl⟩
  · by_cases hdk : d ≤ k
    · rw [shr_two_pow_le hdk]
      refine ⟨hd, hbw, hbb, ?_, ?_, Or.inr ⟨k - d, by omega, rfl⟩⟩
      · intro i hi
        have := hmw i hi
        rw [show 2 * 2 ^ k = 2 ^ (k + 1) by ring] at this
        rw [show 2 * 2 ^ (k - d) = 2 ^ (k - d + 1) by ring]
        exact sub_mask_mono this (show k - d + 1 ≤ k + 1 by omega)
      · intro i hi
        have := hmb i hi
        rw [show 2 * 2 ^ k = 2 ^ (k + 1) by ring] at this
        rw [show 2 * 2 ^ (k - d) = 2 ^ (k - d + 1) by ring]
        exact sub_mask_mono this (show k - d + 1 ≤ k + 1 by omega)
    · rw [shr_two_pow_gt (by omega)]
      exact ⟨hd, hbw, hbb, by simp, by simp, Or.inl rfl⟩

theorem parse_inv_or_w {pos : Position} {ptr : Nat} (h : ParseInv pos ptr)
    (i0 : Piece) (hi0 : i0 ∈ PIECES) :
    ParseInv { pos with w_board := updBoard pos.w_board i0 (pos.w_board i0 ||| ptr) }
      (ptr >>> 1) := by
  obtain ⟨⟨hww, hbb2, hwb⟩, hbw, hbb, hmw, hmb, hform⟩ := h
  rcases hform with rfl | ⟨k, hk64, rfl⟩
  · have hupd : updBoard pos.w_board i0 (pos.w_board i0 ||| 0) = pos.w_board := by
      funext q
      unfold updBoard
      by_cases hq : q = i0 <;> simp [hq]
    rw [hupd]
    exact parse_inv_shr ⟨⟨hww, hbb2, hwb⟩, hbw, hbb, hmw, hmb, Or.inl rfl⟩ 1
  · have hmask : (2 : Nat) * 2 ^ k = 2 ^ (k + 1) := by ring
    have hptr_w : ∀ j, j ∈ PIECES → pos.w_board j &&& 2 ^ k = 0 := by
      intro j hj
      exact land_pow_zero_of_mask (hmask ▸ hmw j hj)
    have hptr_b : ∀ j, j ∈ PIECES → pos.b_board j &&& 2 ^ k = 0 := by
      intro j hj
      exact land_pow_zero_of_mask (hmask ▸ hmb j hj)
    have hwval : ∀ j, (updBoard pos.w_board i0 (pos.w_board i0 ||| 2 ^ k)) j =
        (if j = i0 then pos.w_board i0 ||| 2 ^ k else pos.w_board j) := by
      intro j
      unfold updBoard
      by_cases hq : j = i0 <;> simp [hq]
    have hpow_pred : (2 : Nat) ^ k &&& (2 ^ k - 1) = 0 := by
      rw [land_eq_zero_iff]
      intro i hi
      rw [Nat.testBit_two_pow] at hi
      rw [Nat.testBit_two_pow_sub_one]
      simp only [decide_eq_true_eq] at hi
      simp only [decide_eq_false_iff_not]
      omega
    refine ⟨⟨?_, hbb2, ?_⟩, ?_, hbb, ?_, ?_, ?_⟩
    · intro i hi j hj hij
      dsimp only
      rw [hwval i, hwval j]
      by_cases hii : i = i0 <;> by_cases hjj : j = i0
    --
      · exact absurd (hii.trans hjj.symm) hij
      · rw [if_pos hii, if_neg hjj]
        exact lor_land_zero (hii ▸ hww i0 hi0 j hj (hii ▸ hij))
          (land_zero_comm (hptr_w j hj))
      · rw [if_neg hii, if_pos hjj]
        exact land_zero_comm (lor_land_zero (hjj ▸ hww i0 hi0 i hi (fun he => hij (he.symm ▸ hjj.symm ▸ rfl)))
          (land_zero_comm (hptr_w i hi)))
      · rw [if_neg hii, if_neg hjj]
        exact hww i hi j hj hij
    · intro i hi j hj
      dsimp only
      rw [hwval i]
      by_cases hii : i = i0
      · rw [if_pos hii]
        exact lor_land_zero (hii ▸ hwb i0 hi0 j hj) (land_zero_comm (hptr_b j hj))
      · rw [if_neg hii]
        exact hwb i hi j hj
    · intro i hi
      dsimp only
      rw [hwval i]
      by_cases hii : i = i0
      · rw [if_pos hii]
        exact lor_lt_U (hbw i0 hi0) (Nat.pow_lt_pow_right (by norm_num) hk64)
      · rw [if_neg hii]
        exact hbw i hi
    · intro i hi
      dsimp only
      rw [hwval i]
      by_cases hk0 : k = 0
      · subst hk0
        simp
      · rw [shr_two_pow_le (by omega), show (2 : Nat) * 2 ^ (k - 1) - 1 = 2 ^ k - 1 by
          rw [show (2 : Nat) * 2 ^ (k - 1) = 2 ^ (k - 1 + 1) by ring]
          congr 2
          omega]
        have hmw2 : ∀ j, j ∈ PIECES → pos.w_board j &&& (2 ^ (k + 1) - 1) = 0 := by
          intro j hj
          rw [← hmask]
          exact hmw j hj
        by_cases hii : i = i0
        · rw [if_pos hii]
          exact lor_land_zero
            (sub_mask_mono (hmw2 i0 hi0) (show k ≤ k + 1 by omega)) hpow_pred
        · rw [if_neg hii]
          exact sub_mask_mono (hmw2 i hi) (show k ≤ k + 1 by omega)
    · intro i hi
      by_cases hk0 : k = 0
      · subst hk0
        simp
      · rw [shr_two_pow_le (by omega), show (2 : Nat) * 2 ^ (k - 1) - 1 = 2 ^ k - 1 by
          rw [show (2 : Nat) * 2 ^ (k - 1) = 2 ^ (k - 1 + 1) by ring]
          congr 2
          omega]
        have hmb2 : pos.b_board i &&& (2 ^ (k + 1) - 1) = 0 := by
          rw [← hmask]
          exact hmb i hi
        exact sub_mask_mono hmb2 (show k ≤ k + 1 by omega)
    · by_cases hk0 : k = 0
      · subst hk0
        simp
      · rw [shr_two_pow_le (by omega)]
        exact Or.inr ⟨k - 1, by omega, rfl⟩

theorem parse_inv_or_b {pos : Position} {ptr : Nat} (h : ParseInv pos ptr)
    (i0 : Piece) (hi0 : i0 ∈ PIECES) :
    ParseInv { pos with b_board := updBoard pos.b_board i0 (pos.b_board i0 ||| ptr) }
      (ptr >>> 1) := by
  obtain ⟨⟨hww, hbb2, hwb⟩, hbw, hbb, hmw, hmb, hform⟩ := h
  rcases hform with rfl | ⟨k, hk64, rfl⟩
  · have hupd : updBoard pos.b_board i0 (pos.b_board i0 ||| 0) = pos.b_board := by
      funext q
      unfold updBoard
      by_cases hq : q = i0 <;> simp [hq]
    rw [hupd]
    exact parse_inv_shr ⟨⟨hww, hbb2, hwb⟩, hbw, hbb, hmw, hmb, Or.inl rfl⟩ 1
  · have hmask : (2 : Nat) * 2 ^ k = 2 ^ (k + 1) := by ring
    have hptr_w : ∀ j, j ∈ PIECES → pos.w_board j &&& 2 ^ k = 0 := by
      intro j hj
      apply land_pow_zero_of_mask
      rw [← hmask]
      exact hmw j hj
    have hptr_b : ∀ j, j ∈ PIECES → pos.b_board j &&& 2 ^ k = 0 := by
      intro j hj
      apply land_pow_zero_of_mask
      rw [← hmask]
      exact hmb j hj
    have hbval : ∀ j, (updBoard pos.b_board i0 (pos.b_board i0 ||| 2 ^ k)) j =
        (if j = i0 then pos.b_board i0 ||| 2 ^ k else pos.b_board j) := by
      intro j
      unfold updBoard
      by_cases hq : j = i0 <;> simp [hq]
    have hpow_pred : (2 : Nat) ^ k &&& (2 ^ k - 1) = 0 := by
      rw [land_eq_zero_iff]
      intro i hi
      rw [Nat.testBit_two_pow] at hi
      rw [Nat.testBit_two_pow_sub_one]
      simp only [decide_eq_true_eq] at hi
      simp only [decide_eq_false_iff_not]
      omega
    refine ⟨⟨hww, ?_, ?_⟩, hbw, ?_, ?_, ?_, ?_⟩
    · intro i hi j hj hij
      dsimp only
      rw [hbval i, hbval j]
      by_cases hii : i = i0 <;> by_cases hjj : j = i0
      · exact absurd (hii.trans hjj.symm) hij
      · rw [if_pos hii, if_neg hjj]
        exact lor_land_zero (hii ▸ hbb2 i0 hi0 j hj (hii ▸ hij))
          (land_zero_comm (hptr_b j hj))
      · rw [if_neg hii, if_pos hjj]
        exact land_zero_comm (lor_land_zero
          (hjj ▸ hbb2 i0 hi0 i hi (fun he => hij (he.symm ▸ hjj.symm ▸ rfl)))
          (land_zero_comm (hptr_b i hi)))
      · rw [if_neg hii, if_neg hjj]
        exact hbb2 i hi j hj hij
    · intro i hi j hj
      dsimp only
      rw [hbval j]
      by_cases hjj : j = i0
      · rw [if_pos hjj]
        exact land_zero_comm (lor_land_zero
          (land_zero_comm (hwb i hi i0 hi0)) (land_zero_comm (hptr_w i hi)))
      · rw [if_neg hjj]
        exact hwb i hi j hj
    · intro i hi
      dsimp only
      rw [hbval i]
      by_cases hii : i = i0
      · rw [if_pos hii]
        exact lor_lt_U (hbb i0 hi0) (Nat.pow_lt_pow_right (by norm_num) hk64)
      · rw [if_neg hii]
        exact hbb i hi
    · intro i hi
      dsimp only
      by_cases hk0 : k = 0
      · subst hk0
        simp
      · rw [shr_two_pow_le (by omega), show (2 : Nat) * 2 ^ (k - 1) - 1 = 2 ^ k - 1 by
          rw [show (2 : Nat) * 2 ^ (k - 1) = 2 ^ (k - 1 + 1) by ring]
          congr 2
          omega]
        have hmw2 : pos.w_board i &&& (2 ^ (k + 1) - 1) = 0 := by
          rw [← hmask]
          exact hmw i hi
        exact sub_mask_mono hmw2 (show k ≤ k + 1 by omega)
    · intro i hi
      dsimp only
      rw [hbval i]
      by_cases hk0 : k = 0
      · subst hk0
        simp
      · rw [shr_two_pow_le (by omega), show (2 : Nat) * 2 ^ (k - 1) - 1 = 2 ^ k - 1 by
          rw [show (2 : Nat) * 2 ^ (k - 1) = 2 ^ (k - 1 + 1) by ring]
          congr 2
          omega]
        have hmb2 : ∀ j, j ∈ PIECES → pos.b_board j &&& (2 ^ (k + 1) - 1) = 0 := by
          intro j hj
          rw [← hmask]
          exact hmb j hj
        by_cases hii : i = i0
        · rw [if_pos hii]
          exact lor_land_zero
            (sub_mask_mono (hmb2 i0 hi0) (show k ≤ k + 1 by omega)) hpow_pred
        · rw [if_neg hii]
          exact sub_mask_mono (hmb2 i hi) (show k ≤ k + 1 by omega)
    · by_cases hk0 : k = 0
      · subst hk0
        simp
      · rw [shr_two_pow_le (by omega)]
        exact Or.inr ⟨k - 1, by omega, rfl⟩

theorem fen_board_char_inv {pos : Position} {ptr : Nat} (h : ParseInv pos ptr)
    (c : Char) : ParseInv (fen_board_char c ptr pos) (ptr >>> 1) := by
  unfold fen_board_char
  by_cases h1 : c = 'r'
  · rw [if_pos h1]
    exact parse_inv_or_b h .Rook (by decide)
  · rw [if_neg h1]
    by_cases h2 : c = 'b'
    · rw [if_pos h2]
      exact parse_inv_or_b h .Bishop (by decide)
    · rw [if_neg h2]
      by_cases h3 : c = 'n'
      · rw [if_pos h3]
        exact parse_inv_or_b h .Knight (by decide)
      · rw [if_neg h3]
        by_cases h4 : c = 'q'
        · rw [if_pos h4]
          exact parse_inv_or_b h .Queen (by decide)
        · rw [if_neg h4]
          by_cases h5 : c = 'k'
          · rw [if_pos h5]
            exact parse_inv_or_b h .King (by decide)
          · rw [if_neg h5]
            by_cases h6 : c = 'p'
            · rw [if_pos h6]
              exact parse_inv_or_b h .Pawn (by decide)
            · rw [if_neg h6]
              by_cases h7 : c = 'R'
              · rw [if_pos h7]
                exact parse_inv_or_w h .Rook (by decide)
              · rw [if_neg h7]
                by_cases h8 : c = 'B'
                · rw [if_pos h8]
                  exact parse_inv_or_w h .Bishop (by decide)
                · rw [if_neg h8]
                  by_cases h9 : c = 'N'
                  · rw [if_pos h9]
                    exact parse_inv_or_w h .Knight (by decide)
                  · rw [if_neg h9]
                    by_cases h10 : c = 'Q'
                    · rw [if_pos h10]
                      exact parse_inv_or_w h .Queen (by decide)
                    · rw [if_neg h10]
                      by_cases h11 : c = 'K'
                      · rw [if_pos h11]
                        exact parse_inv_or_w h .King (by decide)
                      · rw [if_neg h11]
                        by_cases h12 : c = 'P'
                        · rw [if_pos h12]
                          exact parse_inv_or_w h .Pawn (by decide)
                        · rw [if_neg h12]
                          exact parse_inv_shr h 1

theorem fen_board_char_fields (c : Char) (ptr : Nat) (pos : Position) :
    (fen_board_char c ptr pos).w_all = pos.w_all ∧
    (fen_board_char c ptr pos).b_all = pos.b_all ∧
    (fen_board_char c ptr pos).w_turn = pos.w_turn ∧
    (fen_board_char c ptr pos).en_passent_target_square = pos.en_passent_target_square ∧
    (fen_board_char c ptr pos).legal_moves = pos.legal_moves := by
  unfold fen_board_char
  by_cases h1 : c = 'r'
  · rw [if_pos h1]
    exact ⟨rfl, rfl, rfl, rfl, rfl⟩
  · rw [if_neg h1]
    by_cases h2 : c = 'b'
    · rw [if_pos h2]
      exact ⟨rfl, rfl, rfl, rfl, rfl⟩
    · rw [if_neg h2]
      by_cases h3 : c = 'n'
      · rw [if_pos h3]
        exact ⟨rfl, rfl, rfl, rfl, rfl⟩
      · rw [if_neg h3]
        by_cases h4 : c = 'q'
        · rw [if_pos h4]
          exact ⟨rfl, rfl, rfl, rfl, rfl⟩
        · rw [if_neg h4]
          by_cases h5 : c = 'k'
          · rw [if_pos h5]
            exact ⟨rfl, rfl, rfl, rfl, rfl⟩
          · rw [if_neg h5]
            by_cases h6 : c = 'p'
            · rw [if_pos h6]
              exact ⟨rfl, rfl, rfl, rfl, rfl⟩
            · rw [if_neg h6]
              by_cases h7 : c = 'R'
              · rw [if_pos h7]
                exact ⟨rfl, rfl, rfl, rfl, rfl⟩
              · rw [if_neg h7]
                by_cases h8 : c = 'B'
                · rw [if_pos h8]
                  exact ⟨rfl, rfl, rfl, rfl, rfl⟩
                · rw [if_neg h8]
                  by_cases h9 : c = 'N'
                  · rw [if_pos h9]
                    exact ⟨rfl, rfl, rfl, rfl, rfl⟩
                  · rw [if_neg h9]
                    by_cases h10 : c = 'Q'
                    · rw [if_pos h10]
                      exact ⟨rfl, rfl, rfl, rfl, rfl⟩
                    · rw [if_neg h10]
                      by_cases h11 : c = 'K'
                      · rw [if_pos h11]
                        exact ⟨rfl, rfl, rfl, rfl, rfl⟩
                      · rw [if_neg h11]
                        by_cases h12 : c = 'P'
                        · rw [if_pos h12]
                          exact ⟨rfl, rfl, rfl, rfl, rfl⟩
                        · rw [if_neg h12]
                          exact ⟨rfl, rfl, rfl, rfl, rfl⟩

theorem fen_board_char_slash (ptr : Nat) (pos : Position) :
    fen_board_char '/' ptr pos = pos := rfl

/-- The placement loop preserves `ParseInv` (with some final pointer). -/
theorem parse_board_inv :
    ∀ (chars : List Char) (ptr : Nat) (pos : Position), ParseInv pos ptr →
      ∃ ptr2, ParseInv (parse_board chars ptr pos) ptr2 := by
  intro chars
  induction chars with
  | nil => intro ptr pos h; exact ⟨ptr, h⟩
  | cons c rest ih =>
    intro ptr pos h
    rw [parse_board]
    by_cases hdig : '1' ≤ c ∧ c ≤ '9'
    · rw [if_pos hdig]
      exact ih _ _ (parse_inv_shr h _)
    · rw [if_neg hdig]
      by_cases hc : c = '/'
      · subst hc
        rw [fen_board_char_slash]
        simp only [ne_eq, not_true_eq_false, if_false]
        exact ih _ _ h
      · rw [if_pos hc]
        exact ih _ _ (fen_board_char_inv h c)

/-- The placement loop touches only the piece boards. -/
theorem parse_board_fields :
    ∀ (chars : List Char) (ptr : Nat) (pos : Position),
      (parse_board chars ptr pos).w_all = pos.w_all ∧
      (parse_board chars ptr pos).b_all = pos.b_all ∧
      (parse_board chars ptr pos).w_turn = pos.w_turn ∧
      (parse_board chars ptr pos).en_passent_target_square =
        pos.en_passent_target_square ∧
      (parse_board chars ptr pos).legal_moves = pos.legal_moves := by
  intro chars
  induction chars with
  | nil => intro ptr pos; exact ⟨rfl, rfl, rfl, rfl, rfl⟩
  | cons c rest ih =>
    intro ptr pos
    rw [parse_board]
    by_cases hdig : '1' ≤ c ∧ c ≤ '9'
    · rw [if_pos hdig]
      exact ih _ _
    · rw [if_neg hdig]
      obtain ⟨h1, h2, h3, h4, h5⟩ := ih (if c ≠ '/' then ptr >>> 1 else ptr)
        (fen_board_char c ptr pos)
      obtain ⟨g1, g2, g3, g4, g5⟩ := fen_board_char_fields c ptr pos
      exact ⟨h1.trans g1, h2.trans g2, h3.trans g3, h4.trans g4, h5.trans g5⟩

/- ------------------------------------------------------------------ -/
/- C2: board-family toolkit                                            -/
/- ------------------------------------------------------------------ -/

theorem boardOr_testBit (f : Piece → Nat) (u : Nat) :
    (boardOr f).testBit u =
      ((f .Pawn).testBit u || (f .Knight).testBit u || (f .Bishop).testBit u ||
       (f .Rook).testBit u || (f .Queen).testBit u || (f .King).testBit u) := by
  simp [boardOr, Nat.testBit_lor]

theorem testBit_boardOr {f : Piece → Nat} {i : Piece} (hi : i ∈ PIECES) {u : Nat}
    (hb : (f i).testBit u = true) : (boardOr f).testBit u = true := by
  rw [boardOr_testBit]
  simp only [PIECES, List.mem_cons, List.not_mem_nil, or_false] at hi
  rcases hi with rfl | rfl | rfl | rfl | rfl | rfl <;> simp [hb]

theorem boardOr_testBit_false {f : Piece → Nat} {u : Nat}
    (h : ∀ i ∈ PIECES, (f i).testBit u = false) : (boardOr f).testBit u = false := by
  rw [boardOr_testBit]
  rw [h .Pawn (by decide), h .Knight (by decide), h .Bishop (by decide),
    h .Rook (by decide), h .Queen (by decide), h .King (by decide)]
  rfl

theorem boardOr_testBit_cases {f : Piece → Nat} {u : Nat}
    (h : (boardOr f).testBit u = true) : ∃ i ∈ PIECES, (f i).testBit u = true := by
  by_contra hc
  push_neg at hc
  have hf : ∀ i ∈ PIECES, (f i).testBit u = false := by
    intro i hi
    rcases hx : (f i).testBit u
    · rfl
    · exact absurd hx (hc i hi)
  rw [boardOr_testBit_false hf] at h
  exact absurd h (by simp)

theorem wOr_eq_boardOr (p : Position) : wOr p = boardOr p.w_board := rfl

theorem bOr_eq_boardOr (p : Position) : bOr p = boardOr p.b_board := rfl

theorem boardOr_lt_U {f : Piece → Nat} (h : ∀ i ∈ PIECES, f i < U) :
    boardOr f < U := by
  have hP := h .Pawn (by decide)
  have hN := h .Knight (by decide)
  have hB := h .Bishop (by decide)
  have hR := h .Rook (by decide)
  have hQ := h .Queen (by decide)
  have hK := h .King (by decide)
  exact lor_lt_U (lor_lt_U (lor_lt_U (lor_lt_U (lor_lt_U hP hN) hB) hR) hQ) hK

theorem land_two_pow_zero_iff {x t : Nat} :
    x &&& 2 ^ t = 0 ↔ x.testBit t = false := by
  constructor
  · intro h
    exact land_eq_zero_iff.1 (land_zero_comm h) t (by simp [Nat.testBit_two_pow])
  · intro h
    rw [land_eq_zero_iff]
    intro i hx
    rw [Nat.testBit_two_pow]
    simp only [decide_eq_false_iff_not]
    intro he
    subst he
    rw [h] at hx
    exact absurd hx (by simp)

/-- `calculate_legal_moves` never reads the cached move list. -/
theorem calculate_cache_irrel (q : Position) (X : List Move) :
    calculate_legal_moves { q with legal_moves := X } = calculate_legal_moves q := by
  simp only [calculate_legal_moves, w_pseudo_moves, b_pseudo_moves,
    w_moves_for_square, b_moves_for_square, get_w_piece, get_b_piece,
    w_pawn_targets, b_pawn_targets, w_king_capture_filter, b_king_capture_filter,
    w_tentative, b_tentative, square_attacked_by_black, square_attacked_by_white,
    w_king_scan, b_king_scan, apply_ite Position.w_board, apply_ite Position.b_board,
    apply_ite Position.w_all, apply_ite Position.b_all,
    apply_ite Position.en_passent_target_square]

theorem cache_set_sound (q : Position) :
    ({ q with legal_moves := calculate_legal_moves q } : Position).legal_moves =
      calculate_legal_moves { q with legal_moves := calculate_legal_moves q } := by
  dsimp only
  exact (calculate_cache_irrel q _).symm

/-- The move applicator leaves a cache equal to the recomputation from the
position it produces. -/
theorem make_w_move_cache (p : Position) (m : Move) :
    (make_w_move p m).legal_moves = calculate_legal_moves (make_w_move p m) := by
  unfold make_w_move
  exact cache_set_sound _

theorem make_b_move_cache (p : Position) (m : Move) :
    (make_b_move p m).legal_moves = calculate_legal_moves (make_b_move p m) := by
  unfold make_b_move
  exact cache_set_sound _

/-- The move generator never emits a king move two files away, so the castling
branches of the applicators are dead for generated moves (checked over the
finite board). -/
theorem king_mask_no_castle :
    ∀ sq, sq < 64 → ∀ t, t < 64 → (KING_MASK sq).testBit t = true →
      (2 ^ sq : Nat) >>> 2 ≠ 2 ^ t ∧ shl (2 ^ sq) 2 ≠ 2 ^ t := by decide

/-- A double-push destination (ranks 3/4 in 0-based ranks 3 and 4) is never on
a back rank. -/
theorem w_double_dest_not_backrank :
    ∀ s, 8 ≤ s → s ≤ 15 → ((2:Nat) ^ (s + 16) &&& (RANK 0 ||| RANK 7)) = 0 := by decide

theorem b_double_dest_not_backrank :
    ∀ s, 48 ≤ s → s ≤ 55 → ((2:Nat) ^ (s - 16) &&& (RANK 0 ||| RANK 7)) = 0 := by decide

theorem boardOr_false_all {f : Piece → Nat} {u : Nat}
    (h : (boardOr f).testBit u = false) : ∀ i ∈ PIECES, (f i).testBit u = false := by
  intro i hi
  cases hx : (f i).testBit u
  · rfl
  · exact absurd (testBit_boardOr hi hx) (by simp [h])

theorem pair_disj_sub {f g : Piece → Nat} (hdisj : PairDisj f)
    (hsub : ∀ i ∈ PIECES, ∀ u, (g i).testBit u = true → (f i).testBit u = true) :
    PairDisj g := by
  intro i hi j hj hij
  rw [land_eq_zero_iff]
  intro u hu
  cases hx : (g j).testBit u
  · rfl
  · exact absurd (land_eq_zero_iff.1 (hdisj i hi j hj hij) u (hsub i hi u hu))
      (by simp [hsub j hj u hx])

/-- Cross-family disjointness survives a step where the moving family gains at
most the destination bit and the passive family shrinks and ends without the
destination bit. -/
theorem cross_disj_step {f g f2 g2 : Piece → Nat} {t : Nat} (hcross : CrossDisj f g)
    (hfsub : ∀ i ∈ PIECES, ∀ u, (f2 i).testBit u = true →
      (f i).testBit u = true ∨ u = t)
    (hgsub : ∀ j ∈ PIECES, ∀ u, (g2 j).testBit u = true → (g j).testBit u = true)
    (hgt : ∀ j ∈ PIECES, (g2 j).testBit t = false) : CrossDisj f2 g2 := by
  intro i hi j hj
  rw [land_eq_zero_iff]
  intro u hu
  cases hx : (g2 j).testBit u
  · rfl
  · exfalso
    rcases hfsub i hi u hu with hfu | rfl
    · exact absurd (land_eq_zero_iff.1 (hcross i hi j hj) u hfu)
        (by simp [hgsub j hj u hx])
    · rw [hgt j hj] at hx
      exact absurd hx (by simp)

/-- The piece-displacement XOR of the applicators: the moving family keeps
pairwise disjointness, its aggregate follows the same XOR, every slot gains at
most the destination bit, and the moved slot now holds the destination. -/
theorem family_move {f : Piece → Nat} {pc : Piece} {s t : Nat}
    (hdisj : PairDisj f) (hpcP : pc ∈ PIECES)
    (hs : (f pc).testBit s = true) (ht : (boardOr f).testBit t = false) :
    PairDisj (updBoard f pc (f pc ^^^ (2 ^ s ||| 2 ^ t))) ∧
    boardOr (updBoard f pc (f pc ^^^ (2 ^ s ||| 2 ^ t))) =
      boardOr f ^^^ (2 ^ s ||| 2 ^ t) ∧
    (∀ i ∈ PIECES, ∀ u, ((updBoard f pc (f pc ^^^ (2 ^ s ||| 2 ^ t))) i).testBit u = true →
      (f i).testBit u = true ∨ u = t) ∧
    ((updBoard f pc (f pc ^^^ (2 ^ s ||| 2 ^ t))) pc).testBit t = true := by
  have hall_t : ∀ i ∈ PIECES, (f i).testBit t = false := boardOr_false_all ht
  have hother_s : ∀ i ∈ PIECES, i ≠ pc → (f i).testBit s = false := by
    intro i hi hip
    exact land_eq_zero_iff.1 (hdisj pc hpcP i hi (Ne.symm hip)) s hs
  have hst : s ≠ t := by
    intro he
    rw [he, hall_t pc hpcP] at hs
    exact absurd hs (by simp)
  have hgbit : ∀ u, (f pc ^^^ (2 ^ s ||| 2 ^ t)).testBit u =
      (if u = s then false else if u = t then true else (f pc).testBit u) := by
    intro u
    by_cases h1 : u = s
    · subst h1
      simp [Nat.testBit_xor, Nat.testBit_lor, Nat.testBit_two_pow, hs]
    · by_cases h2 : u = t
      · subst h2
        have h1' : ¬s = u := fun he => h1 he.symm
        simp [Nat.testBit_xor, Nat.testBit_lor, Nat.testBit_two_pow,
          hall_t pc hpcP, h1, h1']
      · have h1' : ¬s = u := fun he => h1 he.symm
        have h2' : ¬t = u := fun he => h2 he.symm
        simp [Nat.testBit_xor, Nat.testBit_lor, Nat.testBit_two_pow, h1, h2, h1', h2']
  have hval : ∀ i, (updBoard f pc (f pc ^^^ (2 ^ s ||| 2 ^ t))) i =
      if i = pc then f pc ^^^ (2 ^ s ||| 2 ^ t) else f i := fun i => rfl
  have hsub : ∀ i ∈ PIECES, ∀ u,
      ((updBoard f pc (f pc ^^^ (2 ^ s ||| 2 ^ t))) i).testBit u = true →
      (f i).testBit u = true ∨ u = t := by
    intro i hi u hu
    rw [hval i] at hu
    by_cases hip : i = pc
    · rw [if_pos hip] at hu
      rw [hgbit u] at hu
      by_cases h1 : u = s
      · rw [if_pos h1] at hu
        exact absurd hu (by simp)
      · rw [if_neg h1] at hu
        by_cases h2 : u = t
        · exact Or.inr h2
        · rw [if_neg h2] at hu
          exact Or.inl (hip ▸ hu)
    · rw [if_neg hip] at hu
      exact Or.inl hu
  refine ⟨?_, ?_, hsub, ?_⟩
  · intro i hi j hj hij
    rw [land_eq_zero_iff]
    intro u hu
    rw [hval j]
    rw [hval i] at hu
    by_cases hip : i = pc <;> by_cases hjp : j = pc
    · exact absurd (hip.trans hjp.symm) hij
    · rw [if_pos hip] at hu
      rw [if_neg hjp]
      rw [hgbit u] at hu
      by_cases h1 : u = s
      · rw [if_pos h1] at hu
        exact absurd hu (by simp)
      · rw [if_neg h1] at hu
        by_cases h2 : u = t
        · subst h2
          exact hall_t j hj
        · rw [if_neg h2] at hu
          exact land_eq_zero_iff.1 (hdisj pc hpcP j hj (hip ▸ hij)) u hu
    · rw [if_neg hip] at hu
      rw [if_pos hjp, hgbit u]
      by_cases h1 : u = s
      · rw [if_pos h1]
      · rw [if_neg h1]
        by_cases h2 : u = t
        · subst h2
          exact absurd hu (by simp [hall_t i hi])
        · rw [if_neg h2]
          exact land_eq_zero_iff.1 (hdisj i hi pc hpcP (hjp ▸ hij)) u hu
    · rw [if_neg hip] at hu
      rw [if_neg hjp]
      exact land_eq_zero_iff.1 (hdisj i hi j hj hij) u hu
  · apply Nat.eq_of_testBit_eq
    intro u
    rw [Nat.testBit_xor, Nat.testBit_lor, Nat.testBit_two_pow, Nat.testBit_two_pow]
    by_cases h1 : u = s
    · subst h1
      have hl : (boardOr (updBoard f pc (f pc ^^^ (2 ^ u ||| 2 ^ t)))).testBit u = false := by
        apply boardOr_testBit_false
        intro i hi
        rw [hval i]
        by_cases hip : i = pc
        · rw [if_pos hip, hgbit u, if_pos rfl]
        · rw [if_neg hip]
          exact hother_s i hi hip
      rw [hl, testBit_boardOr hpcP hs]
      simp
    · by_cases h2 : u = t
      · subst h2
        have hl : (boardOr (updBoard f pc (f pc ^^^ (2 ^ s ||| 2 ^ u)))).testBit u = true := by
          apply testBit_boardOr hpcP
          rw [hval pc, if_pos rfl, hgbit u, if_neg h1, if_pos rfl]
        rw [hl, ht]
        have h1' : ¬s = u := fun he => h1 he.symm
        simp [h1']
      · have h1' : ¬s = u := fun he => h1 he.symm
        have h2' : ¬t = u := fun he => h2 he.symm
        have hl : (boardOr (updBoard f pc (f pc ^^^ (2 ^ s ||| 2 ^ t)))).testBit u =
            (boardOr f).testBit u := by
          cases hb : (boardOr f).testBit u
          · apply boardOr_testBit_false
            intro i hi
            rw [hval i]
            by_cases hip : i = pc
            · rw [if_pos hip, hgbit u, if_neg h1, if_neg h2]
              exact boardOr_false_all hb pc hpcP
            · rw [if_neg hip]
              exact boardOr_false_all hb i hi
          · obtain ⟨i, hi, hbit⟩ := boardOr_testBit_cases hb
            apply testBit_boardOr hi
            rw [hval i]
            by_cases hip : i = pc
            · rw [if_pos hip, hgbit u, if_neg h1, if_neg h2, ← hip]
              exact hbit
            · rw [if_neg hip]
              exact hbit
        rw [hl]
        simp [h1', h2']
  · rw [hval pc, if_pos rfl, hgbit t, if_neg (Ne.symm hst), if_pos rfl]

/-- The capture-clearing loop of the applicators: every slot of the passive
family is intersected with the complement of the destination. -/
theorem family_clear {f : Piece → Nat} (x : Nat) (hb : ∀ i ∈ PIECES, f i < U) :
    (∀ i ∈ PIECES, ∀ u, ((clearPieces f (not64 x)) i).testBit u =
      ((f i).testBit u && !x.testBit u)) ∧
    boardOr (clearPieces f (not64 x)) = boardOr f &&& not64 x := by
  have hchar : ∀ i ∈ PIECES, ∀ u, ((clearPieces f (not64 x)) i).testBit u =
      ((f i).testBit u && !x.testBit u) := by
    intro i hi u
    have hiv : i ≠ Piece.Void := by
      simp only [PIECES, List.mem_cons, List.not_mem_nil, or_false] at hi
      rcases hi with rfl | rfl | rfl | rfl | rfl | rfl <;> decide
    show (if i = Piece.Void then f i else f i &&& not64 x).testBit u = _
    rw [if_neg hiv]
    by_cases hu : u < 64
    · rw [Nat.testBit_land, testBit_not64_lt x hu]
    · rw [Nat.testBit_land, testBit_U_of_ge (hb i hi) (by omega)]
      simp
  refine ⟨hchar, ?_⟩
  apply Nat.eq_of_testBit_eq
  intro u
  by_cases hu : u < 64
  · rw [Nat.testBit_land, testBit_not64_lt x hu, boardOr_testBit, boardOr_testBit,
      hchar .Pawn (by decide), hchar .Knight (by decide), hchar .Bishop (by decide),
      hchar .Rook (by decide), hchar .Queen (by decide), hchar .King (by decide)]
    cases hx : x.testBit u <;> simp
  · have hl : boardOr (clearPieces f (not64 x)) < U := by
      apply boardOr_lt_U
      intro i hi
      have hiv : i ≠ Piece.Void := by
        simp only [PIECES, List.mem_cons, List.not_mem_nil, or_false] at hi
        rcases hi with rfl | rfl | rfl | rfl | rfl | rfl <;> decide
      show (if i = Piece.Void then f i else f i &&& not64 x) < U
      rw [if_neg hiv]
      exact land_lt_U_left (hb i hi)
    rw [testBit_U_of_ge hl (by omega),
      testBit_U_of_ge (land_lt_U_left (boardOr_lt_U hb)) (by omega)]

/-- Clearing bits `x` out of one slot when no other slot meets `x` (the
en-passant removal and the promotion pawn-clearing). -/
theorem slot_clear {f : Piece → Nat} {pc : Piece} {x : Nat} (hpcP : pc ∈ PIECES)
    (hb : ∀ i ∈ PIECES, f i < U) (hxU : x < U)
    (hothers : ∀ j ∈ PIECES, j ≠ pc → f j &&& x = 0) :
    boardOr (updBoard f pc (f pc &&& not64 x)) = boardOr f &&& not64 x ∧
    (∀ i ∈ PIECES, ∀ u, ((updBoard f pc (f pc &&& not64 x)) i).testBit u = true →
      (f i).testBit u = true) ∧
    (∀ u, x.testBit u = true → ∀ i ∈ PIECES,
      ((updBoard f pc (f pc &&& not64 x)) i).testBit u = false) := by
  have hval : ∀ i, (updBoard f pc (f pc &&& not64 x)) i =
      if i = pc then f pc &&& not64 x else f i := fun i => rfl
  have hsub : ∀ i ∈ PIECES, ∀ u,
      ((updBoard f pc (f pc &&& not64 x)) i).testBit u = true →
      (f i).testBit u = true := by
    intro i hi u hu
    rw [hval i] at hu
    by_cases hip : i = pc
    · rw [if_pos hip] at hu
      rw [Nat.testBit_land, Bool.and_eq_true] at hu
      exact hip ▸ hu.1
    · rw [if_neg hip] at hu
      exact hu
  have hdead : ∀ u, x.testBit u = true → ∀ i ∈ PIECES,
      ((updBoard f pc (f pc &&& not64 x)) i).testBit u = false := by
    intro u hx i hi
    have hu64 : u < 64 := by
      by_contra hge
      rw [testBit_U_of_ge hxU (by omega)] at hx
      exact absurd hx (by simp)
    rw [hval i]
    by_cases hip : i = pc
    · rw [if_pos hip, Nat.testBit_land, testBit_not64_lt x hu64, hx]
      simp
    · rw [if_neg hip]
      exact land_eq_zero_iff.1 (land_zero_comm (hothers i hi hip)) u hx
  refine ⟨?_, hsub, hdead⟩
  apply Nat.eq_of_testBit_eq
  intro u
  by_cases hu : u < 64
  · rw [Nat.testBit_land, testBit_not64_lt x hu]
    cases hx : x.testBit u
    · have hcongr : ∀ i ∈ PIECES,
          ((updBoard f pc (f pc &&& not64 x)) i).testBit u = (f i).testBit u := by
        intro i hi
        rw [hval i]
        by_cases hip : i = pc
        · rw [if_pos hip, hip, Nat.testBit_land, testBit_not64_lt x hu, hx]
          simp
        · rw [if_neg hip]
      rw [boardOr_testBit, boardOr_testBit, hcongr .Pawn (by decide),
        hcongr .Knight (by decide), hcongr .Bishop (by decide),
        hcongr .Rook (by decide), hcongr .Queen (by decide), hcongr .King (by decide)]
      simp
    · rw [boardOr_testBit, hdead u hx .Pawn (by decide), hdead u hx .Knight (by decide),
        hdead u hx .Bishop (by decide), hdead u hx .Rook (by decide),
        hdead u hx .Queen (by decide), hdead u hx .King (by decide)]
      simp
  · have hl : boardOr (updBoard f pc (f pc &&& not64 x)) < U := by
      apply boardOr_lt_U
      intro i hi
      rw [hval i]
      by_cases hip : i = pc
      · rw [if_pos hip]
        exact land_lt_U_left (hb pc hpcP)
      · rw [if_neg hip]
        exact hb i hi
    rw [testBit_U_of_ge hl (by omega),
      testBit_U_of_ge (land_lt_U_left (boardOr_lt_U hb)) (by omega)]

/-- Adding bit `t` to one slot when no slot holds it (the promotion piece
placement). -/
theorem slot_add {f : Piece → Nat} {pc : Piece} {t : Nat} (hpcP : pc ∈ PIECES)
    (hdisj : PairDisj f) (hnone : ∀ j ∈ PIECES, (f j).testBit t = false) :
    PairDisj (updBoard f pc (f pc ||| 2 ^ t)) ∧
    boardOr (updBoard f pc (f pc ||| 2 ^ t)) = boardOr f ||| 2 ^ t ∧
    (∀ i ∈ PIECES, ∀ u, ((updBoard f pc (f pc ||| 2 ^ t)) i).testBit u = true →
      (f i).testBit u = true ∨ u = t) := by
  have hval : ∀ i, (updBoard f pc (f pc ||| 2 ^ t)) i =
      if i = pc then f pc ||| 2 ^ t else f i := fun i => rfl
  have hslot : ∀ u, (f pc ||| 2 ^ t).testBit u =
      ((f pc).testBit u || decide (u = t)) := by
    intro u
    rw [Nat.testBit_lor, Nat.testBit_two_pow]
    by_cases h : t = u
    · subst h
      simp
    · have h' : ¬u = t := fun he => h he.symm
      simp [h, h']
  have hsub : ∀ i ∈ PIECES, ∀ u,
      ((updBoard f pc (f pc ||| 2 ^ t)) i).testBit u = true →
      (f i).testBit u = true ∨ u = t := by
    intro i hi u hu
    rw [hval i] at hu
    by_cases hip : i = pc
    · rw [if_pos hip, hslot u, Bool.or_eq_true] at hu
      rcases hu with hu | hu
      · exact Or.inl (hip ▸ hu)
      · exact Or.inr (by simpa using hu)
    · rw [if_neg hip] at hu
      exact Or.inl hu
  refine ⟨?_, ?_, hsub⟩
  · intro i hi j hj hij
    rw [land_eq_zero_iff]
    intro u hu
    cases hx : ((updBoard f pc (f pc ||| 2 ^ t)) j).testBit u
    · rfl
    · exfalso
      rcases hsub i hi u hu with hui | rfl
      · rcases hsub j hj u hx with huj | rfl
        · exact absurd (land_eq_zero_iff.1 (hdisj i hi j hj hij) u hui) (by simp [huj])
        · exact absurd hui (by simp [hnone i hi])
      · by_cases hip : i = pc
        · by_cases hjp : j = pc
          · exact hij (hip.trans hjp.symm)
          · rw [hval j, if_neg hjp] at hx
            exact absurd hx (by simp [hnone j hj])
        · rw [hval i, if_neg hip] at hu
          exact absurd hu (by simp [hnone i hi])
  · apply Nat.eq_of_testBit_eq
    intro u
    rw [Nat.testBit_lor, Nat.testBit_two_pow]
    by_cases h2 : u = t
    · subst h2
      have hl : (boardOr (updBoard f pc (f pc ||| 2 ^ u))).testBit u = true := by
        apply testBit_boardOr hpcP
        rw [hval pc, if_pos rfl, hslot u]
        simp
      rw [hl]
      simp
    · have h2' : ¬t = u := fun he => h2 he.symm
      have hcongr : ∀ i ∈ PIECES,
          ((updBoard f pc (f pc ||| 2 ^ t)) i).testBit u = (f i).testBit u := by
        intro i hi
        rw [hval i]
        by_cases hip : i = pc
        · rw [if_pos hip, hslot u, hip]
          simp [h2]
        · rw [if_neg hip]
      rw [boardOr_testBit, boardOr_testBit, hcongr .Pawn (by decide),
        hcongr .Knight (by decide), hcongr .Bishop (by decide),
        hcongr .Rook (by decide), hcongr .Queen (by decide), hcongr .King (by decide)]
      simp [h2']

theorem get_w_piece_spec {p : Position} {bsq : Nat}
    (h : get_w_piece p bsq ≠ .Void) :
    get_w_piece p bsq ∈ PIECES ∧ p.w_board (get_w_piece p bsq) &&& bsq = bsq := by
  have hmem : ∀ (o : Option Piece),
      PIECES.find? (fun k => p.w_board k &&& bsq == bsq) = o →
      o.getD .Void ≠ .Void →
      o.getD .Void ∈ PIECES ∧ p.w_board (o.getD .Void) &&& bsq = bsq := by
    intro o ho hne
    cases o with
    | none => exact absurd rfl hne
    | some k =>
      simp only [Option.getD_some]
      refine ⟨List.mem_of_find?_eq_some ho, ?_⟩
      have h2 := List.find?_some ho
      simpa using h2
  unfold get_w_piece at h ⊢
  exact hmem _ rfl h

theorem get_b_piece_spec {p : Position} {bsq : Nat}
    (h : get_b_piece p bsq ≠ .Void) :
    get_b_piece p bsq ∈ PIECES ∧ p.b_board (get_b_piece p bsq) &&& bsq = bsq := by
  have hmem : ∀ (o : Option Piece),
      PIECES.find? (fun k => p.b_board k &&& bsq == bsq) = o →
      o.getD .Void ≠ .Void →
      o.getD .Void ∈ PIECES ∧ p.b_board (o.getD .Void) &&& bsq = bsq := by
    intro o ho hne
    cases o with
    | none => exact absurd rfl hne
    | some k =>
      simp only [Option.getD_some]
      refine ⟨List.mem_of_find?_eq_some ho, ?_⟩
      have h2 := List.find?_some ho
      simpa using h2
  unfold get_b_piece at h ⊢
  exact hmem _ rfl h

theorem cross_all_disjoint {p : Position}
    (hwb : ∀ i ∈ PIECES, ∀ j ∈ PIECES, p.w_board i &&& p.b_board j = 0) :
    wOr p &&& bOr p = 0 := by
  rw [wOr_eq_boardOr, bOr_eq_boardOr, land_eq_zero_iff]
  intro u hu
  obtain ⟨i, hi, hbit⟩ := boardOr_testBit_cases hu
  apply boardOr_testBit_false
  intro j hj
  exact land_eq_zero_iff.1 (hwb i hi j hj) u hbit

theorem not_testBit_of_land_not64 {y x : Nat} {t : Nat} (ht64 : t < 64)
    (hy : (y &&& not64 x).testBit t = true) : x.testBit t = false := by
  rw [Nat.testBit_land, Bool.and_eq_true, testBit_not64_lt x ht64] at hy
  cases hv : x.testBit t
  · rfl
  · rw [hv] at hy
    exact absurd hy.2 (by simp)

/-- The destination of a white target bitboard never lies on the own
aggregate. -/
theorem w_dest_not_own {p : Position} {sq t : Nat} {pc : Piece} (ht64 : t < 64)
    (hab : p.w_all &&& p.b_all = 0)
    (hep : p.en_passent_target_square &&& (p.w_all ||| p.b_all) = 0)
    (hbit : (w_targets p (p.w_all ||| p.b_all) sq pc).testBit t = true) :
    p.w_all.testBit t = false := by
  have hblk : ∀ (y : Nat), (y &&& not64 (p.w_all ||| p.b_all)).testBit t = true →
      p.w_all.testBit t = false := by
    intro y hy
    have h2 := not_testBit_of_land_not64 ht64 hy
    rw [Nat.testBit_lor, Bool.or_eq_false_iff] at h2
    exact h2.1
  have hown : ∀ (y : Nat), (y &&& not64 p.w_all).testBit t = true →
      p.w_all.testBit t = false := fun y hy => not_testBit_of_land_not64 ht64 hy
  cases pc <;> simp only [w_targets] at hbit
  · exact hown _ hbit
  · rw [Nat.testBit_lor, Bool.or_eq_true] at hbit
    rcases hbit with hb | hb
    · exact hown _ hb
    · exact hown _ hb
  · exact hown _ hbit
  · exact hown _ hbit
  · exact hown _ hbit
  · rw [w_pawn_targets, Nat.testBit_lor, Nat.testBit_lor, Bool.or_eq_true,
      Bool.or_eq_true] at hbit
    rcases hbit with (hb | hb) | hb
    · exact hblk _ hb
    · have h2 := not_testBit_of_land_not64 ht64 hb
      rw [Nat.testBit_lor, Bool.or_eq_false_iff] at h2
      rw [Nat.testBit_lor, Bool.or_eq_false_iff] at h2
      exact h2.1.1
    · rw [Nat.testBit_land, Bool.and_eq_true, Nat.testBit_lor, Bool.or_eq_true] at hb
      rcases hb.2 with hb2 | hb2
      · exact land_eq_zero_iff.1 (land_zero_comm hab) t hb2
      · have h3 := land_eq_zero_iff.1 hep t hb2
        rw [Nat.testBit_lor, Bool.or_eq_false_iff] at h3
        exact h3.1
  · exact absurd hbit (by simp)

/-- The destination of a black target bitboard never lies on the own
aggregate. -/
theorem b_dest_not_own {p : Position} {sq t : Nat} {pc : Piece} (ht64 : t < 64)
    (hab : p.w_all &&& p.b_all = 0)
    (hep : p.en_passent_target_square &&& (p.w_all ||| p.b_all) = 0)
    (hbit : (b_targets p (p.w_all ||| p.b_all) sq pc).testBit t = true) :
    p.b_all.testBit t = false := by
  have hblk : ∀ (y : Nat), (y &&& not64 (p.w_all ||| p.b_all)).testBit t = true →
      p.b_all.testBit t = false := by
    intro y hy
    have h2 := not_testBit_of_land_not64 ht64 hy
    rw [Nat.testBit_lor, Bool.or_eq_false_iff] at h2
    exact h2.2
  have hown : ∀ (y : Nat), (y &&& not64 p.b_all).testBit t = true →
      p.b_all.testBit t = false := fun y hy => not_testBit_of_land_not64 ht64 hy
  cases pc <;> simp only [b_targets] at hbit
  · exact hown _ hbit
  · rw [Nat.testBit_lor, Bool.or_eq_true] at hbit
    rcases hbit with hb | hb
    · exact hown _ hb
    · exact hown _ hb
  · exact hown _ hbit
  · exact hown _ hbit
  · exact hown _ hbit
  · rw [b_pawn_targets, Nat.testBit_lor, Nat.testBit_lor, Bool.or_eq_true,
      Bool.or_eq_true] at hbit
    rcases hbit with (hb | hb) | hb
    · exact hblk _ hb
    · have h2 := not_testBit_of_land_not64 ht64 hb
      rw [Nat.testBit_lor, Bool.or_eq_false_iff] at h2
      rw [Nat.testBit_lor, Bool.or_eq_false_iff] at h2
      exact h2.1.2
    · rw [Nat.testBit_land, Bool.and_eq_true, Nat.testBit_lor, Bool.or_eq_true] at hb
      rcases hb.2 with hb2 | hb2
      · exact land_eq_zero_iff.1 hab t hb2
      · have h3 := land_eq_zero_iff.1 hep t hb2
        rw [Nat.testBit_lor, Bool.or_eq_false_iff] at h3
        exact h3.2
  · exact absurd hbit (by simp)

/-- Restoring a bit that was just cleared. -/
theorem clear_set_bit {y t : Nat} (hyU : y < U) (ht : y.testBit t = true)
    (ht64 : t < 64) : y &&& not64 (2 ^ t) ||| 2 ^ t = y := by
  apply Nat.eq_of_testBit_eq
  intro u
  rw [Nat.testBit_lor, Nat.testBit_land, Nat.testBit_two_pow]
  by_cases hu : u < 64
  · rw [testBit_not64_lt _ hu, Nat.testBit_two_pow]
    by_cases h2 : t = u
    · subst h2
      simp [ht]
    · simp [h2]
  · rw [testBit_U_of_ge hyU (by omega)]
    have h2 : ¬t = u := by omega
    simp [h2]

/-- Everything the induction needs to know about a cached white move. -/
theorem w_cached_move_facts {p : Position} {m : Move}
    (hInv : FullInv p) (htn : p.w_turn = true) (hm : m ∈ p.legal_moves) :
    ∃ s t, s < 64 ∧ t < 64 ∧ m.from_sq = 2 ^ s ∧ m.destination = 2 ^ t ∧
      m.piece ∈ PIECES ∧ (p.w_board m.piece).testBit s = true ∧
      p.w_all.testBit t = false ∧
      ¬(m.piece = Piece.King ∧ m.from_sq >>> 2 = m.destination) ∧
      ¬(m.piece = Piece.King ∧ shl m.from_sq 2 = m.destination) ∧
      (m.promotion ≠ Piece.Void →
        m.piece = Piece.Pawn ∧ m.promotion ∈ PIECES ∧ m.promotion ≠ Piece.Pawn ∧
        m.destination &&& (RANK 0 ||| RANK 7) ≠ 0) ∧
      m ∈ w_pseudo_moves p (p.w_all ||| p.b_all) := by
  obtain ⟨⟨⟨hww, hbb, hwb⟩, hwa, hba⟩, _, ⟨hep1, _, _⟩, hcache⟩ := hInv
  rw [hcache, calculate_legal_moves, if_pos htn] at hm
  have hpse := (List.mem_filter.1 hm).1
  obtain ⟨sq, hsq64, hf, hpcg, ⟨t, ht64, hdt, hbit⟩, hpro_iff, hpro_mem⟩ :=
    mem_w_pseudo_moves hpse
  have hgV : get_w_piece p (sqbb sq) ≠ .Void := by
    intro hv
    rw [hv] at hbit
    simp only [w_targets] at hbit
    exact absurd hbit (by simp)
  obtain ⟨hpcP', hboard⟩ := get_w_piece_spec hgV
  rw [← hpcg] at hpcP' hboard
  have hfs : m.from_sq = 2 ^ sq := by rw [hf, sqbb_eq_two_pow hsq64]
  have hsbit : (p.w_board m.piece).testBit sq = true := by
    have h2 := congrArg (fun z => Nat.testBit z sq) hboard
    simp only [sqbb_eq_two_pow hsq64, Nat.testBit_land, Nat.testBit_two_pow] at h2
    simpa using h2
  have hab : p.w_all &&& p.b_all = 0 := by
    rw [hwa, hba]
    exact cross_all_disjoint hwb
  have htw : p.w_all.testBit t = false := w_dest_not_own ht64 hab hep1 hbit
  have hncr : ¬(m.piece = Piece.King ∧ m.from_sq >>> 2 = m.destination) := by
    rintro ⟨hK, hc⟩
    have hK2 : get_w_piece p (sqbb sq) = Piece.King := hpcg.symm.trans hK
    rw [hK2] at hbit
    simp only [w_targets] at hbit
    rw [Nat.testBit_land, Bool.and_eq_true] at hbit
    have hkm := king_mask_no_castle sq hsq64 t ht64 hbit.1
    rw [hfs, hdt] at hc
    exact hkm.1 hc
  have hncl : ¬(m.piece = Piece.King ∧ shl m.from_sq 2 = m.destination) := by
    rintro ⟨hK, hc⟩
    have hK2 : get_w_piece p (sqbb sq) = Piece.King := hpcg.symm.trans hK
    rw [hK2] at hbit
    simp only [w_targets] at hbit
    rw [Nat.testBit_land, Bool.and_eq_true] at hbit
    have hkm := king_mask_no_castle sq hsq64 t ht64 hbit.1
    rw [hfs, hdt] at hc
    exact hkm.2 hc
  have hpro : m.promotion ≠ Piece.Void →
      m.piece = Piece.Pawn ∧ m.promotion ∈ PIECES ∧ m.promotion ≠ Piece.Pawn ∧
      m.destination &&& (RANK 0 ||| RANK 7) ≠ 0 := by
    intro hne
    have h2 := hpro_iff.1 hne
    rcases hpro_mem with hv | hmem
    · exact absurd hv hne
    · refine ⟨h2.1, ?_, ?_, h2.2⟩
      · simp only [PROMOTIONS, List.mem_cons, List.not_mem_nil, or_false] at hmem
        rcases hmem with h | h | h | h <;> rw [h] <;> decide
      · simp only [PROMOTIONS, List.mem_cons, List.not_mem_nil, or_false] at hmem
        rcases hmem with h | h | h | h <;> rw [h] <;> decide
  exact ⟨sq, t, hsq64, ht64, hfs, hdt, hpcP', hsbit, htw, hncr, hncl, hpro, hpse⟩

/-- Everything the induction needs to know about a cached black move. -/
theorem b_cached_move_facts {p : Position} {m : Move}
    (hInv : FullInv p) (htn : p.w_turn = false) (hm : m ∈ p.legal_moves) :
    ∃ s t, s < 64 ∧ t < 64 ∧ m.from_sq = 2 ^ s ∧ m.destination = 2 ^ t ∧
      m.piece ∈ PIECES ∧ (p.b_board m.piece).testBit s = true ∧
      p.b_all.testBit t = false ∧
      ¬(m.piece = Piece.King ∧ m.from_sq >>> 2 = m.destination) ∧
      ¬(m.piece = Piece.King ∧ shl m.from_sq 2 = m.destination) ∧
      (m.promotion ≠ Piece.Void →
        m.piece = Piece.Pawn ∧ m.promotion ∈ PIECES ∧ m.promotion ≠ Piece.Pawn ∧
        m.destination &&& (RANK 0 ||| RANK 7) ≠ 0) ∧
      m ∈ b_pseudo_moves p (p.w_all ||| p.b_all) := by
  obtain ⟨⟨⟨hww, hbb, hwb⟩, hwa, hba⟩, _, ⟨hep1, _, _⟩, hcache⟩ := hInv
  rw [hcache, calculate_legal_moves,
    if_neg (by rw [htn]; exact Bool.false_ne_true)] at hm
  have hpse := (List.mem_filter.1 hm).1
  obtain ⟨sq, hsq64, hf, hpcg, ⟨t, ht64, hdt, hbit⟩, hpro_iff, hpro_mem⟩ :=
    mem_b_pseudo_moves hpse
  have hgV : get_b_piece p (sqbb sq) ≠ .Void := by
    intro hv
    rw [hv] at hbit
    simp only [b_targets] at hbit
    exact absurd hbit (by simp)
  obtain ⟨hpcP', hboard⟩ := get_b_piece_spec hgV
  rw [← hpcg] at hpcP' hboard
  have hfs : m.from_sq = 2 ^ sq := by rw [hf, sqbb_eq_two_pow hsq64]
  have hsbit : (p.b_board m.piece).testBit sq = true := by
    have h2 := congrArg (fun z => Nat.testBit z sq) hboard
    simp only [sqbb_eq_two_pow hsq64, Nat.testBit_land, Nat.testBit_two_pow] at h2
    simpa using h2
  have hab : p.w_all &&& p.b_all = 0 := by
    rw [hwa, hba]
    exact cross_all_disjoint hwb
  have htb : p.b_all.testBit t = false := b_dest_not_own ht64 hab hep1 hbit
  have hncr : ¬(m.piece = Piece.King ∧ m.from_sq >>> 2 = m.destination) := by
    rintro ⟨hK, hc⟩
    have hK2 : get_b_piece p (sqbb sq) = Piece.King := hpcg.symm.trans hK
    rw [hK2] at hbit
    simp only [b_targets] at hbit
    rw [Nat.testBit_land, Bool.and_eq_true] at hbit
    have hkm := king_mask_no_castle sq hsq64 t ht64 hbit.1
    rw [hfs, hdt] at hc
    exact hkm.1 hc
  have hncl : ¬(m.piece = Piece.King ∧ shl m.from_sq 2 = m.destination) := by
    rintro ⟨hK, hc⟩
    have hK2 : get_b_piece p (sqbb sq) = Piece.King := hpcg.symm.trans hK
    rw [hK2] at hbit
    simp only [b_targets] at hbit
    rw [Nat.testBit_land, Bool.and_eq_true] at hbit
    have hkm := king_mask_no_castle sq hsq64 t ht64 hbit.1
    rw [hfs, hdt] at hc
    exact hkm.2 hc
  have hpro : m.promotion ≠ Piece.Void →
      m.piece = Piece.Pawn ∧ m.promotion ∈ PIECES ∧ m.promotion ≠ Piece.Pawn ∧
      m.destination &&& (RANK 0 ||| RANK 7) ≠ 0 := by
    intro hne
    have h2 := hpro_iff.1 hne
    rcases hpro_mem with hv | hmem
    · exact absurd hv hne
    · refine ⟨h2.1, ?_, ?_, h2.2⟩
      · simp only [PROMOTIONS, List.mem_cons, List.not_mem_nil, or_false] at hmem
        rcases hmem with h | h | h | h <;> rw [h] <;> decide
      · simp only [PROMOTIONS, List.mem_cons, List.not_mem_nil, or_false] at hmem
        rcases hmem with h | h | h | h <;> rw [h] <;> decide
  exact ⟨sq, t, hsq64, ht64, hfs, hdt, hpcP', hsbit, htb, hncr, hncl, hpro, hpse⟩

/-- The en-passant side conditions of the invariant hold for the position a
white move produces. -/
theorem ep_final_w {p : Position} {m : Move} {s t : Nat}
    (hpse : m ∈ w_pseudo_moves p (p.w_all ||| p.b_all))
    (hfs : m.from_sq = 2 ^ s) (hdt : m.destination = 2 ^ t) (ht64 : t < 64)
    (hwa : p.w_all = wOr p) (htw : p.w_all.testBit t = false)
    {Wf : Piece → Nat} {waf baf : Nat}
    (hwaf : ∀ u, waf.testBit u = true → p.w_all.testBit u = true ∨ u = t)
    (hbaf : ∀ u, baf.testBit u = true → p.b_all.testBit u = true)
    (hWd : (m.piece = Piece.Pawn ∧ shl m.from_sq 16 = m.destination) →
      ∀ i ∈ PIECES, i ≠ Piece.Pawn → Wf i = p.w_board i) :
    (if m.piece = Piece.Pawn ∧ shl m.from_sq 16 = m.destination
      then shl m.from_sq 8 else 0) &&& (waf ||| baf) = 0 ∧
    (∀ i ∈ PIECES, i ≠ Piece.Pawn → Wf i &&&
      shl (if m.piece = Piece.Pawn ∧ shl m.from_sq 16 = m.destination
        then shl m.from_sq 8 else 0) 8 = 0) := by
  by_cases hdbl : m.piece = Piece.Pawn ∧ shl m.from_sq 16 = m.destination
  · obtain ⟨sq, h8, h15, hfs2, hdt2, hcross_free, hdest_free⟩ :=
      w_pawn_double_structure hpse hdbl.1 hdbl.2.symm
    have hssq : s = sq := two_pow_inj (hfs.symm.trans hfs2)
    subst hssq
    have htis : t = s + 16 := two_pow_inj (hdt.symm.trans hdt2)
    have hep8 : shl m.from_sq 8 = 2 ^ (s + 8) := by
      rw [hfs]
      exact shl_two_pow_lt (by omega)
    rw [if_pos hdbl]
    constructor
    · rw [hep8, land_eq_zero_iff]
      intro u hu
      rw [Nat.testBit_two_pow] at hu
      simp only [decide_eq_true_eq] at hu
      subst hu
      rw [Nat.testBit_lor, Bool.or_eq_false_iff]
      rw [Nat.testBit_lor, Bool.or_eq_false_iff] at hcross_free
      constructor
      · cases hv : waf.testBit (s + 8)
        · rfl
        · rcases hwaf _ hv with hw2 | he
          · rw [hcross_free.1] at hw2
            exact absurd hw2 (by simp)
          · omega
      · cases hv : baf.testBit (s + 8)
        · rfl
        · have h2 := hbaf _ hv
          rw [hcross_free.2] at h2
          exact absurd h2 (by simp)
    · intro i hi hiP
      rw [hWd hdbl i hi hiP, hep8, shl_two_pow_lt (by omega),
        show s + 8 + 8 = s + 16 by omega, ← htis, land_two_pow_zero_iff]
      cases hv : (p.w_board i).testBit t
      · rfl
      · have h2 : p.w_all.testBit t = true := by
          rw [hwa, wOr_eq_boardOr]
          exact testBit_boardOr hi hv
        rw [htw] at h2
        exact absurd h2 (by simp)
  · rw [if_neg hdbl]
    refine ⟨Nat.zero_and _, ?_⟩
    intro i hi hiP
    have hsh : shl 0 8 = 0 := by decide
    rw [hsh, Nat.and_zero]

/-- The en-passant side conditions of the invariant hold for the position a
black move produces. -/
theorem ep_final_b {p : Position} {m : Move} {s t : Nat}
    (hpse : m ∈ b_pseudo_moves p (p.w_all ||| p.b_all))
    (hfs : m.from_sq = 2 ^ s) (hdt : m.destination = 2 ^ t) (ht64 : t < 64)
    (hba : p.b_all = bOr p) (htb : p.b_all.testBit t = false)
    {Bf : Piece → Nat} {waf baf : Nat}
    (hbaf : ∀ u, baf.testBit u = true → p.b_all.testBit u = true ∨ u = t)
    (hwaf : ∀ u, waf.testBit u = true → p.w_all.testBit u = true)
    (hBd : (m.piece = Piece.Pawn ∧ m.from_sq >>> 16 = m.destination) →
      ∀ i ∈ PIECES, i ≠ Piece.Pawn → Bf i = p.b_board i) :
    (if m.piece = Piece.Pawn ∧ m.from_sq >>> 16 = m.destination
      then m.from_sq >>> 8 else 0) &&& (waf ||| baf) = 0 ∧
    (∀ i ∈ PIECES, i ≠ Piece.Pawn → Bf i &&&
      (if m.piece = Piece.Pawn ∧ m.from_sq >>> 16 = m.destination
        then m.from_sq >>> 8 else 0) >>> 8 = 0) := by
  by_cases hdbl : m.piece = Piece.Pawn ∧ m.from_sq >>> 16 = m.destination
  · obtain ⟨sq, h48, h55, hfs2, hdt2, hcross_free, hdest_free⟩ :=
      b_pawn_double_structure hpse hdbl.1 hdbl.2.symm
    have hssq : s = sq := two_pow_inj (hfs.symm.trans hfs2)
    subst hssq
    have htis : t = s - 16 := two_pow_inj (hdt.symm.trans hdt2)
    have hep8 : m.from_sq >>> 8 = 2 ^ (s - 8) := by
      rw [hfs]
      exact shr_two_pow_le (by omega)
    rw [if_pos hdbl]
    constructor
    · rw [hep8, land_eq_zero_iff]
      intro u hu
      rw [Nat.testBit_two_pow] at hu
      simp only [decide_eq_true_eq] at hu
      subst hu
      rw [Nat.testBit_lor, Bool.or_eq_false_iff]
      rw [Nat.testBit_lor, Bool.or_eq_false_iff] at hcross_free
      constructor
      · cases hv : waf.testBit (s - 8)
        · rfl
        · have h2 := hwaf _ hv
          rw [hcross_free.1] at h2
          exact absurd h2 (by simp)
      · cases hv : baf.testBit (s - 8)
        · rfl
        · rcases hbaf _ hv with hb2 | he
          · rw [hcross_free.2] at hb2
            exact absurd hb2 (by simp)
          · omega
    · intro i hi hiP
      rw [hBd hdbl i hi hiP, hep8, shr_two_pow_le (by omega),
        show s - 8 - 8 = s - 16 by omega, ← htis, land_two_pow_zero_iff]
      cases hv : (p.b_board i).testBit t
      · rfl
      · have h2 : p.b_all.testBit t = true := by
          rw [hba, bOr_eq_boardOr]
          exact testBit_boardOr hi hv
        rw [htb] at h2
        exact absurd h2 (by simp)
  · rw [if_neg hdbl]
    refine ⟨Nat.zero_and _, ?_⟩
    intro i hi hiP
    have hsh : (0:Nat) >>> 8 = 0 := by decide
    rw [hsh, Nat.and_zero]

/-- Assembling the invariant of the position a white move produces from the
final values of the six core fields. -/
theorem assemble_full_inv_w {p : Position} {m : Move}
    {Wf Bf : Piece → Nat} {waf baf ef : Nat}
    (hW : (make_w_move p m).w_board = Wf) (hB : (make_w_move p m).b_board = Bf)
    (hWa : (make_w_move p m).w_all = waf) (hBa : (make_w_move p m).b_all = baf)
    (hE : (make_w_move p m).en_passent_target_square = ef)
    (hT : (make_w_move p m).w_turn = false)
    (h1 : PairDisj Wf) (h2 : PairDisj Bf) (h3 : CrossDisj Wf Bf)
    (h4 : waf = boardOr Wf) (h5 : baf = boardOr Bf)
    (h6 : ∀ i ∈ PIECES, Wf i < U) (h7 : ∀ i ∈ PIECES, Bf i < U) (h8 : ef < U)
    (h9 : ef &&& (waf ||| baf) = 0)
    (h10 : ∀ i ∈ PIECES, i ≠ Piece.Pawn → Wf i &&& shl ef 8 = 0) :
    FullInv (make_w_move p m) := by
  refine ⟨⟨⟨?_, ?_, ?_⟩, ?_, ?_⟩, ⟨?_, ?_, ?_⟩, ⟨?_, ?_, ?_⟩, make_w_move_cache p m⟩
  · rw [hW]; exact h1
  · rw [hB]; exact h2
  · rw [hW, hB]; exact h3
  · rw [hWa, wOr_eq_boardOr, hW]; exact h4
  · rw [hBa, bOr_eq_boardOr, hB]; exact h5
  · rw [hW]; exact h6
  · rw [hB]; exact h7
  · rw [hE]; exact h8
  · rw [hE, hWa, hBa]; exact h9
  · rw [hT]
    intro hc
    exact absurd hc (by simp)
  · rw [hW, hE]
    intro _
    exact h10

/-- Assembling the invariant of the position a black move produces. -/
theorem assemble_full_inv_b {p : Position} {m : Move}
    {Wf Bf : Piece → Nat} {waf baf ef : Nat}
    (hW : (make_b_move p m).w_board = Wf) (hB : (make_b_move p m).b_board = Bf)
    (hWa : (make_b_move p m).w_all = waf) (hBa : (make_b_move p m).b_all = baf)
    (hE : (make_b_move p m).en_passent_target_square = ef)
    (hT : (make_b_move p m).w_turn = true)
    (h1 : PairDisj Wf) (h2 : PairDisj Bf) (h3 : CrossDisj Wf Bf)
    (h4 : waf = boardOr Wf) (h5 : baf = boardOr Bf)
    (h6 : ∀ i ∈ PIECES, Wf i < U) (h7 : ∀ i ∈ PIECES, Bf i < U) (h8 : ef < U)
    (h9 : ef &&& (waf ||| baf) = 0)
    (h10 : ∀ i ∈ PIECES, i ≠ Piece.Pawn → Bf i &&& ef >>> 8 = 0) :
    FullInv (make_b_move p m) := by
  refine ⟨⟨⟨?_, ?_, ?_⟩, ?_, ?_⟩, ⟨?_, ?_, ?_⟩, ⟨?_, ?_, ?_⟩, make_b_move_cache p m⟩
  · rw [hW]; exact h1
  · rw [hB]; exact h2
  · rw [hW, hB]; exact h3
  · rw [hWa, wOr_eq_boardOr, hW]; exact h4
  · rw [hBa, bOr_eq_boardOr, hB]; exact h5
  · rw [hW]; exact h6
  · rw [hB]; exact h7
  · rw [hE]; exact h8
  · rw [hE, hWa, hBa]; exact h9
  · rw [hB, hE]
    intro _
    exact h10
  · rw [hT]
    intro hc
    exact absurd hc (by simp)

theorem updBoard_bounds {f : Piece → Nat} {pc : Piece} {v : Nat}
    (hf : ∀ i ∈ PIECES, f i < U) (hv : v < U) :
    ∀ i ∈ PIECES, (updBoard f pc v) i < U := by
  intro i hi
  show (if i = pc then v else f i) < U
  by_cases hip : i = pc
  · rw [if_pos hip]
    exact hv
  · rw [if_neg hip]
    exact hf i hi

/-- Applying a cached move with white to move preserves the full invariant. -/
theorem make_w_move_inv {p : Position} {m : Move} (hInv : FullInv p)
    (htn : p.w_turn = true) (hm : m ∈ p.legal_moves) : FullInv (make_w_move p m) := by
  obtain ⟨s, t, hs64, ht64, hfs, hdt, hpcP, hsbit, htw, hncr, hncl, hpro, hpse⟩ :=
    w_cached_move_facts hInv htn hm
  obtain ⟨⟨⟨hww, hbb, hwb⟩, hwa, hba⟩, ⟨hbw, hbbd, hepbd⟩, ⟨hep1, hep2, hep3⟩, hcache⟩ := hInv
  have hsU : (2:Nat) ^ s < U := Nat.pow_lt_pow_right (by norm_num) hs64
  have htU : (2:Nat) ^ t < U := Nat.pow_lt_pow_right (by norm_num) ht64
  have htwOr : (boardOr p.w_board).testBit t = false := by
    rw [← wOr_eq_boardOr, ← hwa]
    exact htw
  obtain ⟨hPD1, hAgg1, hSub1, hT1⟩ :=
    family_move (show PairDisj p.w_board from hww) hpcP hsbit htwOr
  have hwallS : p.w_all.testBit s = true := by
    rw [hwa, wOr_eq_boardOr]
    exact testBit_boardOr hpcP hsbit
  have hwafsub : ∀ u, (p.w_all ^^^ (2 ^ s ||| 2 ^ t)).testBit u = true →
      p.w_all.testBit u = true ∨ u = t := by
    intro u hu
    by_cases h2 : u = t
    · exact Or.inr h2
    · left
      rw [Nat.testBit_xor, Nat.testBit_lor, Nat.testBit_two_pow,
        Nat.testBit_two_pow] at hu
      by_cases h1 : u = s
      · subst h1
        exact hwallS
      · have h1' : ¬s = u := fun he => h1 he.symm
        have h2' : ¬t = u := fun he => h2 he.symm
        simpa [h1', h2'] using hu
  have hAggWa : p.w_all ^^^ (2 ^ s ||| 2 ^ t) =
      boardOr (updBoard p.w_board m.piece (p.w_board m.piece ^^^ (2 ^ s ||| 2 ^ t))) := by
    rw [hAgg1, hwa, wOr_eq_boardOr]
  have hW1b : ∀ i ∈ PIECES,
      (updBoard p.w_board m.piece (p.w_board m.piece ^^^ (2 ^ s ||| 2 ^ t))) i < U :=
    updBoard_bounds hbw (xor_lt_U (hbw m.piece hpcP) (lor_lt_U hsU htU))
  have hBsubAll : ∀ j ∈ PIECES, ∀ u, (p.b_board j).testBit u = true →
      p.b_all.testBit u = true := by
    intro j hj u hu
    rw [hba, bOr_eq_boardOr]
    exact testBit_boardOr hj hu
  have hWsubAll : ∀ j ∈ PIECES, ∀ u, (p.w_board j).testBit u = true →
      p.w_all.testBit u = true := by
    intro j hj u hu
    rw [hwa, wOr_eq_boardOr]
    exact testBit_boardOr hj hu
  have hWnoT : ∀ j ∈ PIECES, (p.w_board j).testBit t = false := by
    intro j hj
    cases hv : (p.w_board j).testBit t
    · rfl
    · exact absurd (hWsubAll j hj t hv) (by simp [htw])
  have hefU : (if m.piece = Piece.Pawn ∧ shl m.from_sq 16 = m.destination
      then shl m.from_sq 8 else 0) < U := by
    by_cases hdbl : m.piece = Piece.Pawn ∧ shl m.from_sq 16 = m.destination
    · rw [if_pos hdbl]
      exact shl_lt_U _ _
    · rw [if_neg hdbl]
      exact U_pos
  have hWd1 : (m.piece = Piece.Pawn ∧ shl m.from_sq 16 = m.destination) →
      ∀ i ∈ PIECES, i ≠ Piece.Pawn →
      (updBoard p.w_board m.piece (p.w_board m.piece ^^^ (2 ^ s ||| 2 ^ t))) i =
        p.w_board i :=
    fun hdbl i hi hiP => if_neg (fun (hip : i = m.piece) => hiP (hip.trans hdbl.1))
  by_cases hcap0 : p.b_all &&& m.destination = 0
  · -- no ordinary capture
    have hbaT : p.b_all.testBit t = false := by
      rw [hdt, land_two_pow_zero_iff] at hcap0
      exact hcap0
    have hBnoT : ∀ j ∈ PIECES, (p.b_board j).testBit t = false := by
      intro j hj
      cases hv : (p.b_board j).testBit t
      · rfl
      · exact absurd (hBsubAll j hj t hv) (by simp [hbaT])
    by_cases hprv : m.promotion = Piece.Void
    · by_cases hepc : m.piece = Piece.Pawn ∧ m.destination = p.en_passent_target_square
      · -- en-passant removal, no capture, no promotion
        have hfields :
            (make_w_move p m).w_board =
              updBoard p.w_board m.piece
                (p.w_board m.piece ^^^ (m.from_sq ||| m.destination)) ∧
            (make_w_move p m).w_all = p.w_all ^^^ (m.from_sq ||| m.destination) ∧
            (make_w_move p m).b_board =
              updBoard p.b_board Piece.Pawn
                (p.b_board Piece.Pawn &&& not64 (m.destination >>> 8)) ∧
            (make_w_move p m).b_all = p.b_all &&& not64 (m.destination >>> 8) ∧
            (make_w_move p m).en_passent_target_square =
              (if m.piece = Piece.Pawn ∧ shl m.from_sq 16 = m.destination
               then shl m.from_sq 8 else 0) ∧
            (make_w_move p m).w_turn = false := by
          unfold make_w_move
          dsimp only
          rw [if_neg (show ¬(p.b_all &&& m.destination ≠ 0) from fun hc => hc hcap0)]
          dsimp only
          rw [if_neg (show ¬m.promotion ≠ Piece.Void from fun h => h hprv),
            if_neg hncr, if_neg hncl, if_pos hepc]
          dsimp only
          exact ⟨rfl, rfl, rfl, rfl, rfl, rfl⟩
        obtain ⟨hW, hWa2, hB, hBa2, hE, hT⟩ := hfields
        rw [hfs, hdt] at hW hWa2
        rw [hdt] at hB hBa2
        have hothersB : ∀ j ∈ PIECES, j ≠ Piece.Pawn →
            p.b_board j &&& (2:Nat) ^ t >>> 8 = 0 := by
          intro j hj hjP
          have h2 := hep2 htn j hj hjP
          rw [← hdt, hepc.2]
          exact h2
        obtain ⟨hAggB, hSubB, hDeadB⟩ :=
          slot_clear (show Piece.Pawn ∈ PIECES by decide) hbbd
            (lt_of_le_of_lt (shr_le _ _) htU) hothersB
        have hgt : ∀ j ∈ PIECES,
            ((updBoard p.b_board Piece.Pawn
              (p.b_board Piece.Pawn &&& not64 ((2:Nat) ^ t >>> 8))) j).testBit t = false := by
          intro j hj
          cases hv : ((updBoard p.b_board Piece.Pawn
              (p.b_board Piece.Pawn &&& not64 ((2:Nat) ^ t >>> 8))) j).testBit t
          · rfl
          · exact absurd (hSubB j hj t hv) (by simp [hBnoT j hj])
        have hbaf2 : ∀ u,
            (p.b_all &&& not64 ((2:Nat) ^ t >>> 8)).testBit u = true →
            p.b_all.testBit u = true := by
          intro u hu
          rw [Nat.testBit_land, Bool.and_eq_true] at hu
          exact hu.1
        have hepf := ep_final_w hpse hfs hdt ht64 hwa htw hwafsub hbaf2 hWd1
        exact assemble_full_inv_w hW hB hWa2 hBa2 hE hT hPD1
          (pair_disj_sub (show PairDisj p.b_board from hbb) hSubB)
          (cross_disj_step (show CrossDisj p.w_board p.b_board from hwb) hSub1 hSubB hgt)
          hAggWa
          (by rw [hba, bOr_eq_boardOr]; exact hAggB.symm)
          hW1b
          (updBoard_bounds hbbd (land_lt_U_left (hbbd Piece.Pawn (by decide))))
          hefU hepf.1 hepf.2
      · -- quiet move
        have hfields :
            (make_w_move p m).w_board =
              updBoard p.w_board m.piece
                (p.w_board m.piece ^^^ (m.from_sq ||| m.destination)) ∧
            (make_w_move p m).w_all = p.w_all ^^^ (m.from_sq ||| m.destination) ∧
            (make_w_move p m).b_board = p.b_board ∧
            (make_w_move p m).b_all = p.b_all ∧
            (make_w_move p m).en_passent_target_square =
              (if m.piece = Piece.Pawn ∧ shl m.from_sq 16 = m.destination
               then shl m.from_sq 8 else 0) ∧
            (make_w_move p m).w_turn = false := by
          unfold make_w_move
          dsimp only
          rw [if_neg (show ¬(p.b_all &&& m.destination ≠ 0) from fun hc => hc hcap0)]
          dsimp only
          rw [if_neg (show ¬m.promotion ≠ Piece.Void from fun h => h hprv),
            if_neg hncr, if_neg hncl, if_neg hepc]
          dsimp only
          exact ⟨rfl, rfl, rfl, rfl, rfl, rfl⟩
        obtain ⟨hW, hWa2, hB, hBa2, hE, hT⟩ := hfields
        rw [hfs, hdt] at hW hWa2
        have hbaf2 : ∀ u, p.b_all.testBit u = true → p.b_all.testBit u = true :=
          fun u hu => hu
        have hepf := ep_final_w hpse hfs hdt ht64 hwa htw hwafsub hbaf2 hWd1
        exact assemble_full_inv_w hW hB hWa2 hBa2 hE hT hPD1
          (show PairDisj p.b_board from hbb)
          (cross_disj_step (show CrossDisj p.w_board p.b_board from hwb) hSub1
            (fun j hj u hu => hu) hBnoT)
          hAggWa
          (by rw [hba, bOr_eq_boardOr])
          hW1b hbbd hefU hepf.1 hepf.2
    · -- promotion, no capture
      obtain ⟨hpcPawn, hprP, hprNePawn, hbackrank⟩ := hpro hprv
      have hnd : ¬(m.piece = Piece.Pawn ∧ shl m.from_sq 16 = m.destination) := by
        rintro ⟨_, hdd⟩
        obtain ⟨sq2, h8, h15, hfs2, hdt2, _, _⟩ :=
          w_pawn_double_structure hpse hpcPawn hdd.symm
        have hts : t = sq2 + 16 := two_pow_inj (hdt.symm.trans hdt2)
        have h3 := w_double_dest_not_backrank sq2 h8 h15
        rw [← hts, ← hdt] at h3
        exact hbackrank h3
      have hfields :
          (make_w_move p m).w_board =
            updBoard
              (updBoard
                (updBoard p.w_board m.piece
                  (p.w_board m.piece ^^^ (m.from_sq ||| m.destination)))
                m.piece
                ((updBoard p.w_board m.piece
                  (p.w_board m.piece ^^^ (m.from_sq ||| m.destination))) m.piece &&&
                  not64 m.destination))
              m.promotion
              ((updBoard
                (updBoard p.w_board m.piece
                  (p.w_board m.piece ^^^ (m.from_sq ||| m.destination)))
                m.piece
                ((updBoard p.w_board m.piece
                  (p.w_board m.piece ^^^ (m.from_sq ||| m.destination))) m.piece &&&
                  not64 m.destination)) m.promotion ||| m.destination) ∧
          (make_w_move p m).w_all = p.w_all ^^^ (m.from_sq ||| m.destination) ∧
          (make_w_move p m).b_board = p.b_board ∧
          (make_w_move p m).b_all = p.b_all ∧
          (make_w_move p m).en_passent_target_square =
            (if m.piece = Piece.Pawn ∧ shl m.from_sq 16 = m.destination
             then shl m.from_sq 8 else 0) ∧
          (make_w_move p m).w_turn = false := by
        unfold make_w_move
        dsimp only
        rw [if_neg (show ¬(p.b_all &&& m.destination ≠ 0) from fun hc => hc hcap0)]
        dsimp only
        rw [if_pos (show m.promotion ≠ Piece.Void from hprv)]
        dsimp only
        exact ⟨rfl, rfl, rfl, rfl, rfl, rfl⟩
      obtain ⟨hW, hWa2, hB, hBa2, hE, hT⟩ := hfields
      rw [hfs, hdt] at hW hWa2
      have hothersW : ∀ j ∈ PIECES, j ≠ m.piece →
          (updBoard p.w_board m.piece
            (p.w_board m.piece ^^^ (2 ^ s ||| 2 ^ t))) j &&& (2:Nat) ^ t = 0 := by
        intro j hj hjp
        show (if j = m.piece then _ else p.w_board j) &&& (2:Nat) ^ t = 0
        rw [if_neg hjp, land_two_pow_zero_iff]
        exact hWnoT j hj
      obtain ⟨hAggW1c, hSubW1c, hDeadW1c⟩ := slot_clear hpcP hW1b htU hothersW
      have hnone3 : ∀ j ∈ PIECES,
          ((updBoard
            (updBoard p.w_board m.piece (p.w_board m.piece ^^^ (2 ^ s ||| 2 ^ t)))
            m.piece
            ((updBoard p.w_board m.piece
              (p.w_board m.piece ^^^ (2 ^ s ||| 2 ^ t))) m.piece &&&
              not64 (2 ^ t))) j).testBit t = false :=
        hDeadW1c t (by simp [Nat.testBit_two_pow])
      obtain ⟨hPD3, hAgg3, hSub3⟩ :=
        slot_add hprP (pair_disj_sub hPD1 hSubW1c) hnone3
      have hBorW1U : boardOr (updBoard p.w_board m.piece
          (p.w_board m.piece ^^^ (2 ^ s ||| 2 ^ t))) < U := boardOr_lt_U hW1b
      have hBorW1t : (boardOr (updBoard p.w_board m.piece
          (p.w_board m.piece ^^^ (2 ^ s ||| 2 ^ t)))).testBit t = true :=
        testBit_boardOr hpcP hT1
      have hSubFinal : ∀ i ∈ PIECES, ∀ u,
          ((updBoard
            (updBoard
              (updBoard p.w_board m.piece (p.w_board m.piece ^^^ (2 ^ s ||| 2 ^ t)))
              m.piece
              ((updBoard p.w_board m.piece
                (p.w_board m.piece ^^^ (2 ^ s ||| 2 ^ t))) m.piece &&&
                not64 (2 ^ t)))
            m.promotion
            ((updBoard
              (updBoard p.w_board m.piece (p.w_board m.piece ^^^ (2 ^ s ||| 2 ^ t)))
              m.piece
              ((updBoard p.w_board m.piece
                (p.w_board m.piece ^^^ (2 ^ s ||| 2 ^ t))) m.piece &&&
                not64 (2 ^ t))) m.promotion ||| 2 ^ t)) i).testBit u = true →
          (p.w_board i).testBit u = true ∨ u = t := by
        intro i hi u hu
        rcases hSub3 i hi u hu with h2 | h2
        · exact hSub1 i hi u (hSubW1c i hi u h2)
        · exact Or.inr h2
      refine assemble_full_inv_w hW hB hWa2 hBa2 hE hT hPD3
        (show PairDisj p.b_board from hbb)
        (cross_disj_step (show CrossDisj p.w_board p.b_board from hwb) hSubFinal
          (fun j hj u hu => hu) hBnoT)
        ?_
        (by rw [hba, bOr_eq_boardOr])
        ?_ hbbd hefU ?_ ?_
      · rw [hAgg3, hAggW1c, clear_set_bit hBorW1U hBorW1t ht64]
        exact hAggWa
      · exact updBoard_bounds
          (updBoard_bounds hW1b (land_lt_U_left (hW1b m.piece hpcP)))
          (lor_lt_U ((updBoard_bounds hW1b
            (land_lt_U_left (hW1b m.piece hpcP))) m.promotion hprP) htU)
      · rw [if_neg hnd]
        exact Nat.zero_and _
      · intro i hi hiP
        rw [if_neg hnd, show shl 0 8 = 0 from by decide, Nat.and_zero]
  · -- ordinary capture
    have hnep : ¬(m.piece = Piece.Pawn ∧ m.destination = p.en_passent_target_square) := by
      rintro ⟨_, hde⟩
      have hbat : p.b_all.testBit t = true := by
        cases hv : p.b_all.testBit t
        · exact absurd (by rw [hdt, land_two_pow_zero_iff]; exact hv) hcap0
        · rfl
      have hepbt : p.en_passent_target_square.testBit t = true := by
        rw [← hde, hdt]
        simp [Nat.testBit_two_pow]
      have h3 := land_eq_zero_iff.1 hep1 t hepbt
      rw [Nat.testBit_lor, Bool.or_eq_false_iff] at h3
      rw [h3.2] at hbat
      exact absurd hbat (by simp)
    obtain ⟨hCharB, hAggBc⟩ := family_clear m.destination hbbd
    have hSubBc : ∀ j ∈ PIECES, ∀ u,
        ((clearPieces p.b_board (not64 m.destination)) j).testBit u = true →
        (p.b_board j).testBit u = true := by
      intro j hj u hu
      rw [hCharB j hj u, Bool.and_eq_true] at hu
      exact hu.1
    have hgtBc : ∀ j ∈ PIECES,
        ((clearPieces p.b_board (not64 m.destination)) j).testBit t = false := by
      intro j hj
      rw [hCharB j hj t, hdt]
      simp [Nat.testBit_two_pow]
    have hBcb : ∀ i ∈ PIECES, (clearPieces p.b_board (not64 m.destination)) i < U := by
      intro i hi
      have hiv : i ≠ Piece.Void := by
        simp only [PIECES, List.mem_cons, List.not_mem_nil, or_false] at hi
        rcases hi with rfl | rfl | rfl | rfl | rfl | rfl <;> decide
      show (if i = Piece.Void then p.b_board i else p.b_board i &&& not64 m.destination) < U
      rw [if_neg hiv]
      exact land_lt_U_left (hbbd i hi)
    have hbaf2 : ∀ u, (p.b_all &&& not64 m.destination).testBit u = true →
        p.b_all.testBit u = true := by
      intro u hu
      rw [Nat.testBit_land, Bool.and_eq_true] at hu
      exact hu.1
    by_cases hprv : m.promotion = Piece.Void
    · -- capture, no promotion
      have hfields :
          (make_w_move p m).w_board =
            updBoard p.w_board m.piece
              (p.w_board m.piece ^^^ (m.from_sq ||| m.destination)) ∧
          (make_w_move p m).w_all = p.w_all ^^^ (m.from_sq ||| m.destination) ∧
          (make_w_move p m).b_board = clearPieces p.b_board (not64 m.destination) ∧
          (make_w_move p m).b_all = p.b_all &&& not64 m.destination ∧
          (make_w_move p m).en_passent_target_square =
            (if m.piece = Piece.Pawn ∧ shl m.from_sq 16 = m.destination
             then shl m.from_sq 8 else 0) ∧
          (make_w_move p m).w_turn = false := by
        unfold make_w_move
        dsimp only
        rw [if_pos (show p.b_all &&& m.destination ≠ 0 from hcap0)]
        dsimp only
        rw [if_neg (show ¬m.promotion ≠ Piece.Void from fun h => h hprv),
          if_neg hncr, if_neg hncl, if_neg hnep]
        dsimp only
        exact ⟨rfl, rfl, rfl, rfl, rfl, rfl⟩
      obtain ⟨hW, hWa2, hB, hBa2, hE, hT⟩ := hfields
      rw [hfs, hdt] at hW hWa2
      have hepf := ep_final_w hpse hfs hdt ht64 hwa htw hwafsub hbaf2 hWd1
      exact assemble_full_inv_w hW hB hWa2 hBa2 hE hT hPD1
        (pair_disj_sub (show PairDisj p.b_board from hbb) hSubBc)
        (cross_disj_step (show CrossDisj p.w_board p.b_board from hwb) hSub1
          hSubBc hgtBc)
        hAggWa
        (by rw [hba, bOr_eq_boardOr]; exact hAggBc.symm)
        hW1b hBcb hefU hepf.1 hepf.2
    · -- capture with promotion
      obtain ⟨hpcPawn, hprP, hprNePawn, hbackrank⟩ := hpro hprv
      have hnd : ¬(m.piece = Piece.Pawn ∧ shl m.from_sq 16 = m.destination) := by
        rintro ⟨_, hdd⟩
        obtain ⟨sq2, h8, h15, hfs2, hdt2, _, _⟩ :=
          w_pawn_double_structure hpse hpcPawn hdd.symm
        have hts : t = sq2 + 16 := two_pow_inj (hdt.symm.trans hdt2)
        have h3 := w_double_dest_not_backrank sq2 h8 h15
        rw [← hts, ← hdt] at h3
        exact hbackrank h3
      have hfields :
          (make_w_move p m).w_board =
            updBoard
              (updBoard
                (updBoard p.w_board m.piece
                  (p.w_board m.piece ^^^ (m.from_sq ||| m.destination)))
                m.piece
                ((updBoard p.w_board m.piece
                  (p.w_board m.piece ^^^ (m.from_sq ||| m.destination))) m.piece &&&
                  not64 m.destination))
              m.promotion
              ((updBoard
                (updBoard p.w_board m.piece
                  (p.w_board m.piece ^^^ (m.from_sq ||| m.destination)))
                m.piece
                ((updBoard p.w_board m.piece
                  (p.w_board m.piece ^^^ (m.from_sq ||| m.destination))) m.piece &&&
                  not64 m.destination)) m.promotion ||| m.destination) ∧
          (make_w_move p m).w_all = p.w_all ^^^ (m.from_sq ||| m.destination) ∧
          (make_w_move p m).b_board = clearPieces p.b_board (not64 m.destination) ∧
          (make_w_move p m).b_all = p.b_all &&& not64 m.destination ∧
          (make_w_move p m).en_passent_target_square =
            (if m.piece = Piece.Pawn ∧ shl m.from_sq 16 = m.destination
             then shl m.from_sq 8 else 0) ∧
          (make_w_move p m).w_turn = false := by
        unfold make_w_move
        dsimp only
        rw [if_pos (show p.b_all &&& m.destination ≠ 0 from hcap0)]
        dsimp only
        rw [if_pos (show m.promotion ≠ Piece.Void from hprv)]
        dsimp only
        exact ⟨rfl, rfl, rfl, rfl, rfl, rfl⟩
      obtain ⟨hW, hWa2, hB, hBa2, hE, hT⟩ := hfields
      rw [hfs, hdt] at hW hWa2
      have hothersW : ∀ j ∈ PIECES, j ≠ m.piece →
          (updBoard p.w_board m.piece
            (p.w_board m.piece ^^^ (2 ^ s ||| 2 ^ t))) j &&& (2:Nat) ^ t = 0 := by
        intro j hj hjp
        show (if j = m.piece then _ else p.w_board j) &&& (2:Nat) ^ t = 0
        rw [if_neg hjp, land_two_pow_zero_iff]
        exact hWnoT j hj
      obtain ⟨hAggW1c, hSubW1c, hDeadW1c⟩ := slot_clear hpcP hW1b htU hothersW
      have hnone3 : ∀ j ∈ PIECES,
          ((updBoard
            (updBoard p.w_board m.piece (p.w_board m.piece ^^^ (2 ^ s ||| 2 ^ t)))
            m.piece
            ((updBoard p.w_board m.piece
              (p.w_board m.piece ^^^ (2 ^ s ||| 2 ^ t))) m.piece &&&
              not64 (2 ^ t))) j).testBit t = false :=
        hDeadW1c t (by simp [Nat.testBit_two_pow])
      obtain ⟨hPD3, hAgg3, hSub3⟩ :=
        slot_add hprP (pair_disj_sub hPD1 hSubW1c) hnone3
      have hBorW1U : boardOr (updBoard p.w_board m.piece
          (p.w_board m.piece ^^^ (2 ^ s ||| 2 ^ t))) < U := boardOr_lt_U hW1b
      have hBorW1t : (boardOr (updBoard p.w_board m.piece
          (p.w_board m.piece ^^^ (2 ^ s ||| 2 ^ t)))).testBit t = true :=
        testBit_boardOr hpcP hT1
      have hSubFinal : ∀ i ∈ PIECES, ∀ u,
          ((updBoard
            (updBoard
              (updBoard p.w_board m.piece (p.w_board m.piece ^^^ (2 ^ s ||| 2 ^ t)))
              m.piece
              ((updBoard p.w_board m.piece
                (p.w_board m.piece ^^^ (2 ^ s ||| 2 ^ t))) m.piece &&&
                not64 (2 ^ t)))
            m.promotion
            ((updBoard
              (updBoard p.w_board m.piece (p.w_board m.piece ^^^ (2 ^ s ||| 2 ^ t)))
              m.piece
              ((updBoard p.w_board m.piece
                (p.w_board m.piece ^^^ (2 ^ s ||| 2 ^ t))) m.piece &&&
                not64 (2 ^ t))) m.promotion ||| 2 ^ t)) i).testBit u = true →
          (p.w_board i).testBit u = true ∨ u = t := by
        intro i hi u hu
        rcases hSub3 i hi u hu with h2 | h2
        · exact hSub1 i hi u (hSubW1c i hi u h2)
        · exact Or.inr h2
      refine assemble_full_inv_w hW hB hWa2 hBa2 hE hT hPD3
        (pair_disj_sub (show PairDisj p.b_board from hbb) hSubBc)
        (cross_disj_step (show CrossDisj p.w_board p.b_board from hwb) hSubFinal
          hSubBc hgtBc)
        ?_
        (by rw [hba, bOr_eq_boardOr]; exact hAggBc.symm)
        ?_ hBcb hefU ?_ ?_
      · rw [hAgg3, hAggW1c, clear_set_bit hBorW1U hBorW1t ht64]
        exact hAggWa
      · exact updBoard_bounds
          (updBoard_bounds hW1b (land_lt_U_left (hW1b m.piece hpcP)))
          (lor_lt_U ((updBoard_bounds hW1b
            (land_lt_U_left (hW1b m.piece hpcP))) m.promotion hprP) htU)
      · rw [if_neg hnd]
        exact Nat.zero_and _
      · intro i hi hiP
        rw [if_neg hnd, show shl 0 8 = 0 from by decide, Nat.and_zero]

/-- Mirror of `cross_disj_step` for a black move: the white family shrinks and
ends without the destination bit, the black family gains at most the
destination bit. -/
theorem cross_disj_step_b {f g f2 g2 : Piece → Nat} {t : Nat} (hcross : CrossDisj f g)
    (hfsub : ∀ i ∈ PIECES, ∀ u, (f2 i).testBit u = true → (f i).testBit u = true)
    (hgsub : ∀ j ∈ PIECES, ∀ u, (g2 j).testBit u = true →
      (g j).testBit u = true ∨ u = t)
    (hft : ∀ i ∈ PIECES, (f2 i).testBit t = false) : CrossDisj f2 g2 := by
  intro i hi j hj
  rw [land_eq_zero_iff]
  intro u hu
  cases hx : (g2 j).testBit u
  · rfl
  · exfalso
    rcases hgsub j hj u hx with hgu | rfl
    · exact absurd (land_eq_zero_iff.1 (hcross i hi j hj) u (hfsub i hi u hu))
        (by simp [hgu])
    · rw [hft i hi] at hu
      exact absurd hu (by simp)

/-- Applying a cached move with black to move preserves the full invariant
(the dead castling branches of `make_b_move` are never taken for generated
moves, so the copy-paste slip does not disturb the invariant). -/
theorem make_b_move_inv {p : Position} {m : Move} (hInv : FullInv p)
    (htn : p.w_turn = false) (hm : m ∈ p.legal_moves) : FullInv (make_b_move p m) := by
  obtain ⟨s, t, hs64, ht64, hfs, hdt, hpcP, hsbit, htb, hncr, hncl, hpro, hpse⟩ :=
    b_cached_move_facts hInv htn hm
  obtain ⟨⟨⟨hww, hbb, hwb⟩, hwa, hba⟩, ⟨hbw, hbbd, hepbd⟩, ⟨hep1, hep2, hep3⟩, hcache⟩ := hInv
  have hcrossWB : CrossDisj p.w_board p.b_board := hwb
  have hsU : (2:Nat) ^ s < U := Nat.pow_lt_pow_right (by norm_num) hs64
  have htU : (2:Nat) ^ t < U := Nat.pow_lt_pow_right (by norm_num) ht64
  have htbOr : (boardOr p.b_board).testBit t = false := by
    rw [← bOr_eq_boardOr, ← hba]
    exact htb
  obtain ⟨hPD1, hAgg1, hSub1, hT1⟩ :=
    family_move (show PairDisj p.b_board from hbb) hpcP hsbit htbOr
  have hballS : p.b_all.testBit s = true := by
    rw [hba, bOr_eq_boardOr]
    exact testBit_boardOr hpcP hsbit
  have hbafsub : ∀ u, (p.b_all ^^^ (2 ^ s ||| 2 ^ t)).testBit u = true →
      p.b_all.testBit u = true ∨ u = t := by
    intro u hu
    by_cases h2 : u = t
    · exact Or.inr h2
    · left
      rw [Nat.testBit_xor, Nat.testBit_lor, Nat.testBit_two_pow,
        Nat.testBit_two_pow] at hu
      by_cases h1 : u = s
      · subst h1
        exact hballS
      · have h1' : ¬s = u := fun he => h1 he.symm
        have h2' : ¬t = u := fun he => h2 he.symm
        simpa [h1', h2'] using hu
  have hAggBa : p.b_all ^^^ (2 ^ s ||| 2 ^ t) =
      boardOr (updBoard p.b_board m.piece (p.b_board m.piece ^^^ (2 ^ s ||| 2 ^ t))) := by
    rw [hAgg1, hba, bOr_eq_boardOr]
  have hB1b : ∀ i ∈ PIECES,
      (updBoard p.b_board m.piece (p.b_board m.piece ^^^ (2 ^ s ||| 2 ^ t))) i < U :=
    updBoard_bounds hbbd (xor_lt_U (hbbd m.piece hpcP) (lor_lt_U hsU htU))
  have hWsubAll : ∀ j ∈ PIECES, ∀ u, (p.w_board j).testBit u = true →
      p.w_all.testBit u = true := by
    intro j hj u hu
    rw [hwa, wOr_eq_boardOr]
    exact testBit_boardOr hj hu
  have hBsubAll : ∀ j ∈ PIECES, ∀ u, (p.b_board j).testBit u = true →
      p.b_all.testBit u = true := by
    intro j hj u hu
    rw [hba, bOr_eq_boardOr]
    exact testBit_boardOr hj hu
  have hBnoT : ∀ j ∈ PIECES, (p.b_board j).testBit t = false := by
    intro j hj
    cases hv : (p.b_board j).testBit t
    · rfl
    · exact absurd (hBsubAll j hj t hv) (by simp [htb])
  have hefU : (if m.piece = Piece.Pawn ∧ m.from_sq >>> 16 = m.destination
      then m.from_sq >>> 8 else 0) < U := by
    by_cases hdbl : m.piece = Piece.Pawn ∧ m.from_sq >>> 16 = m.destination
    · rw [if_pos hdbl, hfs]
      exact lt_of_le_of_lt (shr_le _ _) hsU
    · rw [if_neg hdbl]
      exact U_pos
  have hBd1 : (m.piece = Piece.Pawn ∧ m.from_sq >>> 16 = m.destination) →
      ∀ i ∈ PIECES, i ≠ Piece.Pawn →
      (updBoard p.b_board m.piece (p.b_board m.piece ^^^ (2 ^ s ||| 2 ^ t))) i =
        p.b_board i :=
    fun hdbl i hi hiP => if_neg (fun (hip : i = m.piece) => hiP (hip.trans hdbl.1))
  by_cases hcap0 : p.w_all &&& m.destination = 0
  · -- no ordinary capture
    have hwaT : p.w_all.testBit t = false := by
      rw [hdt, land_two_pow_zero_iff] at hcap0
      exact hcap0
    have hWnoT : ∀ j ∈ PIECES, (p.w_board j).testBit t = false := by
      intro j hj
      cases hv : (p.w_board j).testBit t
      · rfl
      · exact absurd (hWsubAll j hj t hv) (by simp [hwaT])
    by_cases hprv : m.promotion = Piece.Void
    · by_cases hepc : m.piece = Piece.Pawn ∧ m.destination = p.en_passent_target_square
      · -- en-passant removal, no capture, no promotion
        have hfields :
            (make_b_move p m).w_board =
              updBoard p.w_board Piece.Pawn
                (p.w_board Piece.Pawn &&& not64 (shl m.destination 8)) ∧
            (make_b_move p m).w_all = p.w_all &&& not64 (shl m.destination 8) ∧
            (make_b_move p m).b_board =
              updBoard p.b_board m.piece
                (p.b_board m.piece ^^^ (m.from_sq ||| m.destination)) ∧
            (make_b_move p m).b_all = p.b_all ^^^ (m.from_sq ||| m.destination) ∧
            (make_b_move p m).en_passent_target_square =
              (if m.piece = Piece.Pawn ∧ m.from_sq >>> 16 = m.destination
               then m.from_sq >>> 8 else 0) ∧
            (make_b_move p m).w_turn = true := by
          unfold make_b_move
          dsimp only
          rw [if_neg (show ¬(p.w_all &&& m.destination ≠ 0) from fun hc => hc hcap0)]
          dsimp only
          rw [if_neg (show ¬m.promotion ≠ Piece.Void from fun h => h hprv),
            if_neg hncr, if_neg hncl, if_pos hepc]
          dsimp only
          exact ⟨rfl, rfl, rfl, rfl, rfl, rfl⟩
        obtain ⟨hW, hWa2, hB, hBa2, hE, hT⟩ := hfields
        rw [hfs, hdt] at hB hBa2
        rw [hdt] at hW hWa2
        have hothersW : ∀ j ∈ PIECES, j ≠ Piece.Pawn →
            p.w_board j &&& shl ((2:Nat) ^ t) 8 = 0 := by
          intro j hj hjP
          have h2 := hep3 htn j hj hjP
          rw [← hdt, hepc.2]
          exact h2
        obtain ⟨hAggW, hSubW, hDeadW⟩ :=
          slot_clear (show Piece.Pawn ∈ PIECES by decide) hbw
            (shl_lt_U _ _) hothersW
        have hgt : ∀ j ∈ PIECES,
            ((updBoard p.w_board Piece.Pawn
              (p.w_board Piece.Pawn &&& not64 (shl ((2:Nat) ^ t) 8))) j).testBit t = false := by
          intro j hj
          cases hv : ((updBoard p.w_board Piece.Pawn
              (p.w_board Piece.Pawn &&& not64 (shl ((2:Nat) ^ t) 8))) j).testBit t
          · rfl
          · exact absurd (hSubW j hj t hv) (by simp [hWnoT j hj])
        have hwaf2 : ∀ u,
            (p.w_all &&& not64 (shl ((2:Nat) ^ t) 8)).testBit u = true →
            p.w_all.testBit u = true := by
          intro u hu
          rw [Nat.testBit_land, Bool.and_eq_true] at hu
          exact hu.1
        have hepf := ep_final_b hpse hfs hdt ht64 hba htb hbafsub hwaf2 hBd1
        exact assemble_full_inv_b hW hB hWa2 hBa2 hE hT
          (pair_disj_sub (show PairDisj p.w_board from hww) hSubW)
          hPD1
          (cross_disj_step_b hcrossWB hSubW hSub1 hgt)
          (by rw [hwa, wOr_eq_boardOr]; exact hAggW.symm)
          hAggBa
          (updBoard_bounds hbw (land_lt_U_left (hbw Piece.Pawn (by decide))))
          hB1b hefU hepf.1 hepf.2
      · -- quiet move
        have hfields :
            (make_b_move p m).w_board = p.w_board ∧
            (make_b_move p m).w_all = p.w_all ∧
            (make_b_move p m).b_board =
              updBoard p.b_board m.piece
                (p.b_board m.piece ^^^ (m.from_sq ||| m.destination)) ∧
            (make_b_move p m).b_all = p.b_all ^^^ (m.from_sq ||| m.destination) ∧
            (make_b_move p m).en_passent_target_square =
              (if m.piece = Piece.Pawn ∧ m.from_sq >>> 16 = m.destination
               then m.from_sq >>> 8 else 0) ∧
            (make_b_move p m).w_turn = true := by
          unfold make_b_move
          dsimp only
          rw [if_neg (show ¬(p.w_all &&& m.destination ≠ 0) from fun hc => hc hcap0)]
          dsimp only
          rw [if_neg (show ¬m.promotion ≠ Piece.Void from fun h => h hprv),
            if_neg hncr, if_neg hncl, if_neg hepc]
          dsimp only
          exact ⟨rfl, rfl, rfl, rfl, rfl, rfl⟩
        obtain ⟨hW, hWa2, hB, hBa2, hE, hT⟩ := hfields
        rw [hfs, hdt] at hB hBa2
        have hwaf2 : ∀ u, p.w_all.testBit u = true → p.w_all.testBit u = true :=
          fun u hu => hu
        have hepf := ep_final_b hpse hfs hdt ht64 hba htb hbafsub hwaf2 hBd1
        exact assemble_full_inv_b hW hB hWa2 hBa2 hE hT
          (show PairDisj p.w_board from hww)
          hPD1
          (cross_disj_step_b hcrossWB (fun j hj u hu => hu) hSub1 hWnoT)
          (by rw [hwa, wOr_eq_boardOr])
          hAggBa
          hbw hB1b hefU hepf.1 hepf.2
    · -- promotion, no capture
      obtain ⟨hpcPawn, hprP, hprNePawn, hbackrank⟩ := hpro hprv
      have hnd : ¬(m.piece = Piece.Pawn ∧ m.from_sq >>> 16 = m.destination) := by
        rintro ⟨_, hdd⟩
        obtain ⟨sq2, h48, h55, hfs2, hdt2, _, _⟩ :=
          b_pawn_double_structure hpse hpcPawn hdd.symm
        have hts : t = sq2 - 16 := two_pow_inj (hdt.symm.trans hdt2)
        have h3 := b_double_dest_not_backrank sq2 h48 h55
        rw [← hts, ← hdt] at h3
        exact hbackrank h3
      have hfields :
          (make_b_move p m).w_board = p.w_board ∧
          (make_b_move p m).w_all = p.w_all ∧
          (make_b_move p m).b_board =
            updBoard
              (updBoard
                (updBoard p.b_board m.piece
                  (p.b_board m.piece ^^^ (m.from_sq ||| m.destination)))
                m.piece
                ((updBoard p.b_board m.piece
                  (p.b_board m.piece ^^^ (m.from_sq ||| m.destination))) m.piece &&&
                  not64 m.destination))
              m.promotion
              ((updBoard
                (updBoard p.b_board m.piece
                  (p.b_board m.piece ^^^ (m.from_sq ||| m.destination)))
                m.piece
                ((updBoard p.b_board m.piece
                  (p.b_board m.piece ^^^ (m.from_sq ||| m.destination))) m.piece &&&
                  not64 m.destination)) m.promotion ||| m.destination) ∧
          (make_b_move p m).b_all = p.b_all ^^^ (m.from_sq ||| m.destination) ∧
          (make_b_move p m).en_passent_target_square =
            (if m.piece = Piece.Pawn ∧ m.from_sq >>> 16 = m.destination
             then m.from_sq >>> 8 else 0) ∧
          (make_b_move p m).w_turn = true := by
        unfold make_b_move
        dsimp only
        rw [if_neg (show ¬(p.w_all &&& m.destination ≠ 0) from fun hc => hc hcap0)]
        dsimp only
        rw [if_pos (show m.promotion ≠ Piece.Void from hprv)]
        dsimp only
        exact ⟨rfl, rfl, rfl, rfl, rfl, rfl⟩
      obtain ⟨hW, hWa2, hB, hBa2, hE, hT⟩ := hfields
      rw [hfs, hdt] at hB hBa2
      have hothersB : ∀ j ∈ PIECES, j ≠ m.piece →
          (updBoard p.b_board m.piece
            (p.b_board m.piece ^^^ (2 ^ s ||| 2 ^ t))) j &&& (2:Nat) ^ t = 0 := by
        intro j hj hjp
        show (if j = m.piece then _ else p.b_board j) &&& (2:Nat) ^ t = 0
        rw [if_neg hjp, land_two_pow_zero_iff]
        exact hBnoT j hj
      obtain ⟨hAggB1c, hSubB1c, hDeadB1c⟩ := slot_clear hpcP hB1b htU hothersB
      have hnone3 : ∀ j ∈ PIECES,
          ((updBoard
            (updBoard p.b_board m.piece (p.b_board m.piece ^^^ (2 ^ s ||| 2 ^ t)))
            m.piece
            ((updBoard p.b_board m.piece
              (p.b_board m.piece ^^^ (2 ^ s ||| 2 ^ t))) m.piece &&&
              not64 (2 ^ t))) j).testBit t = false :=
        hDeadB1c t (by simp [Nat.testBit_two_pow])
      obtain ⟨hPD3, hAgg3, hSub3⟩ :=
        slot_add hprP (pair_disj_sub hPD1 hSubB1c) hnone3
      have hBorB1U : boardOr (updBoard p.b_board m.piece
          (p.b_board m.piece ^^^ (2 ^ s ||| 2 ^ t))) < U := boardOr_lt_U hB1b
      have hBorB1t : (boardOr (updBoard p.b_board m.piece
          (p.b_board m.piece ^^^ (2 ^ s ||| 2 ^ t)))).testBit t = true :=
        testBit_boardOr hpcP hT1
      have hSubFinal : ∀ i ∈ PIECES, ∀ u,
          ((updBoard
            (updBoard
              (updBoard p.b_board m.piece (p.b_board m.piece ^^^ (2 ^ s ||| 2 ^ t)))
              m.piece
              ((updBoard p.b_board m.piece
                (p.b_board m.piece ^^^ (2 ^ s ||| 2 ^ t))) m.piece &&&
                not64 (2 ^ t)))
            m.promotion
            ((updBoard
              (updBoard p.b_board m.piece (p.b_board m.piece ^^^ (2 ^ s ||| 2 ^ t)))
              m.piece
              ((updBoard p.b_board m.piece
                (p.b_board m.piece ^^^ (2 ^ s ||| 2 ^ t))) m.piece &&&
                not64 (2 ^ t))) m.promotion ||| 2 ^ t)) i).testBit u = true →
          (p.b_board i).testBit u = true ∨ u = t := by
        intro i hi u hu
        rcases hSub3 i hi u hu with h2 | h2
        · exact hSub1 i hi u (hSubB1c i hi u h2)
        · exact Or.inr h2
      refine assemble_full_inv_b hW hB hWa2 hBa2 hE hT
        (show PairDisj p.w_board from hww)
        hPD3
        (cross_disj_step_b hcrossWB (fun j hj u hu => hu) hSubFinal hWnoT)
        (by rw [hwa, wOr_eq_boardOr])
        ?_
        hbw ?_ hefU ?_ ?_
      · rw [hAgg3, hAggB1c, clear_set_bit hBorB1U hBorB1t ht64]
        exact hAggBa
      · exact updBoard_bounds
          (updBoard_bounds hB1b (land_lt_U_left (hB1b m.piece hpcP)))
          (lor_lt_U ((updBoard_bounds hB1b
            (land_lt_U_left (hB1b m.piece hpcP))) m.promotion hprP) htU)
      · rw [if_neg hnd]
        exact Nat.zero_and _
      · intro i hi hiP
        rw [if_neg hnd, show (0:Nat) >>> 8 = 0 from by decide, Nat.and_zero]
  · -- ordinary capture
    have hnep : ¬(m.piece = Piece.Pawn ∧ m.destination = p.en_passent_target_square) := by
      rintro ⟨_, hde⟩
      have hwat : p.w_all.testBit t = true := by
        cases hv : p.w_all.testBit t
        · exact absurd (by rw [hdt, land_two_pow_zero_iff]; exact hv) hcap0
        · rfl
      have hepbt : p.en_passent_target_square.testBit t = true := by
        rw [← hde, hdt]
        simp [Nat.testBit_two_pow]
      have h3 := land_eq_zero_iff.1 hep1 t hepbt
      rw [Nat.testBit_lor, Bool.or_eq_false_iff] at h3
      rw [h3.1] at hwat
      exact absurd hwat (by simp)
    obtain ⟨hCharW, hAggWc⟩ := family_clear m.destination hbw
    have hSubWc : ∀ j ∈ PIECES, ∀ u,
        ((clearPieces p.w_board (not64 m.destination)) j).testBit u = true →
        (p.w_board j).testBit u = true := by
      intro j hj u hu
      rw [hCharW j hj u, Bool.and_eq_true] at hu
      exact hu.1
    have hgtWc : ∀ j ∈ PIECES,
        ((clearPieces p.w_board (not64 m.destination)) j).testBit t = false := by
      intro j hj
      rw [hCharW j hj t, hdt]
      simp [Nat.testBit_two_pow]
    have hWcb : ∀ i ∈ PIECES, (clearPieces p.w_board (not64 m.destination)) i < U := by
      intro i hi
      have hiv : i ≠ Piece.Void := by
        simp only [PIECES, List.mem_cons, List.not_mem_nil, or_false] at hi
        rcases hi with rfl | rfl | rfl | rfl | rfl | rfl <;> decide
      show (if i = Piece.Void then p.w_board i else p.w_board i &&& not64 m.destination) < U
      rw [if_neg hiv]
      exact land_lt_U_left (hbw i hi)
    have hwaf2 : ∀ u, (p.w_all &&& not64 m.destination).testBit u = true →
        p.w_all.testBit u = true := by
      intro u hu
      rw [Nat.testBit_land, Bool.and_eq_true] at hu
      exact hu.1
    by_cases hprv : m.promotion = Piece.Void
    · -- capture, no promotion
      have hfields :
          (make_b_move p m).w_board = clearPieces p.w_board (not64 m.destination) ∧
          (make_b_move p m).w_all = p.w_all &&& not64 m.destination ∧
          (make_b_move p m).b_board =
            updBoard p.b_board m.piece
              (p.b_board m.piece ^^^ (m.from_sq ||| m.destination)) ∧
          (make_b_move p m).b_all = p.b_all ^^^ (m.from_sq ||| m.destination) ∧
          (make_b_move p m).en_passent_target_square =
            (if m.piece = Piece.Pawn ∧ m.from_sq >>> 16 = m.destination
             then m.from_sq >>> 8 else 0) ∧
          (make_b_move p m).w_turn = true := by
        unfold make_b_move
        dsimp only
        rw [if_pos (show p.w_all &&& m.destination ≠ 0 from hcap0)]
        dsimp only
        rw [if_neg (show ¬m.promotion ≠ Piece.Void from fun h => h hprv),
          if_neg hncr, if_neg hncl, if_neg hnep]
        dsimp only
        exact ⟨rfl, rfl, rfl, rfl, rfl, rfl⟩
      obtain ⟨hW, hWa2, hB, hBa2, hE, hT⟩ := hfields
      rw [hfs, hdt] at hB hBa2
      have hepf := ep_final_b hpse hfs hdt ht64 hba htb hbafsub hwaf2 hBd1
      exact assemble_full_inv_b hW hB hWa2 hBa2 hE hT
        (pair_disj_sub (show PairDisj p.w_board from hww) hSubWc)
        hPD1
        (cross_disj_step_b hcrossWB hSubWc hSub1 hgtWc)
        (by rw [hwa, wOr_eq_boardOr]; exact hAggWc.symm)
        hAggBa
        hWcb hB1b hefU hepf.1 hepf.2
    · -- capture with promotion
      obtain ⟨hpcPawn, hprP, hprNePawn, hbackrank⟩ := hpro hprv
      have hnd : ¬(m.piece = Piece.Pawn ∧ m.from_sq >>> 16 = m.destination) := by
        rintro ⟨_, hdd⟩
        obtain ⟨sq2, h48, h55, hfs2, hdt2, _, _⟩ :=
          b_pawn_double_structure hpse hpcPawn hdd.symm
        have hts : t = sq2 - 16 := two_pow_inj (hdt.symm.trans hdt2)
        have h3 := b_double_dest_not_backrank sq2 h48 h55
        rw [← hts, ← hdt] at h3
        exact hbackrank h3
      have hfields :
          (make_b_move p m).w_board = clearPieces p.w_board (not64 m.destination) ∧
          (make_b_move p m).w_all = p.w_all &&& not64 m.destination ∧
          (make_b_move p m).b_board =
            updBoard
              (updBoard
                (updBoard p.b_board m.piece
                  (p.b_board m.piece ^^^ (m.from_sq ||| m.destination)))
                m.piece
                ((updBoard p.b_board m.piece
                  (p.b_board m.piece ^^^ (m.from_sq ||| m.destination))) m.piece &&&
                  not64 m.destination))
              m.promotion
              ((updBoard
                (updBoard p.b_board m.piece
                  (p.b_board m.piece ^^^ (m.from_sq ||| m.destination)))
                m.piece
                ((updBoard p.b_board m.piece
                  (p.b_board m.piece ^^^ (m.from_sq ||| m.destination))) m.piece &&&
                  not64 m.destination)) m.promotion ||| m.destination) ∧
          (make_b_move p m).b_all = p.b_all ^^^ (m.from_sq ||| m.destination) ∧
          (make_b_move p m).en_passent_target_square =
            (if m.piece = Piece.Pawn ∧ m.from_sq >>> 16 = m.destination
             then m.from_sq >>> 8 else 0) ∧
          (make_b_move p m).w_turn = true := by
        unfold make_b_move
        dsimp only
        rw [if_pos (show p.w_all &&& m.destination ≠ 0 from hcap0)]
        dsimp only
        rw [if_pos (show m.promotion ≠ Piece.Void from hprv)]
        dsimp only
        exact ⟨rfl, rfl, rfl, rfl, rfl, rfl⟩
      obtain ⟨hW, hWa2, hB, hBa2, hE, hT⟩ := hfields
      rw [hfs, hdt] at hB hBa2
      have hothersB : ∀ j ∈ PIECES, j ≠ m.piece →
          (updBoard p.b_board m.piece
            (p.b_board m.piece ^^^ (2 ^ s ||| 2 ^ t))) j &&& (2:Nat) ^ t = 0 := by
        intro j hj hjp
        show (if j = m.piece then _ else p.b_board j) &&& (2:Nat) ^ t = 0
        rw [if_neg hjp, land_two_pow_zero_iff]
        exact hBnoT j hj
      obtain ⟨hAggB1c, hSubB1c, hDeadB1c⟩ := slot_clear hpcP hB1b htU hothersB
      have hnone3 : ∀ j ∈ PIECES,
          ((updBoard
            (updBoard p.b_board m.piece (p.b_board m.piece ^^^ (2 ^ s ||| 2 ^ t)))
            m.piece
            ((updBoard p.b_board m.piece
              (p.b_board m.piece ^^^ (2 ^ s ||| 2 ^ t))) m.piece &&&
              not64 (2 ^ t))) j).testBit t = false :=
        hDeadB1c t (by simp [Nat.testBit_two_pow])
      obtain ⟨hPD3, hAgg3, hSub3⟩ :=
        slot_add hprP (pair_disj_sub hPD1 hSubB1c) hnone3
      have hBorB1U : boardOr (updBoard p.b_board m.piece
          (p.b_board m.piece ^^^ (2 ^ s ||| 2 ^ t))) < U := boardOr_lt_U hB1b
      have hBorB1t : (boardOr (updBoard p.b_board m.piece
          (p.b_board m.piece ^^^ (2 ^ s ||| 2 ^ t)))).testBit t = true :=
        testBit_boardOr hpcP hT1
      have hSubFinal : ∀ i ∈ PIECES, ∀ u,
          ((updBoard
            (updBoard
              (updBoard p.b_board m.piece (p.b_board m.piece ^^^ (2 ^ s ||| 2 ^ t)))
              m.piece
              ((updBoard p.b_board m.piece
                (p.b_board m.piece ^^^ (2 ^ s ||| 2 ^ t))) m.piece &&&
                not64 (2 ^ t)))
            m.promotion
            ((updBoard
              (updBoard p.b_board m.piece (p.b_board m.piece ^^^ (2 ^ s ||| 2 ^ t)))
              m.piece
              ((updBoard p.b_board m.piece
                (p.b_board m.piece ^^^ (2 ^ s ||| 2 ^ t))) m.piece &&&
                not64 (2 ^ t))) m.promotion ||| 2 ^ t)) i).testBit u = true →
          (p.b_board i).testBit u = true ∨ u = t := by
        intro i hi u hu
        rcases hSub3 i hi u hu with h2 | h2
        · exact hSub1 i hi u (hSubB1c i hi u h2)
        · exact Or.inr h2
      refine assemble_full_inv_b hW hB hWa2 hBa2 hE hT
        (pair_disj_sub (show PairDisj p.w_board from hww) hSubWc)
        hPD3
        (cross_disj_step_b hcrossWB hSubWc hSubFinal hgtWc)
        (by rw [hwa, wOr_eq_boardOr]; exact hAggWc.symm)
        ?_
        hWcb ?_ hefU ?_ ?_
      · rw [hAgg3, hAggB1c, clear_set_bit hBorB1U hBorB1t ht64]
        exact hAggBa
      · exact updBoard_bounds
          (updBoard_bounds hB1b (land_lt_U_left (hB1b m.piece hpcP)))
          (lor_lt_U ((updBoard_bounds hB1b
            (land_lt_U_left (hB1b m.piece hpcP))) m.promotion hprP) htU)
      · rw [if_neg hnd]
        exact Nat.zero_and _
      · intro i hi hiP
        rw [if_neg hnd, show (0:Nat) >>> 8 = 0 from by decide, Nat.and_zero]

/-- Parsing a position string establishes the full invariant. -/
theorem from_fen_full_inv {str : List Char} {p : Position}
    (h : from_fen str = some p) : FullInv p := by
  unfold from_fen at h
  cases hidx : str.findIdx? (fun c => c == ' ') with
  | none =>
    rw [hidx] at h
    exact absurd h (by simp)
  | some sep =>
    rw [hidx] at h
    simp only [Option.some.injEq] at h
    have hinit : ParseInv empty_position (shl 1 63) := by
      refine ⟨⟨?_, ?_, ?_⟩, ?_, ?_, ?_, ?_, Or.inr ⟨63, by norm_num, ?_⟩⟩
      · intro i _ j _ _
        exact Nat.zero_and 0
      · intro i _ j _ _
        exact Nat.zero_and 0
      · intro i _ j _
        exact Nat.zero_and 0
      · intro i _
        exact U_pos
      · intro i _
        exact U_pos
      · intro i _
        exact Nat.zero_and _
      · intro i _
        exact Nat.zero_and _
      · exact sqbb_eq_two_pow (by norm_num)
    obtain ⟨ptr2, hP⟩ := parse_board_inv (str.take sep) (shl 1 63) empty_position hinit
    obtain ⟨hb1, hb2, hb3, hb4, hb5⟩ :=
      parse_board_fields (str.take sep) (shl 1 63) empty_position
    obtain ⟨⟨hdw, hdb, hdc⟩, hbw0, hbb0, _, _, _⟩ := hP
    rw [← h]
    generalize hq : parse_board (List.take sep str) (shl 1 63) empty_position = q
    rw [hq] at hdw hdb hdc hbw0 hbb0 hb1 hb2 hb3 hb4 hb5
    have hwa0 : q.w_all = 0 := hb1
    have hba0 : q.b_all = 0 := hb2
    have hep0 : q.en_passent_target_square = 0 := hb4
    have hfw : PIECES.foldl (fun acc k => acc ||| q.w_board k) q.w_all =
        boardOr q.w_board := by
      rw [hwa0]
      show 0 ||| q.w_board .Pawn ||| q.w_board .Knight ||| q.w_board .Bishop |||
        q.w_board .Rook ||| q.w_board .Queen ||| q.w_board .King = boardOr q.w_board
      rw [Nat.zero_or]
      rfl
    have hfb : PIECES.foldl (fun acc k => acc ||| q.b_board k) q.b_all =
        boardOr q.b_board := by
      rw [hba0]
      show 0 ||| q.b_board .Pawn ||| q.b_board .Knight ||| q.b_board .Bishop |||
        q.b_board .Rook ||| q.b_board .Queen ||| q.b_board .King = boardOr q.b_board
      rw [Nat.zero_or]
      rfl
    refine ⟨⟨⟨hdw, hdb, hdc⟩, ?_, ?_⟩, ⟨hbw0, hbb0, ?_⟩, ⟨?_, ?_, ?_⟩, ?_⟩
    · exact hfw
    · exact hfb
    · rw [hep0]
      exact U_pos
    · rw [hep0]
      exact Nat.zero_and _
    · intro _ i _ _
      rw [hep0, show (0:Nat) >>> 8 = 0 from by decide, Nat.and_zero]
    · intro _ i _ _
      rw [hep0, show shl 0 8 = 0 from by decide, Nat.and_zero]
    · exact (calculate_cache_irrel _ _).symm

/-- Every reachable position satisfies the full inductive invariant. -/
theorem reachable_full_inv {p : Position} (h : Reachable p) : FullInv p := by
  induction h with
  | fen str p2 hf => exact from_fen_full_inv hf
  | stepW p2 m hr htn hm ih => exact make_w_move_inv ih htn hm
  | stepB p2 m hr htn hm ih => exact make_b_move_inv ih htn hm

/-- C2: after parsing a position string with `from_fen`, and after every
application of a move taken from the current legal-move cache (through the
side-appropriate applicator), the twelve per-piece bitboards are pairwise
disjoint and each side's aggregate bitboard equals the bitwise OR of that
side's six piece bitboards. -/
theorem c2_board_invariants (p : Position) (h : Reachable p) : BoardsInv p :=
  (reachable_full_inv h).1

/-- Witness for C2 at the parsed start position. -/
theorem c2_witness : BoardsInv startpos_position :=
  c2_board_invariants startpos_position
    (Reachable.fen startpos_fen startpos_position rfl)

/- ------------------------------------------------------------------ -/
/- C7: Carry-Rippler subset enumeration                                -/
/- ------------------------------------------------------------------ -/

/-- Disjoint OR is addition. -/
theorem lor_eq_add : ∀ x y : Nat, x &&& y = 0 → x ||| y = x + y := by
  intro x
  induction x using Nat.strong_induction_on with
  | _ x ih =>
    intro y h
    by_cases hx : x = 0
    · subst hx
      simp
    · have hdiv : (x / 2) &&& (y / 2) = 0 := by
        rw [← Nat.and_div_two, h]
      have hx2 : x / 2 < x := Nat.div_lt_self (Nat.pos_of_ne_zero hx) (by norm_num)
      have hrec := ih (x / 2) hx2 (y / 2) hdiv
      have hbit : ¬(x % 2 = 1 ∧ y % 2 = 1) := by
        rintro ⟨h1, h2⟩
        have h3 : (x &&& y).testBit 0 = true := by
          rw [Nat.testBit_land, Nat.testBit_zero, Nat.testBit_zero, h1, h2]
          rfl
        rw [h] at h3
        simp at h3
      have hor1 : (x ||| y) / 2 = x / 2 ||| y / 2 := Nat.or_div_two
      have hor0 : (x ||| y).testBit 0 = (x.testBit 0 || y.testBit 0) := Nat.testBit_lor x y 0
      simp only [Nat.testBit_zero] at hor0
      have hxm := Nat.mod_two_eq_zero_or_one x
      have hym := Nat.mod_two_eq_zero_or_one y
      have hom := Nat.mod_two_eq_zero_or_one (x ||| y)
      have hxd := Nat.div_add_mod x 2
      have hyd := Nat.div_add_mod y 2
      have hod := Nat.div_add_mod (x ||| y) 2
      rcases hxm with hx2m | hx2m <;> rcases hym with hy2m | hy2m
      · simp only [hx2m, hy2m] at hor0
        have hoz : (x ||| y) % 2 ≠ 1 := by
          intro hc
          rw [hc] at hor0
          simp at hor0
        omega
      · simp only [hx2m, hy2m] at hor0
        have hoz : (x ||| y) % 2 = 1 := by
          by_contra hc
          have h0 : (x ||| y) % 2 = 0 := by omega
          rw [h0] at hor0
          simp at hor0
        omega
      · simp only [hx2m, hy2m] at hor0
        have hoz : (x ||| y) % 2 = 1 := by
          by_contra hc
          have h0 : (x ||| y) % 2 = 0 := by omega
          rw [h0] at hor0
          simp at hor0
        omega
      · exact absurd ⟨hx2m, hy2m⟩ hbit

/-- Subtracting a bitwise subset is XOR (no borrows). -/
theorem sub_eq_xor_of_subset {a b : Nat} (h : b &&& a = b) : a - b = a ^^^ b := by
  have hdisj : (a ^^^ b) &&& b = 0 := by
    rw [land_eq_zero_iff]
    intro u hu
    rw [Nat.testBit_xor] at hu
    cases hb : b.testBit u
    · rfl
    · exfalso
      have ha : a.testBit u = true := by
        have h2 := congrArg (fun z => z.testBit u) h
        simp only [Nat.testBit_land, hb] at h2
        cases hav : a.testBit u
        · rw [hav] at h2
          simp at h2
        · rfl
      rw [ha, hb] at hu
      simp at hu
  have hunion : (a ^^^ b) ||| b = a := by
    apply Nat.eq_of_testBit_eq
    intro u
    rw [Nat.testBit_lor, Nat.testBit_xor]
    cases hb : b.testBit u
    · simp
    · have ha : a.testBit u = true := by
        have h2 := congrArg (fun z => z.testBit u) h
        simp only [Nat.testBit_land, hb] at h2
        cases hav : a.testBit u
        · rw [hav] at h2
          simp at h2
        · rfl
      rw [ha]
      simp
  have hadd : (a ^^^ b) + b = a := by
    rw [← lor_eq_add _ _ hdisj]
    exact hunion
  omega

theorem not64_lt_U {x : Nat} (hx : x < U) : not64 x < U := xor_lt_U (by norm_num [U]) hx

/-- De Morgan inside 64 bits. -/
theorem not64_lor {x y : Nat} (hx : x < U) (hy : y < U) :
    not64 (x ||| y) = not64 x &&& not64 y := by
  apply Nat.eq_of_testBit_eq
  intro u
  by_cases hu : u < 64
  · rw [testBit_not64_lt _ hu, Nat.testBit_land, testBit_not64_lt _ hu,
      testBit_not64_lt _ hu, Nat.testBit_lor]
    cases x.testBit u <;> cases y.testBit u <;> rfl
  · rw [testBit_U_of_ge (not64_lt_U (lor_lt_U hx hy)) (by omega), Nat.testBit_land,
      testBit_U_of_ge (not64_lt_U hx) (by omega)]
    rfl

/-- `U - x = not64 (x - 1)` for `1 ≤ x ≤ U`. -/
theorem U_sub_eq_not64 {x : Nat} (h1 : 1 ≤ x) (h2 : x ≤ U) :
    U - x = not64 (x - 1) := by
  have hx1 : x - 1 < U := by omega
  have hsub : (x - 1) &&& (U - 1) = x - 1 := by
    rw [show U - 1 = 2 ^ 64 - 1 from rfl, Nat.and_pow_two_sub_one_eq_mod]
    exact Nat.mod_eq_of_lt hx1
  have h3 : (U - 1) - (x - 1) = (U - 1) ^^^ (x - 1) := sub_eq_xor_of_subset hsub
  show U - x = (U - 1) ^^^ (x - 1)
  rw [← h3]
  omega

theorem two_pow_le_of_testBit {x p : Nat} (h : x.testBit p = true) : 2 ^ p ≤ x := by
  have h2 : x &&& 2 ^ p = 2 ^ p := by
    apply Nat.eq_of_testBit_eq
    intro u
    rw [Nat.testBit_land, Nat.testBit_two_pow]
    by_cases hu : p = u
    · subst hu
      simp [h]
    · simp [hu]
  calc 2 ^ p = x &&& 2 ^ p := h2.symm
    _ ≤ x := Nat.and_le_left

theorem le_of_subset {x y : Nat} (h : x &&& y = x) : x ≤ y := by
  calc x = x &&& y := h.symm
    _ ≤ y := Nat.and_le_right

theorem subset_testBit {x y : Nat} (h : x &&& y = x) {u : Nat}
    (hx : x.testBit u = true) : y.testBit u = true := by
  have h2 := congrArg (fun z => z.testBit u) h
  simp only [Nat.testBit_land, hx, Bool.true_and] at h2
  exact h2

/-- Splitting a 64-bit value at bit `k`: high part plus low part. -/
theorem hi_lo_decomp {x : Nat} (hx : x < U) (k : Nat) :
    x = (x &&& not64 (2 ^ k - 1)) + (x &&& (2 ^ k - 1)) := by
  have hdisj : (x &&& not64 (2 ^ k - 1)) &&& (x &&& (2 ^ k - 1)) = 0 := by
    rw [land_eq_zero_iff]
    intro u hu
    rw [Nat.testBit_land] at hu ⊢
    rw [Bool.and_eq_true] at hu
    have hu64 : u < 64 := by
      by_contra hge
      rw [testBit_U_of_ge hx (by omega)] at hu
      exact absurd hu.1 (by simp)
    rw [testBit_not64_lt _ hu64] at hu
    cases hb : (2 ^ k - 1).testBit u
    · simp
    · rw [hb] at hu
      exact absurd hu.2 (by simp)
  have hor : (x &&& not64 (2 ^ k - 1)) ||| (x &&& (2 ^ k - 1)) = x := by
    apply Nat.eq_of_testBit_eq
    intro u
    rw [Nat.testBit_lor, Nat.testBit_land, Nat.testBit_land]
    by_cases hu64 : u < 64
    · rw [testBit_not64_lt _ hu64]
      cases hxu : x.testBit u <;> cases hb : (2 ^ k - 1).testBit u <;> simp
    · rw [testBit_U_of_ge hx (by omega)]
      simp
  rw [← lor_eq_add _ _ hdisj, hor]

theorem subset_land_mask {x y m : Nat} (h : x &&& y = x) :
    (x &&& m) &&& (y &&& m) = x &&& m := by
  apply Nat.eq_of_testBit_eq
  intro u
  rw [Nat.testBit_land, Nat.testBit_land, Nat.testBit_land]
  cases hx : x.testBit u
  · simp
  · rw [subset_testBit h hx]
    cases m.testBit u <;> simp

theorem no_bit_mask_drop {x p : Nat} (h : x.testBit p = false) :
    x &&& (2 ^ (p + 1) - 1) = x &&& (2 ^ p - 1) := by
  apply Nat.eq_of_testBit_eq
  intro u
  rw [Nat.testBit_land, Nat.testBit_land, Nat.testBit_two_pow_sub_one,
    Nat.testBit_two_pow_sub_one]
  by_cases hup : u < p
  · simp [hup, show u < p + 1 by omega]
  · by_cases hup2 : u = p
    · subst hup2
      simp [h]
    · simp [show ¬u < p + 1 by omega, hup]

/-- The Carry-Rippler step on a proper subset: it yields the numerically
least subset of the mask that is greater than the current one. -/
theorem carry_rippler_step {M B : Nat} (hMU : M < U) (hB : B &&& M = B)
    (hBne : B ≠ M) :
    ∃ C, wsub B M &&& M = C ∧ C &&& M = C ∧ B < C ∧ C ≠ 0 ∧
      (∀ B2, B2 &&& M = B2 → B < B2 → C ≤ B2) := by
  have hBle : B ≤ M := le_of_subset hB
  have hBU : B < U := lt_of_le_of_lt hBle hMU
  have hBlt : B < M := lt_of_le_of_ne hBle hBne
  have hex : ∃ u, M.testBit u = true ∧ B.testBit u = false := by
    by_contra hc
    push_neg at hc
    apply hBne
    apply Nat.eq_of_testBit_eq
    intro u
    cases hm : M.testBit u
    · cases hb : B.testBit u
      · rfl
      · exact absurd (subset_testBit hB hb) (by simp [hm])
    · have hbu := hc u hm
      simp only [ne_eq, Bool.not_eq_false] at hbu
      rw [hbu]
  obtain ⟨p, hp, hbp, hmin⟩ : ∃ p, M.testBit p = true ∧ B.testBit p = false ∧
      ∀ u, u < p → M.testBit u = true → B.testBit u = true :=
    ⟨Nat.find hex, (Nat.find_spec hex).1, (Nat.find_spec hex).2, by
      intro u hu hm
      have h2 := Nat.find_min hex hu
      simp only [not_and, Bool.not_eq_false] at h2
      exact h2 hm⟩
  have hp64 : p < 64 := by
    by_contra hge
    rw [testBit_U_of_ge hMU (by omega)] at hp
    exact absurd hp (by simp)
  have hpU : (2:Nat) ^ p < U := Nat.pow_lt_pow_right (by norm_num) hp64
  have hp1 : (0:Nat) < 2 ^ p := Nat.two_pow_pos p
  have hBMu_low : ∀ u, u < p → B.testBit u = M.testBit u := by
    intro u hu
    cases hm : M.testBit u
    · cases hb : B.testBit u
      · rfl
      · exact absurd (subset_testBit hB hb) (by simp [hm])
    · exact hmin u hu hm
  have hhibit : ∀ (x : Nat), x < U → ∀ u,
      (x &&& not64 (2 ^ (p + 1) - 1)).testBit u =
        (x.testBit u && decide (p + 1 ≤ u)) := by
    intro x hxU u
    by_cases hu : u < 64
    · rw [Nat.testBit_land, testBit_not64_lt _ hu, Nat.testBit_two_pow_sub_one]
      by_cases hup : u < p + 1
      · simp [hup, show ¬(p + 1 ≤ u) by omega]
      · simp [hup, show p + 1 ≤ u by omega]
    · rw [Nat.testBit_land, testBit_U_of_ge hxU (by omega)]
      simp
  have hMhiU : M &&& not64 (2 ^ (p + 1) - 1) < U := land_lt_U_left hMU
  have hBhiU : B &&& not64 (2 ^ (p + 1) - 1) < U := land_lt_U_left hBU
  have hXU : (M &&& not64 (2 ^ (p + 1) - 1)) ^^^ (B &&& not64 (2 ^ (p + 1) - 1)) < U :=
    xor_lt_U hMhiU hBhiU
  have hXhigh : ∀ u, u < p + 1 →
      ((M &&& not64 (2 ^ (p + 1) - 1)) ^^^ (B &&& not64 (2 ^ (p + 1) - 1))).testBit u
        = false := by
    intro u hu
    rw [Nat.testBit_xor, hhibit M hMU u, hhibit B hBU u]
    simp [show ¬(p + 1 ≤ u) by omega]
  have hMB_or : B ||| (((M &&& not64 (2 ^ (p + 1) - 1)) ^^^
      (B &&& not64 (2 ^ (p + 1) - 1))) ||| 2 ^ p) = M := by
    apply Nat.eq_of_testBit_eq
    intro u
    rw [Nat.testBit_lor, Nat.testBit_lor, Nat.testBit_xor, hhibit M hMU u,
      hhibit B hBU u, Nat.testBit_two_pow]
    by_cases hup : u < p
    · rw [hBMu_low u hup]
      simp [show ¬(p + 1 ≤ u) by omega, show ¬(p = u) by omega]
    · by_cases hup2 : u = p
      · rw [hup2]
        simp [hp, hbp, show ¬(p + 1 ≤ p) by omega]
      · have hge : p + 1 ≤ u := by omega
        cases hm : M.testBit u <;> cases hb : B.testBit u
        · simp [hge, show ¬(p = u) by omega]
        · exact absurd (subset_testBit hB hb) (by simp [hm])
        · simp [hge, show ¬(p = u) by omega]
        · simp [hge, show ¬(p = u) by omega]
  have hd2 : B &&& (((M &&& not64 (2 ^ (p + 1) - 1)) ^^^
      (B &&& not64 (2 ^ (p + 1) - 1))) ||| 2 ^ p) = 0 := by
    rw [land_eq_zero_iff]
    intro u hu
    rw [Nat.testBit_lor, Nat.testBit_two_pow]
    by_cases hup : u < p + 1
    · rw [hXhigh u hup]
      have : ¬(p = u) := by
        intro he
        rw [← he] at hu
        rw [hbp] at hu
        exact absurd hu (by simp)
      simp [this]
    · rw [Nat.testBit_xor, hhibit M hMU u, hhibit B hBU u]
      rw [subset_testBit hB hu, hu]
      simp [show p + 1 ≤ u by omega, show ¬(p = u) by omega]
  have hd1 : ((M &&& not64 (2 ^ (p + 1) - 1)) ^^^
      (B &&& not64 (2 ^ (p + 1) - 1))) &&& 2 ^ p = 0 := by
    rw [land_two_pow_zero_iff]
    exact hXhigh p (by omega)
  have hMadd : M = B + (((M &&& not64 (2 ^ (p + 1) - 1)) ^^^
      (B &&& not64 (2 ^ (p + 1) - 1))) + 2 ^ p) := by
    rw [← lor_eq_add _ _ hd1, ← lor_eq_add _ _ hd2, hMB_or]
  have hws : wsub B M = U - (M - B) := by
    unfold wsub
    rw [Nat.mod_eq_of_lt hBU, Nat.mod_eq_of_lt hMU,
      Nat.mod_eq_of_lt (show B + (U - M) < U by omega)]
    omega
  have hXL : ((M &&& not64 (2 ^ (p + 1) - 1)) ^^^
      (B &&& not64 (2 ^ (p + 1) - 1))) &&& (2 ^ p - 1) = 0 := by
    rw [land_eq_zero_iff]
    intro u hu
    rw [Nat.testBit_two_pow_sub_one]
    by_cases hup : u < p
    · rw [hXhigh u (by omega)] at hu
      exact absurd hu (by simp)
    · simp [hup]
  have hfinal : wsub B M = not64 (((M &&& not64 (2 ^ (p + 1) - 1)) ^^^
      (B &&& not64 (2 ^ (p + 1) - 1))) ||| (2 ^ p - 1)) := by
    rw [hws, U_sub_eq_not64 (by omega) (by omega),
      show M - B - 1 = ((M &&& not64 (2 ^ (p + 1) - 1)) ^^^
        (B &&& not64 (2 ^ (p + 1) - 1))) + (2 ^ p - 1) by omega,
      lor_eq_add _ _ hXL]
  have hLU : (2:Nat) ^ p - 1 < U := by omega
  have hC : not64 (((M &&& not64 (2 ^ (p + 1) - 1)) ^^^
      (B &&& not64 (2 ^ (p + 1) - 1))) ||| (2 ^ p - 1)) &&& M =
      (B &&& not64 (2 ^ (p + 1) - 1)) ||| 2 ^ p := by
    apply Nat.eq_of_testBit_eq
    intro u
    by_cases hu64 : u < 64
    · rw [Nat.testBit_land, testBit_not64_lt _ hu64, Nat.testBit_lor,
        Nat.testBit_two_pow_sub_one, Nat.testBit_lor, hhibit B hBU u,
        Nat.testBit_two_pow, Nat.testBit_xor, hhibit M hMU u, hhibit B hBU u]
      by_cases hup : u < p
      · simp [hup, show ¬(p + 1 ≤ u) by omega, show ¬(p = u) by omega]
      · by_cases hup2 : u = p
        · rw [hup2]
          simp [hp, show ¬(p + 1 ≤ p) by omega, show ¬(p < p) by omega]
        · have hge : p + 1 ≤ u := by omega
          cases hm : M.testBit u <;> cases hb : B.testBit u
          · simp [hge, show ¬(u < p) by omega, show ¬(p = u) by omega]
          · exact absurd (subset_testBit hB hb) (by simp [hm])
          · simp [hge, show ¬(u < p) by omega, show ¬(p = u) by omega]
          · simp [hge, show ¬(u < p) by omega, show ¬(p = u) by omega]
    · rw [Nat.testBit_land,
        testBit_U_of_ge (not64_lt_U (lor_lt_U hXU hLU)) (by omega),
        testBit_U_of_ge (lor_lt_U hBhiU hpU) (by omega)]
      rfl
  have hChiP : (B &&& not64 (2 ^ (p + 1) - 1)) &&& 2 ^ p = 0 := by
    rw [land_two_pow_zero_iff, hhibit B hBU p]
    simp [show ¬(p + 1 ≤ p) by omega]
  have hCadd : (B &&& not64 (2 ^ (p + 1) - 1)) ||| 2 ^ p =
      (B &&& not64 (2 ^ (p + 1) - 1)) + 2 ^ p := lor_eq_add _ _ hChiP
  have hBdec := hi_lo_decomp hBU (p + 1)
  have hBmod : B &&& (2 ^ (p + 1) - 1) = B % 2 ^ (p + 1) :=
    Nat.and_pow_two_sub_one_eq_mod B (p + 1)
  have hBlow_eq : B % 2 ^ (p + 1) = M % 2 ^ p := by
    rw [← hBmod, no_bit_mask_drop hbp, ← Nat.and_pow_two_sub_one_eq_mod M p]
    apply Nat.eq_of_testBit_eq
    intro u
    rw [Nat.testBit_land, Nat.testBit_land, Nat.testBit_two_pow_sub_one]
    by_cases hup : u < p
    · rw [hBMu_low u hup]
    · simp [hup]
  have hMlow_lt : M % 2 ^ p < 2 ^ p := Nat.mod_lt _ hp1
  refine ⟨(B &&& not64 (2 ^ (p + 1) - 1)) ||| 2 ^ p, ?_, ?_, ?_, ?_, ?_⟩
  · rw [hfinal]
    exact hC
  · apply Nat.eq_of_testBit_eq
    intro u
    rw [Nat.testBit_land, Nat.testBit_lor, hhibit B hBU u,
      Nat.testBit_two_pow]
    by_cases hup2 : p = u
    · subst hup2
      simp [hp]
    · cases hb : B.testBit u
      · simp [hup2]
      · rw [subset_testBit hB hb]
        simp [hup2]
  · rw [hCadd]
    omega
  · rw [hCadd]
    omega
  · intro B2 hB2 hlt
    have hB2U : B2 < U := lt_of_le_of_lt (le_of_subset hB2) hMU
    have hB2dec := hi_lo_decomp hB2U (p + 1)
    have hB2mod : B2 &&& (2 ^ (p + 1) - 1) = B2 % 2 ^ (p + 1) :=
      Nat.and_pow_two_sub_one_eq_mod B2 (p + 1)
    have hq1 : (0:Nat) < 2 ^ (p + 1) := Nat.two_pow_pos (p + 1)
    have hBhiDvd : 2 ^ (p + 1) ∣ (B &&& not64 (2 ^ (p + 1) - 1)) := by
      have h0 : (B &&& not64 (2 ^ (p + 1) - 1)) % 2 ^ (p + 1) = 0 := by
        rw [← Nat.and_pow_two_sub_one_eq_mod, land_eq_zero_iff]
        intro u hu
        rw [hhibit B hBU u] at hu
        rw [Nat.testBit_two_pow_sub_one]
        rw [Bool.and_eq_true] at hu
        have h3 := hu.2
        simp only [decide_eq_true_eq] at h3
        simp [show ¬(u < p + 1) by omega]
      exact Nat.dvd_of_mod_eq_zero h0
    have hB2hiDvd : 2 ^ (p + 1) ∣ (B2 &&& not64 (2 ^ (p + 1) - 1)) := by
      have h0 : (B2 &&& not64 (2 ^ (p + 1) - 1)) % 2 ^ (p + 1) = 0 := by
        rw [← Nat.and_pow_two_sub_one_eq_mod, land_eq_zero_iff]
        intro u hu
        rw [hhibit B2 hB2U u] at hu
        rw [Nat.testBit_two_pow_sub_one]
        rw [Bool.and_eq_true] at hu
        have h3 := hu.2
        simp only [decide_eq_true_eq] at h3
        simp [show ¬(u < p + 1) by omega]
      exact Nat.dvd_of_mod_eq_zero h0
    have hB2modlt : B2 % 2 ^ (p + 1) < 2 ^ (p + 1) := Nat.mod_lt _ hq1
    rcases Nat.lt_trichotomy (B2 &&& not64 (2 ^ (p + 1) - 1))
      (B &&& not64 (2 ^ (p + 1) - 1)) with hcmp | hcmp | hcmp
    · -- high part smaller: B2 < B, contradiction
      exfalso
      have hstep : (B2 &&& not64 (2 ^ (p + 1) - 1)) + 2 ^ (p + 1) ≤
          (B &&& not64 (2 ^ (p + 1) - 1)) := by
        have hd := Nat.dvd_sub' hBhiDvd hB2hiDvd
        have hpos : 0 < (B &&& not64 (2 ^ (p + 1) - 1)) -
            (B2 &&& not64 (2 ^ (p + 1) - 1)) := by omega
        have := Nat.le_of_dvd hpos hd
        omega
      omega
    · -- same high part: decide by bit p of B2
      cases hb2p : B2.testBit p
      · -- no bit p: B2 at most B, contradiction
        exfalso
        have hlow : B2 &&& (2 ^ (p + 1) - 1) ≤ M % 2 ^ p := by
          rw [no_bit_mask_drop hb2p]
          rw [← Nat.and_pow_two_sub_one_eq_mod M p]
          apply le_of_subset
          exact subset_land_mask hB2
        omega
      · -- bit p present: B2 is at least the successor
        have hbit : (B2 &&& (2 ^ (p + 1) - 1)).testBit p = true := by
          rw [Nat.testBit_land, hb2p, Nat.testBit_two_pow_sub_one]
          simp
        have hge := two_pow_le_of_testBit hbit
        rw [hCadd]
        omega
    · -- high part larger: at least one full step above
      have hstep : (B &&& not64 (2 ^ (p + 1) - 1)) + 2 ^ (p + 1) ≤
          (B2 &&& not64 (2 ^ (p + 1) - 1)) := by
        have hd := Nat.dvd_sub' hB2hiDvd hBhiDvd
        have hpos : 0 < (B2 &&& not64 (2 ^ (p + 1) - 1)) -
            (B &&& not64 (2 ^ (p + 1) - 1)) := by omega
        have := Nat.le_of_dvd hpos hd
        omega
      rw [hCadd]
      have hq2 : (2:Nat) ^ (p + 1) = 2 * 2 ^ p := by ring
      omega

/-- The Carry-Rippler step on the full mask returns to the empty subset. -/
theorem carry_rippler_last {M : Nat} (hMU : M < U) : wsub M M &&& M = 0 := by
  have h0 : wsub M M = 0 := by
    unfold wsub
    rw [Nat.mod_eq_of_lt hMU]
    have : M + (U - M) = U := by omega
    rw [this]
    exact Nat.mod_self U
  rw [h0]
  exact Nat.zero_and M

theorem exists_testBit_of_ne_zero {x : Nat} (h : x ≠ 0) :
    ∃ u, x.testBit u = true := by
  by_contra hc
  push_neg at hc
  apply h
  apply Nat.eq_of_testBit_eq
  intro u
  rw [Nat.zero_testBit]
  cases hx : x.testBit u
  · rfl
  · exact absurd hx (hc u)

/-- A ray walk only ever adds squares to its accumulator. -/
theorem rayWalk_acc_mono {step : Nat → Nat} {edge blocker : Nat} :
    ∀ fuel ptr acc u, acc.testBit u = true →
      (rayWalk step edge blocker fuel ptr acc).testBit u = true := by
  intro fuel
  induction fuel with
  | zero =>
    intro ptr acc u h
    exact h
  | succ fuel ih =>
    intro ptr acc u h
    rw [rayWalk]
    by_cases he : ptr &&& edge = 0
    · rw [if_pos he]
      dsimp only
      by_cases hb : step ptr &&& blocker = 0
      · rw [if_pos hb]
        apply ih
        rw [Nat.testBit_lor, h]
        rfl
      · rw [if_neg hb]
        rw [Nat.testBit_lor, h]
        rfl
    · rw [if_neg he]
      exact h

/-- If the origin is off the edge, the first stepped-to square is recorded. -/
theorem rayWalk_first_step {step : Nat → Nat} {edge blocker : Nat} :
    ∀ fuel ptr acc, 0 < fuel → ptr &&& edge = 0 → ∀ u,
      (step ptr).testBit u = true →
      (rayWalk step edge blocker fuel ptr acc).testBit u = true := by
  intro fuel
  cases fuel with
  | zero =>
    intro ptr acc h0
    omega
  | succ fuel =>
    intro ptr acc _ he u hstep
    rw [rayWalk, if_pos he]
    dsimp only
    by_cases hb : step ptr &&& blocker = 0
    · rw [if_pos hb]
      apply rayWalk_acc_mono
      rw [Nat.testBit_lor, hstep]
      simp
    · rw [if_neg hb]
      rw [Nat.testBit_lor, hstep]
      simp

/-- Every square has a rook direction whose first step stays on the board. -/
theorem rook_dir_cases : ∀ sq, sq < 64 →
    (sqbb sq &&& RANK 7 = 0 ∧ shl (sqbb sq) 8 ≠ 0) ∨
    (sqbb sq &&& RANK 0 = 0 ∧ sqbb sq >>> 8 ≠ 0) := by decide

/-- Every square has a bishop direction whose first step stays on the board. -/
theorem bishop_dir_cases : ∀ sq, sq < 64 →
    (sqbb sq &&& (RANK 7 ||| FILE 7) = 0 ∧ shl (sqbb sq) 7 ≠ 0) ∨
    (sqbb sq &&& (RANK 0 ||| FILE 7) = 0 ∧ sqbb sq >>> 9 ≠ 0) ∨
    (sqbb sq &&& (RANK 7 ||| FILE 0) = 0 ∧ shl (sqbb sq) 9 ≠ 0) ∨
    (sqbb sq &&& (RANK 0 ||| FILE 0) = 0 ∧ sqbb sq >>> 7 ≠ 0) := by decide

theorem rook_mask_testBit_of_m1 {sq blocker u : Nat}
    (h : (rayWalk (fun p => shl p 8) (RANK 7) blocker 8 (sqbb sq) 0).testBit u = true) :
    (rook_mask (sqbb sq) blocker).testBit u = true := by
  unfold rook_mask
  apply rayWalk_acc_mono
  apply rayWalk_acc_mono
  apply rayWalk_acc_mono
  exact h

theorem rook_mask_testBit_of_m2 {sq blocker u : Nat}
    (h : (rayWalk (fun p => p >>> 8) (RANK 0) blocker 8 (sqbb sq)
      (rayWalk (fun p => shl p 8) (RANK 7) blocker 8 (sqbb sq) 0)).testBit u = true) :
    (rook_mask (sqbb sq) blocker).testBit u = true := by
  unfold rook_mask
  apply rayWalk_acc_mono
  apply rayWalk_acc_mono
  exact h

theorem bishop_mask_testBit_of_m1 {sq blocker u : Nat}
    (h : (rayWalk (fun p => shl p 7) (RANK 7 ||| FILE 7) blocker 8 (sqbb sq) 0).testBit u
      = true) :
    (bishop_mask (sqbb sq) blocker).testBit u = true := by
  unfold bishop_mask
  apply rayWalk_acc_mono
  apply rayWalk_acc_mono
  apply rayWalk_acc_mono
  exact h

theorem bishop_mask_testBit_of_m2 {sq blocker u : Nat}
    (h : (rayWalk (fun p => p >>> 9) (RANK 0 ||| FILE 7) blocker 8 (sqbb sq)
      (rayWalk (fun p => shl p 7) (RANK 7 ||| FILE 7) blocker 8 (sqbb sq) 0)).testBit u
      = true) :
    (bishop_mask (sqbb sq) blocker).testBit u = true := by
  unfold bishop_mask
  apply rayWalk_acc_mono
  apply rayWalk_acc_mono
  exact h

theorem bishop_mask_testBit_of_m3 {sq blocker u : Nat}
    (h : (rayWalk (fun p => shl p 9) (RANK 7 ||| FILE 0) blocker 8 (sqbb sq)
      (rayWalk (fun p => p >>> 9) (RANK 0 ||| FILE 7) blocker 8 (sqbb sq)
        (rayWalk (fun p => shl p 7) (RANK 7 ||| FILE 7) blocker 8 (sqbb sq) 0))).testBit u
      = true) :
    (bishop_mask (sqbb sq) blocker).testBit u = true := by
  unfold bishop_mask
  apply rayWalk_acc_mono
  exact h

theorem bishop_mask_testBit_of_m4 {sq blocker u : Nat}
    (h : (rayWalk (fun p => p >>> 7) (RANK 0 ||| FILE 0) blocker 8 (sqbb sq)
      (rayWalk (fun p => shl p 9) (RANK 7 ||| FILE 0) blocker 8 (sqbb sq)
        (rayWalk (fun p => p >>> 9) (RANK 0 ||| FILE 7) blocker 8 (sqbb sq)
          (rayWalk (fun p => shl p 7) (RANK 7 ||| FILE 7) blocker 8
            (sqbb sq) 0)))).testBit u = true) :
    (bishop_mask (sqbb sq) blocker).testBit u = true := by
  unfold bishop_mask
  exact h

/-- The ray-traced rook attack set is never empty, whatever the blockers. -/
theorem rook_mask_ne_zero {sq : Nat} (hsq : sq < 64) (blocker : Nat) :
    rook_mask (sqbb sq) blocker ≠ 0 := by
  intro h0
  rcases rook_dir_cases sq hsq with ⟨he, hne⟩ | ⟨he, hne⟩
  · obtain ⟨u, hu⟩ := exists_testBit_of_ne_zero hne
    have h1 : (rayWalk (fun p => shl p 8) (RANK 7) blocker 8 (sqbb sq) 0).testBit u
        = true := rayWalk_first_step 8 (sqbb sq) 0 (by omega) he u hu
    have h4 := rook_mask_testBit_of_m1 h1
    rw [h0] at h4
    simp at h4
  · obtain ⟨u, hu⟩ := exists_testBit_of_ne_zero hne
    have h1 : (rayWalk (fun p => p >>> 8) (RANK 0) blocker 8 (sqbb sq)
        (rayWalk (fun p => shl p 8) (RANK 7) blocker 8 (sqbb sq) 0)).testBit u
        = true := rayWalk_first_step 8 (sqbb sq) _ (by omega) he u hu
    have h4 := rook_mask_testBit_of_m2 h1
    rw [h0] at h4
    simp at h4

/-- The ray-traced bishop attack set is never empty, whatever the blockers. -/
theorem bishop_mask_ne_zero {sq : Nat} (hsq : sq < 64) (blocker : Nat) :
    bishop_mask (sqbb sq) blocker ≠ 0 := by
  intro h0
  rcases bishop_dir_cases sq hsq with ⟨he, hne⟩ | ⟨he, hne⟩ | ⟨he, hne⟩ | ⟨he, hne⟩
  · obtain ⟨u, hu⟩ := exists_testBit_of_ne_zero hne
    have h1 : (rayWalk (fun p => shl p 7) (RANK 7 ||| FILE 7) blocker 8
        (sqbb sq) 0).testBit u = true :=
      rayWalk_first_step 8 (sqbb sq) 0 (by omega) he u hu
    have h4 := bishop_mask_testBit_of_m1 h1
    rw [h0] at h4
    simp at h4
  · obtain ⟨u, hu⟩ := exists_testBit_of_ne_zero hne
    have h1 : (rayWalk (fun p => p >>> 9) (RANK 0 ||| FILE 7) blocker 8 (sqbb sq)
        (rayWalk (fun p => shl p 7) (RANK 7 ||| FILE 7) blocker 8
          (sqbb sq) 0)).testBit u = true :=
      rayWalk_first_step 8 (sqbb sq) _ (by omega) he u hu
    have h4 := bishop_mask_testBit_of_m2 h1
    rw [h0] at h4
    simp at h4
  · obtain ⟨u, hu⟩ := exists_testBit_of_ne_zero hne
    have h1 : (rayWalk (fun p => shl p 9) (RANK 7 ||| FILE 0) blocker 8 (sqbb sq)
        (rayWalk (fun p => p >>> 9) (RANK 0 ||| FILE 7) blocker 8 (sqbb sq)
          (rayWalk (fun p => shl p 7) (RANK 7 ||| FILE 7) blocker 8
            (sqbb sq) 0))).testBit u = true :=
      rayWalk_first_step 8 (sqbb sq) _ (by omega) he u hu
    have h4 := bishop_mask_testBit_of_m3 h1
    rw [h0] at h4
    simp at h4
  · obtain ⟨u, hu⟩ := exists_testBit_of_ne_zero hne
    have h1 : (rayWalk (fun p => p >>> 7) (RANK 0 ||| FILE 0) blocker 8 (sqbb sq)
        (rayWalk (fun p => shl p 9) (RANK 7 ||| FILE 0) blocker 8 (sqbb sq)
          (rayWalk (fun p => p >>> 9) (RANK 0 ||| FILE 7) blocker 8 (sqbb sq)
            (rayWalk (fun p => shl p 7) (RANK 7 ||| FILE 7) blocker 8
              (sqbb sq) 0)))).testBit u = true :=
      rayWalk_first_step 8 (sqbb sq) _ (by omega) he u hu
    have h4 := bishop_mask_testBit_of_m4 h1
    rw [h0] at h4
    simp at h4

theorem shr_lt_pow {x k n : Nat} (hx : x < 2 ^ n) (hk : k ≤ n) :
    x >>> k < 2 ^ (n - k) := by
  rw [Nat.shiftRight_eq_div_pow]
  apply Nat.div_lt_of_lt_mul
  calc x < 2 ^ n := hx
    _ = 2 ^ k * 2 ^ (n - k) := by
        rw [← pow_add]
        congr 1
        omega

theorem rook_shift_le : ∀ sq, sq < 64 → ROOK_MAGIC_SHIFT sq ≤ 64 := by decide

theorem bishop_shift_le : ∀ sq, sq < 64 → BISHOP_MAGIC_SHIFT sq ≤ 64 := by decide

/-- Bound on the hashed index. -/
theorem magic_index_lt (piece : Piece) (sq B magic : Nat) (hsq : sq < 64) :
    magic_index piece sq B magic <
      (if piece = Piece.Rook then 2 ^ (64 - ROOK_MAGIC_SHIFT sq)
       else 2 ^ (64 - BISHOP_MAGIC_SHIFT sq)) := by
  unfold magic_index
  by_cases hpc : piece = Piece.Rook
  · rw [if_pos hpc, if_pos hpc]
    exact shr_lt_pow (show wmul B magic < 2 ^ 64 from Nat.mod_lt _ U_pos)
      (rook_shift_le sq hsq)
  · rw [if_neg hpc, if_neg hpc]
    exact shr_lt_pow (show wmul B magic < 2 ^ 64 from Nat.mod_lt _ U_pos)
      (bishop_shift_le sq hsq)

theorem getD_set_self {l : List Nat} {i : Nat} (a : Nat) (h : i < l.length) :
    (l.set i a).getD i 0 = a := by
  rw [List.getD_eq_getElem?_getD, List.getElem?_set_eq h]
  rfl

theorem getD_set_other {l : List Nat} {i j : Nat} (a : Nat) (h : i ≠ j) :
    (l.set i a).getD j 0 = l.getD j 0 := by
  rw [List.getD_eq_getElem?_getD, List.getElem?_set_ne h,
    ← List.getD_eq_getElem?_getD]

theorem getD_replicate_zero (n j : Nat) :
    (List.replicate n (0:Nat)).getD j 0 = 0 := by
  rw [List.getD_eq_getElem?_getD]
  by_cases h : j < n
  · rw [List.getElem?_replicate_of_lt h]
    rfl
  · rw [List.getElem?_eq_none (by simp; omega)]
    rfl

/-- Soundness of the Carry-Rippler verification loop: if it accepts, every
subset of the mask hashes to a slot holding its ray-traced attack mask. -/
theorem check_loop_sound (piece : Piece) (sq magic M : Nat) (lookup : List Nat)
    (hMU : M < U) (hsq : sq < 64)
    (hmm_ne : ∀ B2, (if piece = Piece.Rook then rook_mask (sqbb sq) B2
        else bishop_mask (sqbb sq) B2) ≠ 0) :
    ∀ fuel lk B, B &&& M = B →
      lk.length = (if piece = Piece.Rook then 2 ^ (64 - ROOK_MAGIC_SHIFT sq)
        else 2 ^ (64 - BISHOP_MAGIC_SHIFT sq)) →
      (∀ B2, B2 &&& M = B2 → B2 < B →
        lk.getD (magic_index piece sq B2 magic) 0 =
          (if piece = Piece.Rook then rook_mask (sqbb sq) B2
           else bishop_mask (sqbb sq) B2)) →
      (∀ j, lk.getD j 0 ≠ 0 → ∃ B2, B2 &&& M = B2 ∧ B2 < B ∧
        magic_index piece sq B2 magic = j ∧ lk.getD j 0 =
          (if piece = Piece.Rook then rook_mask (sqbb sq) B2
           else bishop_mask (sqbb sq) B2)) →
      check_loop piece sq magic M fuel lk B = some lookup →
      ∀ B2, B2 &&& M = B2 →
        lookup.getD (magic_index piece sq B2 magic) 0 =
          (if piece = Piece.Rook then rook_mask (sqbb sq) B2
           else bishop_mask (sqbb sq) B2) := by
  intro fuel
  induction fuel with
  | zero =>
    intro lk B _ _ _ _ hrun
    rw [check_loop] at hrun
    exact absurd hrun (by simp)
  | succ fuel ih =>
    intro lk B hBM hlen hprev hslots hrun
    rw [check_loop] at hrun
    dsimp only at hrun
    by_cases hcur : lk.getD (magic_index piece sq B magic) 0 = 0
    · rw [if_pos hcur] at hrun
      have hidxB_len : magic_index piece sq B magic < lk.length := by
        rw [hlen]
        exact magic_index_lt piece sq B magic hsq
      have hget_new : (lk.set (magic_index piece sq B magic)
          (if piece = Piece.Rook then rook_mask (sqbb sq) B
           else bishop_mask (sqbb sq) B)).getD (magic_index piece sq B magic) 0 =
          (if piece = Piece.Rook then rook_mask (sqbb sq) B
           else bishop_mask (sqbb sq) B) := getD_set_self _ hidxB_len
      have hlen2 : (lk.set (magic_index piece sq B magic)
          (if piece = Piece.Rook then rook_mask (sqbb sq) B
           else bishop_mask (sqbb sq) B)).length =
          (if piece = Piece.Rook then 2 ^ (64 - ROOK_MAGIC_SHIFT sq)
           else 2 ^ (64 - BISHOP_MAGIC_SHIFT sq)) := by
        rw [List.length_set]
        exact hlen
      have hprev2 : ∀ B2, B2 &&& M = B2 → B2 < B →
          (lk.set (magic_index piece sq B magic)
            (if piece = Piece.Rook then rook_mask (sqbb sq) B
             else bishop_mask (sqbb sq) B)).getD (magic_index piece sq B2 magic) 0 =
          (if piece = Piece.Rook then rook_mask (sqbb sq) B2
           else bishop_mask (sqbb sq) B2) := by
        intro B2 h2 hlt
        by_cases hj : magic_index piece sq B magic = magic_index piece sq B2 magic
        · exfalso
          have h3 := hprev B2 h2 hlt
          rw [← hj, hcur] at h3
          exact hmm_ne B2 h3.symm
        · rw [getD_set_other _ hj]
          exact hprev B2 h2 hlt
      by_cases hend : wsub B M &&& M = 0
      · rw [if_pos hend] at hrun
        simp only [Option.some.injEq] at hrun
        have hBeqM : B = M := by
          by_contra hne
          obtain ⟨C, hCeq, _, _, hC0, _⟩ := carry_rippler_step hMU hBM hne
          rw [hCeq] at hend
          exact hC0 hend
        intro B2 h2
        have hle : B2 ≤ B := by
          rw [hBeqM]
          exact le_of_subset h2
        rcases lt_or_eq_of_le hle with hlt | heq
        · rw [← hrun]
          exact hprev2 B2 h2 hlt
        · rw [← hrun, heq]
          exact hget_new
      · rw [if_neg hend] at hrun
        have hBneM : B ≠ M := by
          intro he
          apply hend
          rw [he]
          exact carry_rippler_last hMU
        obtain ⟨C, hCeq, hCM, hBC, hC0, hCmin⟩ := carry_rippler_step hMU hBM hBneM
        rw [hCeq] at hrun
        refine ih _ C hCM hlen2 ?_ ?_ hrun
        · intro B2 h2 hltC
          have hle : B2 ≤ B := by
            by_contra hgt
            push_neg at hgt
            exact absurd hltC (by
              have := hCmin B2 h2 hgt
              omega)
          rcases lt_or_eq_of_le hle with hlt | heq
          · exact hprev2 B2 h2 hlt
          · rw [heq]
            exact hget_new
        · intro j hj
          by_cases hje : magic_index piece sq B magic = j
          · refine ⟨B, hBM, hBC, hje, ?_⟩
            rw [← hje]
            exact hget_new
          · rw [getD_set_other _ hje] at hj
            obtain ⟨B2, h2, hlt, hidx2, hval⟩ := hslots j hj
            exact ⟨B2, h2, lt_trans hlt hBC, hidx2, by
              rw [getD_set_other _ hje]
              exact hval⟩
    · rw [if_neg hcur] at hrun
      by_cases hcoll : lk.getD (magic_index piece sq B magic) 0 =
          (if piece = Piece.Rook then rook_mask (sqbb sq) B
           else bishop_mask (sqbb sq) B)
      · rw [if_pos hcoll] at hrun
        by_cases hend : wsub B M &&& M = 0
        · rw [if_pos hend] at hrun
          simp only [Option.some.injEq] at hrun
          have hBeqM : B = M := by
            by_contra hne
            obtain ⟨C, hCeq, _, _, hC0, _⟩ := carry_rippler_step hMU hBM hne
            rw [hCeq] at hend
            exact hC0 hend
          intro B2 h2
          have hle : B2 ≤ B := by
            rw [hBeqM]
            exact le_of_subset h2
          rcases lt_or_eq_of_le hle with hlt | heq
          · rw [← hrun]
            exact hprev B2 h2 hlt
          · rw [← hrun, heq]
            exact hcoll
        · rw [if_neg hend] at hrun
          have hBneM : B ≠ M := by
            intro he
            apply hend
            rw [he]
            exact carry_rippler_last hMU
          obtain ⟨C, hCeq, hCM, hBC, hC0, hCmin⟩ := carry_rippler_step hMU hBM hBneM
          rw [hCeq] at hrun
          refine ih _ C hCM hlen ?_ ?_ hrun
          · intro B2 h2 hltC
            have hle : B2 ≤ B := by
              by_contra hgt
              push_neg at hgt
              exact absurd hltC (by
                have := hCmin B2 h2 hgt
                omega)
            rcases lt_or_eq_of_le hle with hlt | heq
            · exact hprev B2 h2 hlt
            · rw [heq]
              exact hcoll
          · intro j hj
            obtain ⟨B2, h2, hlt, hidx2, hval⟩ := hslots j hj
            exact ⟨B2, h2, lt_trans hlt hBC, hidx2, hval⟩
      · rw [if_neg hcoll] at hrun
        exact absurd hrun (by simp)

theorem blocker_masks_lt_U : ∀ sq, sq < 64 →
    rook_all_blockers_mask sq < U ∧ bishop_all_blockers_mask sq < U := by decide

/-- C7: every (magic, lookup) pair accepted by the `check_if_magic` search
predicate of `find_magic` satisfies the magic property: for every subset `B`
of the square's relevant-blocker mask, the table entry at index
`(B * magic) >> shift[square]` (with wrapping multiplication) equals the
ray-traced attack bitmask from that square with blocker set `B`. -/
theorem c7_magic_property (piece : Piece) (sq magic : Nat) (lookup : List Nat)
    (hsq : sq < 64) (hacc : find_magic_accepts piece sq magic lookup) :
    ∀ B, B &&& (if piece = Piece.Rook then rook_all_blockers_mask sq
        else bishop_all_blockers_mask sq) = B →
      lookup.getD (magic_index piece sq B magic) 0 =
        (if piece = Piece.Rook then rook_mask (sqbb sq) B
         else bishop_mask (sqbb sq) B) := by
  unfold find_magic_accepts check_if_magic at hacc
  dsimp only at hacc
  have hMU : (if piece = Piece.Rook then rook_all_blockers_mask sq
      else bishop_all_blockers_mask sq) < U := by
    by_cases hpc : piece = Piece.Rook
    · rw [if_pos hpc]
      exact (blocker_masks_lt_U sq hsq).1
    · rw [if_neg hpc]
      exact (blocker_masks_lt_U sq hsq).2
  have hmm_ne : ∀ B2, (if piece = Piece.Rook then rook_mask (sqbb sq) B2
      else bishop_mask (sqbb sq) B2) ≠ 0 := by
    intro B2
    by_cases hpc : piece = Piece.Rook
    · rw [if_pos hpc]
      exact rook_mask_ne_zero hsq B2
    · rw [if_neg hpc]
      exact bishop_mask_ne_zero hsq B2
  exact check_loop_sound piece sq magic _ lookup hMU hsq hmm_ne U _ 0
    (Nat.zero_and _)
    (by
      rw [List.length_replicate])
    (fun B2 _ h => absurd h (Nat.not_lt_zero B2))
    (fun j hj => absurd (getD_replicate_zero _ j) hj)
    hacc

/-- Witness for C7: `bmagic0` is accepted for the bishop on h1, and the full
blocker mask hashes to its ray-traced attack set. -/
theorem c7_witness :
    bishop0_table.getD
      (magic_index .Bishop 0 (bishop_all_blockers_mask 0) bmagic0) 0 =
      bishop_mask (sqbb 0) (bishop_all_blockers_mask 0) :=
  c7_magic_property .Bishop 0 bmagic0 bishop0_table (by norm_num) rfl
    (bishop_all_blockers_mask 0) (by decide)

end Chess